import Mathlib

/-!
Verification development for pymc/logprob/mixture.py.

The file shallowly embeds the mixture-detection rewrite rules
(mixture_replace, switch_mixture_replace), the MixtureRV placeholder Op,
the mixture log-density evaluator (logprob_MixtureRV), and the index
expansion algorithm (expand_indices), and proves properties about them.

Tensors are modelled as a shape (a list of axis sizes) together with a
total function from coordinate lists to entries; integer index arrays use
Int entries and log-density values use Rat entries.  Operations of the
external tensor library (pytensor) that the source calls — unit-axis
insertion, broadcasting, arange, slice canonicalisation — are modelled
from their documented NumPy semantics, since the library itself is an
external collaborator of this subsystem.
-/

namespace PyMCMix

/-- Tensor model: a shape together with a total entry function.  The entry
function is meaningful on coordinate lists of the shape's length whose
entries lie inside the corresponding axis sizes. -/
structure NdArr (α : Type) where
  shape : List Nat
  get : List Int → α

/-- Number of dimensions of a tensor. -/
def NdArr.ndim (A : NdArr α) : Nat := A.shape.length

/-- Model of x[(None,) * n]: insert n unit axes at the front. -/
def unsqueezeFront (n : Nat) (A : NdArr α) : NdArr α :=
  ⟨List.replicate n 1 ++ A.shape, fun c => A.get (c.drop n)⟩

/-- Model of x[(Ellipsis,) + (None,) * n]: append n unit axes at the back. -/
def unsqueezeBack (n : Nat) (A : NdArr α) : NdArr α :=
  ⟨A.shape ++ List.replicate n 1, fun c => A.get (c.take A.ndim)⟩

/-- Broadcast combination of two axis sizes (NumPy rule: a size-1 axis
stretches to the other size). -/
def comb (a b : Nat) : Nat := if a = 1 then b else a

/-- Pad a shape on the left with unit axes up to length n. -/
def padLeft1 (n : Nat) (l : List Nat) : List Nat :=
  List.replicate (n - l.length) 1 ++ l

/-- NumPy broadcast of two shapes (right-aligned, unit axes stretch). -/
def broadcastShapes2 (s t : List Nat) : List Nat :=
  let n := max s.length t.length
  List.zipWith comb (padLeft1 n s) (padLeft1 n t)

/-- Coordinate transformation realising a broadcast: align the source shape
with the right end of the target coordinates and send stretched (size-1)
axes to coordinate 0. -/
def bcastCoord (src : List Nat) (tgtLen : Nat) (c : List Int) : List Int :=
  List.zipWith (fun s ci => if s = 1 then 0 else ci) src (c.drop (tgtLen - src.length))

/-- Model of np.broadcast_to: reinterpret A under the (broadcast-compatible)
target shape S. -/
def broadcastTo (S : List Nat) (A : NdArr α) : NdArr α :=
  ⟨S, fun c => A.get (bcastCoord A.shape S.length c)⟩

/-- Model of pt.broadcast_arrays: broadcast all arrays to their common
shape. -/
def broadcastArrays (l : List (NdArr Int)) : List (NdArr Int) :=
  let S := l.foldl (fun acc A => broadcastShapes2 acc A.shape) []
  l.map (broadcastTo S)

/-- Model of Python str.startswith (dtype names are Python strings). -/
def strStartsWith (s p : String) : Bool := p.data.isPrefixOf s.data

/-- Python slice object with optional start, stop and step. -/
structure PySlice where
  start : Option Int
  stop : Option Int
  step : Option Int

/-- Full slice, written slice(None) in the source. -/
def fullSlice : PySlice := ⟨none, none, none⟩

/-- Python slice.indices semantics: resolve a slice against an axis length
to concrete start, stop and step, preserving the step's sign.  This is the
specification-side meaning of applying a slice. -/
def sliceIndices (sl : PySlice) (n : Int) : Int × Int × Int :=
  let st := sl.step.getD 1
  if 0 ≤ st then
    let a := match sl.start with
      | none => 0
      | some s => if s < 0 then max (s + n) 0 else min s n
    let b := match sl.stop with
      | none => n
      | some s => if s < 0 then max (s + n) 0 else min s n
    (a, b, st)
  else
    let a := match sl.start with
      | none => n - 1
      | some s => if s < 0 then max (s + n) (-1) else min s (n - 1)
    let b := match sl.stop with
      | none => -1
      | some s => if s < 0 then max (s + n) (-1) else min s (n - 1)
    (a, b, st)

/-- Number of elements of arange(start, stop, step). -/
def rangeLen (start stop step : Int) : Nat :=
  if 0 < step then ((stop - start + step - 1) / step).toNat
  else if step < 0 then ((start - stop + (-step) - 1) / (-step)).toNat
  else 0

/-- Model of the composition of as_index_literal and
get_canonical_form_slice as the source uses it (mixture.py lines 166-168):
get_canonical_form_slice returns a direction-normalized canonical slice
(start, stop and a step that is always positive) together with a ±1
direction flag telling whether the selected elements must be reversed, and
the source discards that flag.  For a nonnegative resolved step this agrees
with slice.indices; for a negative resolved step it yields the ascending
enumeration of the same index set, losing the reversal. -/
def sliceCanonical (sl : PySlice) (n : Int) : Int × Int × Int :=
  let r := sliceIndices sl n
  if 0 ≤ r.2.2 then r
  else
    let L : Int := (rangeLen r.1 r.2.1 r.2.2 : Nat)
    if L = 0 then (0, 0, 1)
    else (r.1 + (L - 1) * r.2.2, r.1 + 1, -r.2.2)

/-- The resolved step of slice.indices is the slice's declared step. -/
lemma sliceIndices_step (sl : PySlice) (n : Int) :
    (sliceIndices sl n).2.2 = sl.step.getD 1 := by
  have key : ∀ (x y : Int × Int × Int) (c : Prop) (inst : Decidable c),
      x.2.2 = sl.step.getD 1 → y.2.2 = sl.step.getD 1 →
      (if c then x else y).2.2 = sl.step.getD 1 := by
    intro x y c inst hx hy
    by_cases hc : c
    · rw [if_pos hc]
      exact hx
    · rw [if_neg hc]
      exact hy
  exact key _ _ _ _ rfl rfl

/-- For slices whose declared step is nonnegative, the source's canonical
form coincides with slice.indices. -/
lemma sliceCanonical_of_nonneg (sl : PySlice) (n : Int)
    (h : 0 ≤ sl.step.getD 1) :
    sliceCanonical sl n = sliceIndices sl n := by
  unfold sliceCanonical
  rw [if_pos (by rw [sliceIndices_step]; exact h)]

/-- Model of pt.arange(start, stop, step) as a 1-d integer array. -/
def arangeArr (start stop step : Int) : NdArr Int :=
  ⟨[rangeLen start stop step], fun c => start + c.headI * step⟩

/-- Index specification: a basic slice, a new-axis marker, or an advanced
(array-valued, possibly 0-d) integer index. -/
inductive IndexSpec where
  | slc (sl : PySlice)
  | newaxis
  | arr (a : NdArr Int)

/-- Model of is_newaxis (mixture.py lines 82-83). -/
def is_newaxis : IndexSpec → Bool
  | .newaxis => true
  | _ => false

/-- Model of pytensor's is_basic_idx: slices and new-axis markers are
basic, array-valued (including 0-d) indices are advanced. -/
def is_basic_idx : IndexSpec → Bool
  | .slc _ => true
  | .newaxis => true
  | .arr _ => false

/-- An index entry whose declared step is nonnegative (a missing step
defaults to 1).  On such entries get_canonical_form_slice performs no
direction normalization, so the reversal flag that expand_indices
discards (mixture.py line 166) is trivial. -/
def stepNonNeg : IndexSpec → Bool
  | .slc sl => decide (0 ≤ sl.step.getD 1)
  | _ => true

/-- Model of Python list.index(x, start): position of the first occurrence
of b in l at position start or later. -/
def findFrom (l : List Bool) (b : Bool) (start : Nat) : Option Nat :=
  ((l.drop start).findIdx? (· = b)).map (· + start)

/-- Number of dimensions of an index specification (getattr(idx, "ndim", 0)
in the source). -/
def specNdim : IndexSpec → Nat
  | .arr a => a.ndim
  | _ => 0

/-- Loop body of expand_indices (mixture.py lines 136-199): traverse the
padded index specifications, popping one axis size per non-newaxis entry
and counting preceding basic entries, and materialize for each non-newaxis
entry an index array padded with unit axes to its position in the combined
output space. -/
def expandLoop (moved_subspace : Bool)
    (n_basic_indices n_subspace_dims n_output_dims first_adv_idx : Nat) :
    Nat → List IndexSpec → List Nat → Nat → List (NdArr Int)
  | _, [], _, _ => []
  | d, idx :: rest, shape_copy, n_preceding_basics =>
    match idx with
    | .arr a =>
      let expanded_idx :=
        if moved_subspace then
          unsqueezeBack n_basic_indices a
        else
          unsqueezeBack (n_basic_indices - n_preceding_basics)
            (unsqueezeFront n_preceding_basics a)
      expanded_idx ::
        expandLoop moved_subspace n_basic_indices n_subspace_dims
          n_output_dims first_adv_idx (d + 1) rest shape_copy.tail
          n_preceding_basics
    | .newaxis =>
      expandLoop moved_subspace n_basic_indices n_subspace_dims
        n_output_dims first_adv_idx (d + 1) rest shape_copy
        (n_preceding_basics + 1)
    | .slc sl =>
      let s := shape_copy.headI
      let abc := sliceCanonical sl (s : Int)
      let ar := arangeArr abc.1 abc.2.1 abc.2.2
      let expanded_idx :=
        if moved_subspace then
          unsqueezeBack (n_basic_indices - n_preceding_basics - 1)
            (unsqueezeFront (n_subspace_dims + n_preceding_basics) ar)
        else
          let n_preceding_dims :=
            (if first_adv_idx < d then n_subspace_dims else 0) +
              n_preceding_basics
          unsqueezeBack (n_output_dims - n_preceding_dims - 1)
            (unsqueezeFront n_preceding_dims ar)
      expanded_idx ::
        expandLoop moved_subspace n_basic_indices n_subspace_dims
          n_output_dims first_adv_idx (d + 1) rest shape_copy.tail
          (n_preceding_basics + 1)

/-- Model of expand_indices (mixture.py lines 86-201): convert basic and/or
advanced indices into a single, broadcasted advanced indexing operation. -/
def expand_indices (indices : List IndexSpec) (shape : List Nat) :
    List (NdArr Int) :=
  let n_non_newaxis := (indices.filter (fun i => !is_newaxis i)).length
  let n_missing_dims := shape.length - n_non_newaxis
  let full_indices := indices ++ List.replicate n_missing_dims (IndexSpec.slc fullSlice)
  let index_types := full_indices.map is_basic_idx
  let fa? := findFrom index_types false 0
  let first_adv_idx := fa?.getD shape.length
  let moved_subspace :=
    match fa? with
    | none => false
    | some fa =>
      match findFrom index_types true fa with
      | none => false
      | some fb => (findFrom index_types false fb).isSome
  let n_basic_indices := (index_types.filter id).length
  let n_subspace_dims :=
    ((full_indices.filter (fun i => !is_basic_idx i)).map specNdim).foldr max 0
  let n_output_dims := n_subspace_dims + n_basic_indices
  broadcastArrays
    (expandLoop moved_subspace n_basic_indices n_subspace_dims n_output_dims
      first_adv_idx 0 full_indices shape 0)

/-- Gather an array at a tuple of (same-shaped) integer index arrays,
treating the tuple as a single combined advanced index: the result has the
common shape of the index arrays and reads the source at the per-axis
positions they give. -/
def gatherAt (A : NdArr α) (idxs : List (NdArr Int)) : NdArr α :=
  ⟨((idxs.head?).map NdArr.shape).getD [], fun c => A.get (idxs.map (fun e => e.get c))⟩

/-- Component random variable of a candidate mixture, as the rewriter sees
it: whether its owner is a MeasurableVariable, whether it is already bound
to an observed value in the rv_values map, whether ignore_logprob has
wrapped it, and its own log-density rule (used by the evaluator through the
dispatch registry). -/
structure CompRV where
  isMeasurable : Bool
  hasValue : Bool
  wrapped : Bool
  shape : List Nat
  logpdf : NdArr ℚ → NdArr ℚ

/-- Model of ignore_logprob: wrap a component so that it is not directly
measurable (excluded from direct log-density consideration). -/
def ignore_logprob (c : CompRV) : CompRV :=
  { c with wrapped := true }

/-- Join axis input of a stacking (Join) node before constant folding. -/
inductive JoinAxisVar where
  | intConst (v : Int)
  | symbolic
deriving DecidableEq

/-- Join-axis value stored in the rewriter's outcome: NoneConst for a
MakeVector stack, a folded integer constant, or a still-symbolic variable. -/
inductive AxisInput where
  | noneConst
  | intConst (v : Int)
  | symbolic
deriving DecidableEq

/-- Model of pymc.pytensorf.constant_fold on the join axis with
raise_not_constant=False: a constant folds to its value, a symbolic
variable is returned unchanged. -/
def constant_fold_axis : JoinAxisVar → AxisInput
  | .intConst v => .intConst v
  | .symbolic => .symbolic

/-- Owner of the first input of the indexing node: a MakeVector stack, an
axis-based Join stack, or anything else (not a concatenation). -/
inductive StackOwner where
  | makeVector (comps : List CompRV)
  | join (axis : JoinAxisVar) (comps : List CompRV)
  | other

/-- Index argument of the indexing node: a SliceConstant carrying its
slice, or a tensor index carrying its dtype name, its broadcastable
pattern, and its runtime array value (0-d for scalar indices). -/
inductive IdxArg where
  | sliceConstant (sl : PySlice)
  | tensorIdx (dtype : String) (broadcastable : List Bool) (val : NdArr Int)

/-- Indexing node examined by mixture_replace: whether its op is of the
advanced-index family, the owner of its first input, its remaining index
arguments, and the dtype/broadcastable pattern of its output. -/
structure SubtensorIn where
  isAdvanced : Bool
  stacked : StackOwner
  mixingIndices : List IdxArg
  outDtype : String
  outBroadcastable : List Bool

/-- Model of get_stack_mixture_vars (mixture.py lines 242-270): extract the
mixture components and the join axis from a subtensor applied to stacked
measurable variables; (none, none) signals that the first input is not a
concatenation. -/
def get_stack_mixture_vars (node : SubtensorIn) :
    Option (List CompRV) × Option AxisInput :=
  match node.stacked with
  | .other => (none, none)
  | .makeVector comps => (some comps, some .noneConst)
  | .join axis comps => (some comps, some (constant_fold_axis axis))

/-- Model of isinstance(join_axis, (NoneTypeT, Constant)): NoneConst and
folded constants are Constant instances, a symbolic variable is not, and
Python None (no stack found) is neither. -/
def isNoneTypeOrConstant : Option AxisInput → Bool
  | none => false
  | some .noneConst => true
  | some (.intConst _) => true
  | some .symbolic => false

/-- The repeated-selection guard of mixture_replace (lines 313-317): an
index argument other than a SliceConstant whose dtype starts with "int"
and which has at least one non-broadcastable dimension. -/
def intArrayIdxCheck (i : IdxArg) : Bool :=
  match i with
  | .sliceConstant _ => false
  | .tensorIdx dtype broadcastable _ =>
      strStartsWith dtype "int" &&
        ((broadcastable.map (fun b => 1 - (if b then (1 : Nat) else 0))).sum > 0)

/-- Placeholder Op attributes (mixture.py lines 221-233). -/
structure MixtureRV where
  indices_end_idx : Nat
  out_dtype : String
  out_broadcastable : List Bool

/-- Input of a placeholder Apply node: the join axis slot, an index
argument, or a (wrapped) component. -/
inductive GVar where
  | axis (a : Option AxisInput)
  | idx (i : IdxArg)
  | comp (c : CompRV)

/-- Placeholder Apply node: the op together with its ordered inputs. -/
structure MixtureRVApply where
  op : MixtureRV
  inputs : List GVar

/-- Model of MixtureRV.perform (lines 235-236): always raises, since the
placeholder is a pure marker Op. -/
def MixtureRV.perform (_op : MixtureRV) (_inputs : List GVar) :
    Except String Unit :=
  .error "NotImplementedError: This is a stand-in Op."

/-- Model of mixture_replace (mixture.py lines 273-351): recognise
indexing into a stack of measurable components and replace it with a
MixtureRV placeholder, or decline by returning none. -/
def mixture_replace (hasRvMapFeature : Bool) (node : SubtensorIn) :
    Option MixtureRVApply :=
  if !hasRvMapFeature then none
  else
    match get_stack_mixture_vars node with
    | (mixture_rvs?, join_axis) =>
      if mixture_rvs?.isNone || !isNoneTypeOrConstant join_axis then none
      else
        match mixture_rvs? with
        | none => none
        | some mixture_rvs =>
          if !(mixture_rvs.all fun rv => rv.isMeasurable && !rv.hasValue) then none
          else
            let mixing_indices := node.mixingIndices
            if node.isAdvanced && mixing_indices.any intArrayIdxCheck then none
            else
              let new_mixture_rvs := mixture_rvs.map ignore_logprob
              let mix_op : MixtureRV :=
                { indices_end_idx := 1 + mixing_indices.length
                  out_dtype := node.outDtype
                  out_broadcastable := node.outBroadcastable }
              some { op := mix_op
                     inputs := GVar.axis join_axis ::
                       (mixing_indices.map GVar.idx ++
                        new_mixture_rvs.map GVar.comp) }

/-- Elementwise conditional node examined by switch_mixture_replace:
whether the scalar op is a Switch, the runtime value of the condition, the
two branch inputs (true branch first), and the output dtype/broadcastable
pattern. -/
structure SwitchIn where
  isSwitchOp : Bool
  cond : Bool
  input1 : CompRV
  input2 : CompRV
  outDtype : String
  outBroadcastable : List Bool

/-- Model of as_nontensor_scalar applied to the boolean condition: a 0-d
boolean scalar whose numeric value is 1 for True and 0 for False. -/
def as_nontensor_scalar (c : Bool) : IdxArg :=
  .tensorIdx "bool" [] ⟨[], fun _ => if c then 1 else 0⟩

/-- Model of switch_mixture_replace (mixture.py lines 354-397): recognise
switch(cond, a, b) over two measurable components and replace it with a
MixtureRV placeholder with indices_end_idx 2, or decline. -/
def switch_mixture_replace (hasRvMapFeature : Bool) (node : SwitchIn) :
    Option MixtureRVApply :=
  if !hasRvMapFeature then none
  else if !node.isSwitchOp then none
  else if !(node.input1.isMeasurable && !node.input1.hasValue) then none
  else if !(node.input2.isMeasurable && !node.input2.hasValue) then none
  else
    let mixture_rvs := [ignore_logprob node.input1, ignore_logprob node.input2]
    let mix_op : MixtureRV :=
      { indices_end_idx := 2
        out_dtype := node.outDtype
        out_broadcastable := node.outBroadcastable }
    some { op := mix_op
           inputs := GVar.axis (some .noneConst) ::
             (GVar.idx (as_nontensor_scalar node.cond) ::
              mixture_rvs.map GVar.comp) }

/-- Constant 0-d array. -/
def ofScalar (v : α) : NdArr α := ⟨[], fun _ => v⟩

/-- Model of pt.zeros_like. -/
def zerosLike (A : NdArr ℚ) : NdArr ℚ := ⟨A.shape, fun _ => 0⟩

/-- Elementwise addition with NumPy broadcasting. -/
def ndAdd (A B : NdArr ℚ) : NdArr ℚ :=
  let S := broadcastShapes2 A.shape B.shape
  ⟨S, fun c => (broadcastTo S A).get c + (broadcastTo S B).get c⟩

/-- Model of pt.expand_dims: insert a unit axis at the given position. -/
def expandDims (A : NdArr α) (a : Nat) : NdArr α :=
  ⟨A.shape.insertIdx a 1, fun c => A.get (c.eraseIdx a)⟩

/-- Model of pt.squeeze at one axis: drop the (unit) axis at the given
position. -/
def squeezeAx (A : NdArr α) (a : Nat) : NdArr α :=
  ⟨A.shape.eraseIdx a, fun c => A.get (c.insertIdx a 0)⟩

/-- Runtime ndim of an index input (len of its broadcastable pattern). -/
def gvarNdim : GVar → Nat
  | .idx (.tensorIdx _ broadcastable _) => broadcastable.length
  | _ => 0

/-- Runtime scalar value of a 0-d index input. -/
def gvarScalarInt : GVar → Int
  | .idx (.tensorIdx _ _ a) => a.get []
  | _ => 0

/-- Reading an index input back as an index specification for
expand_indices. -/
def gvarToIndexSpec : GVar → IndexSpec
  | .idx (.sliceConstant sl) => .slc sl
  | .idx (.tensorIdx _ _ a) => .arr a
  | _ => .arr ⟨[], fun _ => 0⟩

/-- Reading a component input back as a component (the source casts). -/
def gvarComp : GVar → CompRV
  | .comp c => c
  | _ => ⟨false, false, false, [], fun v => v⟩

/-- Scalar-index accumulation loop of logprob_MixtureRV (mixture.py lines
463-472): sum over the enumerated components of ifelse(eq(indices[0], i),
comp_logp, zeros_like(comp_logp)), squeezing the join axis out of each
component log-density when the join axis is a real one. -/
def scalarPathLoop (join_axis_val : Option Nat) (idx0 : Int)
    (value : NdArr ℚ) : Nat → List CompRV → NdArr ℚ → NdArr ℚ
  | _, [], logp_val => logp_val
  | i, comp_rv :: rest, logp_val =>
    let comp_logp := comp_rv.logpdf value
    let comp_logp :=
      match join_axis_val with
      | some a => squeezeAx comp_logp a
      | none => comp_logp
    scalarPathLoop join_axis_val idx0 value (i + 1) rest
      (ndAdd logp_val
        (if idx0 = (i : Int) then comp_logp else zerosLike comp_logp))

/-- Single step of the scatter loop of the array-index path of
logprob_MixtureRV (mixture.py lines 434-448): overwrite the positions
where the join-axis expanded index equals m with component m's gathered
log-density contribution.  The contribution function abstracts the
externally dispatched log-density of the pulled-down re-indexed component
at the gathered value. -/
def scatterStep (jidx : NdArr Int) (contrib : Nat → List Int → ℚ)
    (logp_val : NdArr ℚ) (m : Nat) : NdArr ℚ :=
  ⟨logp_val.shape,
   fun p => if jidx.get p = (m : Int) then contrib m p else logp_val.get p⟩

/-- Scatter loop of the array-index path of logprob_MixtureRV (mixture.py
lines 432-448), assembled from scatterStep over the enumerated components,
starting from an uninitialized buffer (pt.empty) shaped like the broadcast
indices. -/
def mixtureScatter (bufShape : List Nat) (uninit : List Int → ℚ)
    (jidx : NdArr Int) (contrib : Nat → List Int → ℚ) (n : Nat) :
    NdArr ℚ :=
  (List.range n).foldl (scatterStep jidx contrib) ⟨bufShape, fun p => uninit p⟩

/-- Number of components whose scatter step writes a given buffer position:
those m below n whose selection mask (join-axis expanded index equal to m)
contains the position. -/
def mixtureWriteCount (jidx : NdArr Int) (n : Nat) (p : List Int) : Nat :=
  (List.range n).countP (fun (m : Nat) => jidx.get p == (m : Int))

/-- Model of logprob_MixtureRV (mixture.py lines 400-474).  Inputs are
unpacked into the join axis, the selector indices and the components;
an empty selector list is an invariant violation (the assert on line 410).
The scalar-index path is computed in full; the array-index path expands
the indices against the reference shape and scatters the per-component
contributions (supplied through compContrib, which abstracts the external
pull-down and log-density dispatch on lines 440-447), with uninit
modelling the uninitialized entries of pt.empty. -/
def logprob_MixtureRV (op : MixtureRV) (inputs : List GVar)
    (value : NdArr ℚ) (compContrib : Nat → List Int → ℚ)
    (uninit : List Int → ℚ) : Except String (NdArr ℚ) :=
  let join_axis := inputs.head?
  let indices := (inputs.take op.indices_end_idx).drop 1
  let comp_rvs := (inputs.drop op.indices_end_idx).map gvarComp
  if indices.length = 0 then
    .error "AssertionError: len(indices) > 0"
  else if 1 < indices.length || 0 < gvarNdim ((indices.head?).getD (GVar.idx (as_nontensor_scalar false))) then
    -- array-index path (lines 412-448)
    let joinInfo : Nat × List Nat :=
      match join_axis with
      | some (.axis (some .noneConst)) => (0, [comp_rvs.length])
      | some (.axis (some (.intConst v))) =>
          (v.toNat, ((comp_rvs.head?).map CompRV.shape).getD [])
      | _ => (0, ((comp_rvs.head?).map CompRV.shape).getD [])
    let bcast_indices := expand_indices (indices.map gvarToIndexSpec) joinInfo.2
    let jidx := bcast_indices.getD joinInfo.1 ⟨[], fun _ => 0⟩
    let bufShape := ((bcast_indices.head?).map NdArr.shape).getD []
    .ok (mixtureScatter bufShape uninit jidx compContrib comp_rvs.length)
  else
    -- scalar-index path (lines 450-472)
    let join_axis_val : Option Nat :=
      match join_axis with
      | some (.axis (some (.intConst v))) => some v.toNat
      | _ => none
    let value :=
      match join_axis_val with
      | some a => expandDims value a
      | none => value
    let idx0 := gvarScalarInt ((indices.head?).getD (GVar.idx (as_nontensor_scalar false)))
    .ok (scalarPathLoop join_axis_val idx0 value 0 comp_rvs (ofScalar 0))

/-- Composition checked for the switch rule: rewrite switch(cond, A, B)
into a placeholder and evaluate the placeholder's log-density at a value,
the way the dispatch registry does. -/
def switch_logdensity (cond : Bool) (compA compB : CompRV)
    (value : NdArr ℚ) : Option (Except String (NdArr ℚ)) :=
  (switch_mixture_replace true
      { isSwitchOp := true, cond := cond, input1 := compA, input2 := compB,
        outDtype := "float64", outBroadcastable := [] }).map
    fun app => logprob_MixtureRV app.op app.inputs value (fun _ _ => 0) (fun _ => 0)

/-! Helper lemmas. -/

lemma nonBroadcastSum_pos {bc : List Bool} (h : false ∈ bc) :
    0 < (bc.map (fun b => 1 - (if b then (1 : Nat) else 0))).sum := by
  induction bc with
  | nil => cases h
  | cons a l ih =>
    rcases List.mem_cons.mp h with ha | hl
    · subst ha; simp
    · have := ih hl
      simp only [List.map_cons, List.sum_cons]
      omega

lemma intArrayIdxCheck_true {dt : String} {bc : List Bool} {v : NdArr Int}
    (hint : strStartsWith dt "int" = true) (hnb : false ∈ bc) :
    intArrayIdxCheck (IdxArg.tensorIdx dt bc v) = true := by
  simp only [intArrayIdxCheck, hint, Bool.true_and, decide_eq_true_eq]
  exact nonBroadcastSum_pos hnb

/-- C3: for every advanced-family indexing node over a stack of
distribution-producing components, if any non-constant index argument is an
array with integer-like dtype and at least one non-broadcast dimension, the
stacking-indexing rewrite rule declines (returns no match) and the graph is
left unchanged. -/
theorem mixture_replace_declines_on_int_array_idx
    (hasFeature : Bool) (node : SubtensorIn)
    (dt : String) (bc : List Bool) (v : NdArr Int)
    (hadv : node.isAdvanced = true)
    (hmem : IdxArg.tensorIdx dt bc v ∈ node.mixingIndices)
    (hint : strStartsWith dt "int" = true)
    (hnb : false ∈ bc) :
    mixture_replace hasFeature node = none := by
  have hany : node.mixingIndices.any intArrayIdxCheck = true :=
    List.any_eq_true.mpr ⟨_, hmem, intArrayIdxCheck_true hint hnb⟩
  unfold mixture_replace
  split
  · rfl
  split
  split
  · rfl
  split
  · rfl
  split
  · rfl
  simp [hadv, hany]

/-- C3 witness: a concrete advanced node with an int64 non-scalar index is
declined. -/
theorem mixture_replace_declines_on_int_array_idx_witness :
    mixture_replace true
      { isAdvanced := true
        stacked := .makeVector [⟨true, false, false, [], fun v => v⟩]
        mixingIndices := [.tensorIdx "int64" [false] ⟨[3], fun _ => 0⟩]
        outDtype := "float64"
        outBroadcastable := [false] } = none :=
  mixture_replace_declines_on_int_array_idx true _ "int64" [false] _
    rfl (List.mem_singleton.mpr rfl) rfl (List.mem_singleton.mpr rfl)

/-- C6: for every axis-based stacking (Join) whose axis input does not
constant-fold to a known constant, the stacking-indexing rewrite rule
declines (returns no match) rather than producing a placeholder or raising
an error. -/
theorem mixture_replace_declines_on_symbolic_join_axis
    (hasFeature advanced : Bool) (comps : List CompRV) (idxs : List IdxArg)
    (dt : String) (bc : List Bool) :
    mixture_replace hasFeature
      { isAdvanced := advanced
        stacked := .join .symbolic comps
        mixingIndices := idxs
        outDtype := dt
        outBroadcastable := bc } = none := by
  cases hasFeature <;>
    simp [mixture_replace, get_stack_mixture_vars, constant_fold_axis,
      isNoneTypeOrConstant]

/-- Example measurable, unbound component used in concrete witnesses. -/
def exComp : CompRV := ⟨true, false, false, [], fun v => v⟩

/-- Example component whose log-density is constantly 1. -/
def cexA : CompRV := ⟨true, false, false, [], fun _ => ofScalar 1⟩

/-- Example component whose log-density is constantly 2. -/
def cexB : CompRV := ⟨true, false, false, [], fun _ => ofScalar 2⟩

/-- Example indexing node over a stack, carrying one scalar int index. -/
def exNodeSub : SubtensorIn :=
  { isAdvanced := true
    stacked := .makeVector [exComp]
    mixingIndices := [.tensorIdx "int64" [] ⟨[], fun _ => 0⟩]
    outDtype := "float64"
    outBroadcastable := [] }

/-- The placeholder produced by the rewrite of exNodeSub. -/
def exAppSub : MixtureRVApply :=
  { op := { indices_end_idx := 2, out_dtype := "float64", out_broadcastable := [] }
    inputs := [GVar.axis (some .noneConst),
               GVar.idx (.tensorIdx "int64" [] ⟨[], fun _ => 0⟩),
               GVar.comp (ignore_logprob exComp)] }

/-- Example switch node over two measurable components. -/
def exNodeSwitch : SwitchIn :=
  { isSwitchOp := true, cond := true, input1 := exComp, input2 := exComp,
    outDtype := "float64", outBroadcastable := [] }

/-- The placeholder produced by the rewrite of exNodeSwitch. -/
def exAppSwitch : MixtureRVApply :=
  { op := { indices_end_idx := 2, out_dtype := "float64", out_broadcastable := [] }
    inputs := [GVar.axis (some .noneConst),
               GVar.idx (as_nontensor_scalar true),
               GVar.comp (ignore_logprob exComp),
               GVar.comp (ignore_logprob exComp)] }

/-- C7: every placeholder node constructed by either rewrite rule has input
list [join_axis] ++ index_arguments ++ wrapped_components in that order,
with its stored index-count attribute equal to 1 plus the number of index
arguments (2 for the switch rule), so that the total number of inputs
equals that attribute plus the number of components; and its declared
output dtype and broadcast pattern are copied from the node it replaces. -/
theorem mixtureRV_placeholder_inputs_invariant :
    (∀ (hasFeature : Bool) (node : SubtensorIn) (app : MixtureRVApply),
        mixture_replace hasFeature node = some app →
        ∃ (ax : Option AxisInput) (comps : List CompRV),
          app.inputs = GVar.axis ax ::
            (node.mixingIndices.map GVar.idx ++ comps.map GVar.comp) ∧
          app.op.indices_end_idx = 1 + node.mixingIndices.length ∧
          app.inputs.length = app.op.indices_end_idx + comps.length ∧
          (∀ c ∈ comps, c.wrapped = true) ∧
          app.op.out_dtype = node.outDtype ∧
          app.op.out_broadcastable = node.outBroadcastable) ∧
    (∀ (hasFeature : Bool) (node : SwitchIn) (app : MixtureRVApply),
        switch_mixture_replace hasFeature node = some app →
        ∃ (ax : Option AxisInput) (i : IdxArg) (comps : List CompRV),
          app.inputs = GVar.axis ax :: (GVar.idx i :: comps.map GVar.comp) ∧
          app.op.indices_end_idx = 2 ∧
          app.inputs.length = app.op.indices_end_idx + comps.length ∧
          (∀ c ∈ comps, c.wrapped = true) ∧
          app.op.out_dtype = node.outDtype ∧
          app.op.out_broadcastable = node.outBroadcastable) := by
  constructor
  · intro hasFeature node app hsome
    cases hasFeature with
    | false => simp [mixture_replace] at hsome
    | true =>
      rcases hp : get_stack_mixture_vars node with ⟨rvs?, ax⟩
      cases rvs? with
      | none => simp [mixture_replace, hp] at hsome
      | some mixture_rvs =>
        by_cases hax : isNoneTypeOrConstant ax = true
        · by_cases hall :
            mixture_rvs.all (fun rv => rv.isMeasurable && !rv.hasValue) = true
          · by_cases hchk :
              (node.isAdvanced && node.mixingIndices.any intArrayIdxCheck) = true
            · simp [mixture_replace, hp, hax, hall, hchk] at hsome
            · rw [show mixture_replace true node = some
                  { op := { indices_end_idx := 1 + node.mixingIndices.length
                            out_dtype := node.outDtype
                            out_broadcastable := node.outBroadcastable }
                    inputs := GVar.axis ax ::
                      (node.mixingIndices.map GVar.idx ++
                       (mixture_rvs.map ignore_logprob).map GVar.comp) } by
                  unfold mixture_replace
                  rw [hp]
                  simp [hax, hall, hchk]] at hsome
              injection hsome with hsome
              subst hsome
              refine ⟨ax, mixture_rvs.map ignore_logprob, rfl, rfl, ?_, ?_, rfl, rfl⟩
              · simp only [List.length_cons, List.length_append, List.length_map]
                omega
              · intro c hc
                obtain ⟨c', _, rfl⟩ := List.mem_map.mp hc
                rfl
          · simp [mixture_replace, hp, hax, hall] at hsome
        · simp [mixture_replace, hp, hax] at hsome
  · intro hasFeature node app hsome
    cases hasFeature with
    | false => simp [switch_mixture_replace] at hsome
    | true =>
      by_cases hsw : node.isSwitchOp = true
      · by_cases h1 : (node.input1.isMeasurable && !node.input1.hasValue) = true
        · by_cases h2 : (node.input2.isMeasurable && !node.input2.hasValue) = true
          · rw [show switch_mixture_replace true node = some
                { op := { indices_end_idx := 2
                          out_dtype := node.outDtype
                          out_broadcastable := node.outBroadcastable }
                  inputs := GVar.axis (some .noneConst) ::
                    GVar.idx (as_nontensor_scalar node.cond) ::
                    [ignore_logprob node.input1,
                     ignore_logprob node.input2].map GVar.comp } by
                unfold switch_mixture_replace
                simp [hsw, h1, h2]] at hsome
            injection hsome with hsome
            subst hsome
            refine ⟨some .noneConst, as_nontensor_scalar node.cond,
              [ignore_logprob node.input1, ignore_logprob node.input2],
              rfl, rfl, rfl, ?_, rfl, rfl⟩
            intro c hc
            rcases List.mem_cons.mp hc with h | h
            · subst h; rfl
            · rcases List.mem_cons.mp h with h' | h'
              · subst h'; rfl
              · cases h'
          · simp [switch_mixture_replace, hsw, h1, h2] at hsome
        · simp [switch_mixture_replace, hsw, h1] at hsome
      · simp [switch_mixture_replace, hsw] at hsome

/-- C7 witness: the invariant instantiated at concrete rewrites of an
indexing node and a switch node. -/
theorem mixtureRV_placeholder_inputs_invariant_witness :
    (∃ (ax : Option AxisInput) (comps : List CompRV),
      exAppSub.inputs = GVar.axis ax ::
        (exNodeSub.mixingIndices.map GVar.idx ++ comps.map GVar.comp) ∧
      exAppSub.op.indices_end_idx = 1 + exNodeSub.mixingIndices.length ∧
      exAppSub.inputs.length = exAppSub.op.indices_end_idx + comps.length ∧
      (∀ c ∈ comps, c.wrapped = true) ∧
      exAppSub.op.out_dtype = exNodeSub.outDtype ∧
      exAppSub.op.out_broadcastable = exNodeSub.outBroadcastable) ∧
    (∃ (ax : Option AxisInput) (i : IdxArg) (comps : List CompRV),
      exAppSwitch.inputs = GVar.axis ax :: (GVar.idx i :: comps.map GVar.comp) ∧
      exAppSwitch.op.indices_end_idx = 2 ∧
      exAppSwitch.inputs.length = exAppSwitch.op.indices_end_idx + comps.length ∧
      (∀ c ∈ comps, c.wrapped = true) ∧
      exAppSwitch.op.out_dtype = exNodeSwitch.outDtype ∧
      exAppSwitch.op.out_broadcastable = exNodeSwitch.outBroadcastable) :=
  ⟨mixtureRV_placeholder_inputs_invariant.1 true exNodeSub exAppSub rfl,
   mixtureRV_placeholder_inputs_invariant.2 true exNodeSwitch exAppSwitch rfl⟩

/-- C10: the repeated-selection decline check only examines index arguments
whose dtype name starts with "int": when every non-constant array index has
a dtype not starting with "int" (boolean or unsigned-integer, say), even
with non-broadcast dimensions, the check does not decline and the rewrite
proceeds to construct a placeholder. -/
theorem mixture_replace_proceeds_on_non_int_dtype
    (node : SubtensorIn) (comps : List CompRV)
    (hrvs : (get_stack_mixture_vars node).1 = some comps)
    (hax : isNoneTypeOrConstant (get_stack_mixture_vars node).2 = true)
    (hmeas : comps.all (fun rv => rv.isMeasurable && !rv.hasValue) = true)
    (hdt : node.mixingIndices.all
        (fun a => match a with
          | .sliceConstant _ => true
          | .tensorIdx dtype _ _ => !strStartsWith dtype "int") = true) :
    node.mixingIndices.any intArrayIdxCheck = false ∧
    (mixture_replace true node).isSome = true := by
  have hany : node.mixingIndices.any intArrayIdxCheck = false := by
    rw [List.any_eq_false]
    intro a ha
    have := List.all_eq_true.mp hdt a ha
    cases a with
    | sliceConstant sl => simp [intArrayIdxCheck]
    | tensorIdx dtype bcast v =>
      simp only [Bool.not_eq_true'] at this
      simp [intArrayIdxCheck, this]
  refine ⟨hany, ?_⟩
  cases hp : get_stack_mixture_vars node with
  | mk rvs? ax =>
    rw [hp] at hrvs hax
    simp only at hrvs hax
    subst hrvs
    unfold mixture_replace
    rw [hp]
    simp [hax, hmeas, hany]

/-- Example advanced node whose array indices have boolean and unsigned
dtypes with non-broadcast dimensions. -/
def exNodeNonInt : SubtensorIn :=
  { isAdvanced := true
    stacked := .makeVector [exComp]
    mixingIndices := [.tensorIdx "bool" [false] ⟨[2], fun _ => 0⟩,
                      .tensorIdx "uint64" [false] ⟨[2], fun _ => 0⟩]
    outDtype := "float64"
    outBroadcastable := [false] }

/-- C10 witness: both a boolean and an unsigned-integer non-scalar array
index pass the decline check and the rewrite produces a placeholder. -/
theorem mixture_replace_proceeds_on_non_int_dtype_witness :
    exNodeNonInt.mixingIndices.any intArrayIdxCheck = false ∧
    (mixture_replace true exNodeNonInt).isSome = true :=
  mixture_replace_proceeds_on_non_int_dtype exNodeNonInt [exComp]
    rfl rfl rfl (by decide)

/-- C2: evaluation of the code at the input where the switch-rule claim
fails.  For switch(cond, A, B) the claim demands logdensity(A, v) at
cond = True and logdensity(B, v) at cond = False; the rewritten placeholder
instead evaluates to logdensity(B, v) at cond = True and logdensity(A, v)
at cond = False, because the evaluator matches component i against
eq(cond, i) while the components are stored in order [A, B]. -/
theorem switch_logdensity_swapped :
    ∃ rT rF : NdArr ℚ,
      switch_logdensity true cexA cexB (ofScalar 0) = some (.ok rT) ∧
      switch_logdensity false cexA cexB (ofScalar 0) = some (.ok rF) ∧
      rT.get [] = (cexB.logpdf (ofScalar 0)).get [] ∧
      rF.get [] = (cexA.logpdf (ofScalar 0)).get [] ∧
      (cexA.logpdf (ofScalar 0)).get [] = 1 ∧
      (cexB.logpdf (ofScalar 0)).get [] = 2 := by
  refine ⟨_, _, rfl, rfl, ?_, ?_, rfl, rfl⟩ <;>
    · simp only [scalarPathLoop, ndAdd, broadcastTo, broadcastShapes2,
        padLeft1, bcastCoord, comb, zerosLike, ofScalar, cexA, cexB,
        ignore_logprob, gvarComp, gvarScalarInt, as_nontensor_scalar,
        NdArr.get]
      norm_num

lemma scalarPathLoop_zero (jv : Option Nat) (idx0 : Int) (value : NdArr ℚ) :
    ∀ (comps : List CompRV) (i : Nat) (acc : NdArr ℚ),
      (∀ p, acc.get p = 0) →
      (∀ j : Nat, i ≤ j → j < i + comps.length → idx0 ≠ (j : Int)) →
      ∀ p, (scalarPathLoop jv idx0 value i comps acc).get p = 0 := by
  intro comps
  induction comps with
  | nil => intro i acc hacc _ p; exact hacc p
  | cons c rest ih =>
    intro i acc hacc hno p
    have hne : idx0 ≠ (i : Int) := hno i (Nat.le_refl i) (by simp)
    refine ih (i + 1) _ ?_ ?_ p
    · intro q
      simp [ndAdd, hne, zerosLike, broadcastTo, NdArr.get, hacc]
    · intro j hj1 hj2
      exact hno j (Nat.le_trans (Nat.le_succ i) hj1)
        (by simp only [List.length_cons]; omega)

/-- C9: in the scalar-index path of the mixture log-density evaluator, if
the concrete scalar selector is not equal to any component position (out of
range for the n components), the evaluator returns an all-zero log-density
instead of raising an error: each component contributes via a branch that
yields zeros when the selector differs from its position, and the
contributions are summed. -/
theorem logprob_MixtureRV_out_of_range_scalar_zero
    (ax : Option AxisInput) (odt : String) (obc : List Bool) (dt : String)
    (iv : NdArr Int) (comps : List CompRV) (value : NdArr ℚ)
    (contrib : Nat → List Int → ℚ) (uninit : List Int → ℚ)
    (hout : ∀ i : Nat, i < comps.length → iv.get [] ≠ (i : Int)) :
    ∃ r, logprob_MixtureRV ⟨2, odt, obc⟩
        (GVar.axis ax :: GVar.idx (.tensorIdx dt [] iv) :: comps.map GVar.comp)
        value contrib uninit = .ok r ∧ ∀ p, r.get p = 0 := by
  refine ⟨_, rfl, ?_⟩
  refine scalarPathLoop_zero _ _ _ _ 0 _ (fun p => rfl) ?_
  intro j _ hj2
  have : j < comps.length := by
    simpa using hj2
  exact hout j this

/-- C9 witness: with two components and the out-of-range selector 5, the
evaluator yields the all-zero log-density. -/
theorem logprob_MixtureRV_out_of_range_scalar_zero_witness :
    ∃ r, logprob_MixtureRV ⟨2, "float64", []⟩
        (GVar.axis (some .noneConst) ::
          GVar.idx (.tensorIdx "int64" [] ⟨[], fun _ => 5⟩) ::
          [cexA, cexB].map GVar.comp)
        (ofScalar 0) (fun _ _ => 0) (fun _ => 0) = .ok r ∧
      ∀ p, r.get p = 0 :=
  logprob_MixtureRV_out_of_range_scalar_zero (some .noneConst) "float64" []
    "int64" ⟨[], fun _ => 5⟩ [cexA, cexB] (ofScalar 0) (fun _ _ => 0)
    (fun _ => 0) (by decide)

lemma countP_range_eq_one (m₀ : Nat) :
    ∀ n : Nat, m₀ < n →
      (List.range n).countP (fun m => decide (m₀ = m)) = 1 := by
  intro n
  induction n with
  | zero => omega
  | succ k ih =>
    intro h
    rw [List.range_succ, List.countP_append]
    rcases Nat.lt_or_ge m₀ k with hk | hk
    · rw [ih hk]
      have : m₀ ≠ k := by omega
      simp [List.countP_cons, this]
    · have hmk : m₀ = k := by omega
      subst hmk
      have : (List.range m₀).countP (fun m => decide (m₀ = m)) = 0 := by
        rw [List.countP_eq_zero]
        intro a ha
        have := List.mem_range.mp ha
        simp; omega
      rw [this]
      simp [List.countP_cons]

lemma scatterFold_get (jidx : NdArr Int) (contrib : Nat → List Int → ℚ)
    (p : List Int) (m₀ : Nat) (hm : jidx.get p = (m₀ : Int)) :
    ∀ (l : List Nat) (init : NdArr ℚ),
      (l.foldl (scatterStep jidx contrib) init).get p =
        if m₀ ∈ l then contrib m₀ p else init.get p := by
  intro l
  induction l with
  | nil => intro init; simp
  | cons a t ih =>
    intro init
    rw [List.foldl_cons, ih]
    by_cases hma : m₀ ∈ t
    · simp [hma]
    · by_cases ha : a = m₀
      · subst ha
        simp [hma, scatterStep, hm]
      · have h1 : jidx.get p ≠ (a : Int) := by
          rw [hm]
          intro hc
          exact ha (Int.ofNat_inj.mp hc).symm
        have h2 : m₀ ∉ a :: t := by
          intro hc
          rcases List.mem_cons.mp hc with h | h
          · exact ha h.symm
          · exact hma h
        rw [if_neg hma, if_neg h2]
        simp [scatterStep, h1]

/-- C4: in the array-index path of the mixture log-density evaluator, for a
join-axis index array that is well-defined at a given output position
(its value there lies in the component range), that position of the output
buffer is written by exactly one component's scattered contribution: the
write count is one, the final buffer holds that unique component's
contribution, and the result there does not depend on the uninitialized
contents of the buffer (no position is left unset, none is written by two
different components). -/
theorem mixture_array_path_unique_write
    (jidx : NdArr Int) (n : Nat) (bufShape : List Nat)
    (contrib : Nat → List Int → ℚ) (uninit uninit' : List Int → ℚ)
    (p : List Int)
    (h0 : 0 ≤ jidx.get p) (hn : jidx.get p < (n : Int)) :
    mixtureWriteCount jidx n p = 1 ∧
    (mixtureScatter bufShape uninit jidx contrib n).get p =
      contrib (jidx.get p).toNat p ∧
    (mixtureScatter bufShape uninit jidx contrib n).get p =
      (mixtureScatter bufShape uninit' jidx contrib n).get p := by
  set m₀ := (jidx.get p).toNat with hm₀
  have hm : jidx.get p = (m₀ : Int) := (Int.toNat_of_nonneg h0).symm
  have hmn : m₀ < n := by
    have := hn
    rw [hm] at this
    exact_mod_cast this
  have hcount : mixtureWriteCount jidx n p = 1 := by
    unfold mixtureWriteCount
    rw [show (fun m : Nat => jidx.get p == (m : Int)) =
        (fun m : Nat => decide (m₀ = m)) from funext fun m => by
      rw [hm]
      by_cases h : m₀ = m
      · subst h; simp
      · have : (m₀ : Int) ≠ (m : Int) := fun hc => h (Int.ofNat_inj.mp hc)
        simp [h, this]]
    exact countP_range_eq_one m₀ n hmn
  have hget : ∀ u : List Int → ℚ,
      (mixtureScatter bufShape u jidx contrib n).get p = contrib m₀ p := by
    intro u
    unfold mixtureScatter
    rw [scatterFold_get jidx contrib p m₀ hm]
    simp [List.mem_range, hmn]
  exact ⟨hcount, hget uninit, (hget uninit).trans (hget uninit').symm⟩

/-- C4 witness: a concrete 2-component scatter with join-axis index array
equal to the coordinate writes position 1 exactly once with component 1's
contribution, independently of the uninitialized buffer. -/
theorem mixture_array_path_unique_write_witness :
    mixtureWriteCount ⟨[2], fun c => c.headI⟩ 2 [1] = 1 ∧
    (mixtureScatter [2] (fun _ => 0) ⟨[2], fun c => c.headI⟩
        (fun m _ => (m : ℚ)) 2).get [1] =
      (((⟨[2], fun c => c.headI⟩ : NdArr Int).get [1]).toNat : ℚ) ∧
    (mixtureScatter [2] (fun _ => 0) ⟨[2], fun c => c.headI⟩
        (fun m _ => (m : ℚ)) 2).get [1] =
      (mixtureScatter [2] (fun _ => 37) ⟨[2], fun c => c.headI⟩
        (fun m _ => (m : ℚ)) 2).get [1] :=
  mixture_array_path_unique_write ⟨[2], fun c => c.headI⟩ 2 [2]
    (fun m _ => (m : ℚ)) (fun _ => 0) (fun _ => 37) [1]
    (by decide) (by decide)

/-- C8 (amended): the mixture log-density evaluator fails fatally when
invoked with an empty list of selector indices, and a placeholder node's
direct execution as a concrete operation always fails loudly rather than
producing a value. -/
theorem mixtureRV_empty_indices_fatal :
    (∀ (op : MixtureRV) (inputs : List GVar) (value : NdArr ℚ)
        (contrib : Nat → List Int → ℚ) (uninit : List Int → ℚ),
        ((inputs.take op.indices_end_idx).drop 1).length = 0 →
        logprob_MixtureRV op inputs value contrib uninit =
          .error "AssertionError: len(indices) > 0") ∧
    (∀ (op : MixtureRV) (inputs : List GVar),
        op.perform inputs =
          .error "NotImplementedError: This is a stand-in Op.") := by
  constructor
  · intro op inputs value contrib uninit h
    unfold logprob_MixtureRV
    simp only [h, if_true, reduceIte]
  · intro op inputs
    rfl

/-- C8 witness: a placeholder op invoked with only the join-axis input has
an empty selector list and the evaluator raises the invariant violation;
perform always raises. -/
theorem mixtureRV_empty_indices_fatal_witness :
    logprob_MixtureRV ⟨1, "float64", []⟩ [GVar.axis (some .noneConst)]
        (ofScalar 0) (fun _ _ => 0) (fun _ => 0) =
      .error "AssertionError: len(indices) > 0" ∧
    MixtureRV.perform ⟨1, "float64", []⟩ [] =
      .error "NotImplementedError: This is a stand-in Op." :=
  ⟨mixtureRV_empty_indices_fatal.1 ⟨1, "float64", []⟩
      [GVar.axis (some .noneConst)] (ofScalar 0) (fun _ _ => 0)
      (fun _ => 0) rfl,
   mixtureRV_empty_indices_fatal.2 ⟨1, "float64", []⟩ []⟩

/-- Example indexing node with no index-argument inputs (a constant-slice
basic subtensor over a stack has none). -/
def zeroSelNode : SubtensorIn :=
  { isAdvanced := false
    stacked := .makeVector [exComp]
    mixingIndices := []
    outDtype := "float64"
    outBroadcastable := [] }

/-- C8 counterexample: a placeholder built by the stacking-indexing rewrite
rule itself can carry zero selector inputs (when the matched indexing node
has no index-argument inputs), and the evaluator then hits the fatal
invariant violation — contradicting the part of the claim asserting that
this cannot occur for placeholders built by the rewriter. -/
theorem mixture_replace_zero_selector_placeholder :
    ∃ app, mixture_replace true zeroSelNode = some app ∧
      ((app.inputs.take app.op.indices_end_idx).drop 1).length = 0 ∧
      logprob_MixtureRV app.op app.inputs (ofScalar 0) (fun _ _ => 0)
          (fun _ => 0) =
        .error "AssertionError: len(indices) > 0" :=
  ⟨_, rfl, rfl, rfl⟩

/-! Right-aligned dimension toolkit for broadcast-shape reasoning: rdim s k
is the k-th axis size of shape s counted from the right, defaulting to the
stretchable size 1 beyond the shape's rank (NumPy broadcasting aligns
shapes at the right end). -/

def rdim (s : List Nat) (k : Nat) : Nat := (s.reverse[k]?).getD 1

lemma rdim_nil (k : Nat) : rdim [] k = 1 := rfl

lemma rdim_of_lt {s : List Nat} {k : Nat} (h : k < s.length) :
    rdim s k = s.get ⟨s.length - 1 - k, by omega⟩ := by
  unfold rdim
  rw [List.getElem?_eq_getElem (by simpa using h)]
  simp only [Option.getD_some]
  rw [List.getElem_reverse]
  rfl

lemma rdim_of_ge {s : List Nat} {k : Nat} (h : s.length ≤ k) :
    rdim s k = 1 := by
  unfold rdim
  rw [List.getElem?_eq_none (by simpa using h)]
  rfl

lemma rdim_append (s t : List Nat) (k : Nat) :
    rdim (s ++ t) k = if k < t.length then rdim t k else rdim s (k - t.length) := by
  unfold rdim
  rw [List.reverse_append, List.getElem?_append]
  simp only [List.length_reverse]
  by_cases h : k < t.length
  · rw [if_pos h, if_pos h]
  · rw [if_neg h, if_neg h]

lemma rdim_replicate_one (n k : Nat) : rdim (List.replicate n 1) k = 1 := by
  by_cases h : k < n
  · rw [rdim_of_lt (by simpa using h)]
    exact List.getElem_replicate ..
  · exact rdim_of_ge (by simp; omega)

lemma rdim_singleton (L : Nat) (k : Nat) :
    rdim [L] k = if k = 0 then L else 1 := by
  by_cases h : k = 0
  · subst h; simp [rdim]
  · rw [if_neg h]
    exact rdim_of_ge (by simp; omega)

lemma comb_one_left (b : Nat) : comb 1 b = b := by simp [comb]

lemma comb_one_right (a : Nat) : comb a 1 = a := by
  unfold comb
  split <;> omega

lemma rdim_padLeft1 (n : Nat) (l : List Nat) (k : Nat) :
    rdim (padLeft1 n l) k = rdim l k := by
  unfold padLeft1
  rw [rdim_append]
  by_cases h : k < l.length
  · rw [if_pos h]
  · rw [if_neg h, rdim_of_ge (le_of_not_lt h), rdim_replicate_one]

lemma length_padLeft1 (n : Nat) (l : List Nat) :
    (padLeft1 n l).length = max n l.length := by
  simp [padLeft1]
  omega

lemma reverse_zipWith_of_length_eq {α β γ : Type} (f : α → β → γ) :
    ∀ {s : List α} {t : List β}, s.length = t.length →
      (List.zipWith f s t).reverse = List.zipWith f s.reverse t.reverse := by
  intro s
  induction s with
  | nil => intro t _; simp
  | cons a s' ih =>
    intro t h
    cases t with
    | nil => simp at h
    | cons b t' =>
      have h' : s'.length = t'.length := by simpa using h
      simp only [List.zipWith_cons_cons, List.reverse_cons, ih h']
      rw [List.zipWith_append _ _ _ _ _ (by simp [h'])]
      rfl

lemma rdim_zipWith_comb {s t : List Nat} (h : s.length = t.length) (k : Nat) :
    rdim (List.zipWith comb s t) k = comb (rdim s k) (rdim t k) := by
  unfold rdim
  rw [reverse_zipWith_of_length_eq comb h, List.getElem?_zipWith]
  have hrl : s.reverse.length = t.reverse.length := by simpa using h
  by_cases hk : k < s.reverse.length
  · obtain ⟨a, h1⟩ : ∃ a, s.reverse[k]? = some a :=
      ⟨_, List.getElem?_eq_getElem hk⟩
    obtain ⟨b, h2⟩ : ∃ b, t.reverse[k]? = some b :=
      ⟨_, List.getElem?_eq_getElem (by omega)⟩
    rw [h1, h2]
    rfl
  · have h1 : s.reverse[k]? = none := List.getElem?_eq_none (by omega)
    have h2 : t.reverse[k]? = none := List.getElem?_eq_none (by omega)
    rw [h1, h2]
    simp [comb]

lemma length_broadcastShapes2 (s t : List Nat) :
    (broadcastShapes2 s t).length = max s.length t.length := by
  unfold broadcastShapes2
  simp [length_padLeft1]

lemma rdim_broadcastShapes2 (s t : List Nat) (k : Nat) :
    rdim (broadcastShapes2 s t) k = comb (rdim s k) (rdim t k) := by
  unfold broadcastShapes2
  rw [rdim_zipWith_comb (by simp [length_padLeft1])]
  rw [rdim_padLeft1, rdim_padLeft1]

lemma length_foldl_broadcastShapes2 (L : List (List Nat)) :
    ∀ acc : List Nat,
      (L.foldl broadcastShapes2 acc).length =
        L.foldl (fun n s => max n s.length) acc.length := by
  induction L with
  | nil => intro acc; rfl
  | cons x xs ih =>
    intro acc
    rw [List.foldl_cons, List.foldl_cons, ih, length_broadcastShapes2]

lemma rdim_foldl_broadcastShapes2 (k : Nat) (L : List (List Nat)) :
    ∀ acc : List Nat,
      rdim (L.foldl broadcastShapes2 acc) k =
        L.foldl (fun v s => comb v (rdim s k)) (rdim acc k) := by
  induction L with
  | nil => intro acc; rfl
  | cons x xs ih =>
    intro acc
    rw [List.foldl_cons, List.foldl_cons, ih, rdim_broadcastShapes2]

lemma rdim_ext {s t : List Nat} (hl : s.length = t.length)
    (h : ∀ k, k < s.length → rdim s k = rdim t k) : s = t := by
  have hrev : s.reverse = t.reverse := by
    apply List.ext_getElem (by simpa using hl)
    intro i h1 h2
    have hi : i < s.length := by simpa using h1
    have := h i hi
    rw [rdim_of_lt hi, rdim_of_lt (by omega)] at this
    rw [List.getElem_reverse, List.getElem_reverse]
    convert this using 2
  have := congrArg List.reverse hrev
  simpa using this

lemma foldl_comb_all_one {α : Type} (f : α → Nat) (L : List α)
    (h : ∀ x ∈ L, f x = 1) :
    ∀ v : Nat, L.foldl (fun v x => comb v (f x)) v = v := by
  induction L with
  | nil => intro v; rfl
  | cons a l ih =>
    intro v
    rw [List.foldl_cons, h a (by simp), comb_one_right]
    exact ih (fun x hx => h x (by simp [hx])) v

lemma zipWith_take_right {α β γ : Type} (f : α → β → γ) :
    ∀ (s : List α) (l : List β) (n : Nat), s.length ≤ n →
      List.zipWith f s (l.take n) = List.zipWith f s l := by
  intro s
  induction s with
  | nil => intro l n _; simp
  | cons a s' ih =>
    intro l n h
    cases l with
    | nil => simp
    | cons b l' =>
      cases n with
      | zero => simp at h
      | succ m =>
        simp only [List.take_succ_cons, List.zipWith_cons_cons]
        rw [ih l' m (by simpa using h)]

/-- Composite get of a broadcast of an index array padded with unit axes on
both sides: the array reads the block of coordinates that its own (right-
aligned) dimensions occupy, stretched axes reading 0. -/
lemma bTo_unsq_get (C : List Nat) (x : NdArr Int) (pre nbk : Nat)
    (c : List Int) (hc : c.length = C.length)
    (hnd : pre + x.ndim + nbk ≤ C.length) :
    (broadcastTo C (unsqueezeBack nbk (unsqueezeFront pre x))).get c =
      x.get (List.zipWith (fun s ci => if s = 1 then 0 else ci) x.shape
        (c.drop (C.length - (x.ndim + nbk)))) := by
  unfold broadcastTo unsqueezeBack unsqueezeFront bcastCoord NdArr.ndim
  simp only
  set mask : Nat → Int → Int := fun s ci => if s = 1 then 0 else ci with hmask
  set e0len : Nat := (List.replicate pre 1 ++ x.shape).length with he0
  set d : List Int :=
    c.drop (C.length - ((List.replicate pre 1 ++ x.shape) ++ List.replicate nbk 1).length)
    with hd
  have hdlen : d.length = pre + x.shape.length + nbk := by
    rw [hd, List.length_drop, hc]
    simp only [List.length_append, List.length_replicate]
    unfold NdArr.ndim at hnd
    omega
  have hsplit : d = (d.take pre ++ (d.drop pre).take x.shape.length) ++
      ((d.drop pre).drop x.shape.length) := by
    rw [List.append_assoc, List.take_append_drop, List.take_append_drop]
  rw [hsplit]
  rw [List.zipWith_append _ _ _ _ _
    (by simp only [List.length_append, List.length_replicate, List.length_take,
          List.length_drop]
        omega)]
  rw [List.zipWith_append _ _ _ _ _
    (by simp only [List.length_replicate, List.length_take, List.length_drop]
        omega)]
  rw [List.take_left' (by
    simp only [List.length_append, List.length_zipWith, List.length_replicate,
      List.length_take, List.length_drop, he0]
    omega)]
  rw [List.drop_left' (by
    simp only [List.length_zipWith, List.length_replicate, List.length_take,
      List.length_drop]
    omega)]
  rw [zipWith_take_right _ _ _ _ (Nat.le_refl _)]
  congr 2
  rw [hd, List.drop_drop]
  congr 1
  simp only [List.length_append, List.length_replicate]
  unfold NdArr.ndim at hnd
  omega

/-- Composite get of a broadcast, unit-axis-padded arange: it reads the
single coordinate at the position its real dimension occupies (reading 0
when that dimension has extent 1, the stretched case). -/
lemma bTo_unsq_arange_get (C : List Nat) (st sp se : Int) (pre nbk : Nat)
    (c : List Int) (hc : c.length = C.length)
    (hnd : pre + 1 + nbk ≤ C.length) :
    (broadcastTo C (unsqueezeBack nbk
        (unsqueezeFront pre (arangeArr st sp se)))).get c =
      st + (if rangeLen st sp se = 1 then 0
            else (c.drop (C.length - (1 + nbk))).headI) * se := by
  rw [bTo_unsq_get C (arangeArr st sp se) pre nbk c hc hnd]
  have hlen2 : (c.drop (C.length - (1 + nbk))).length = 1 + nbk := by
    rw [List.length_drop, hc]
    omega
  cases hdrop : c.drop (C.length - (1 + nbk)) with
  | nil =>
    rw [hdrop] at hlen2
    simp only [List.length_nil] at hlen2
    omega
  | cons v rest =>
    have : (arangeArr st sp se).ndim + nbk = 1 + nbk := rfl
    rw [this, hdrop]
    simp [arangeArr, List.zipWith]

lemma zipWith_append_left_truncate {α β γ : Type} (f : α → β → γ)
    (s : List α) (l1 l2 : List β) (h : s.length ≤ l1.length) :
    List.zipWith f s (l1 ++ l2) = List.zipWith f s l1 := by
  have h1 : List.zipWith f s l1 = List.zipWith f s ((l1 ++ l2).take l1.length) := by
    rw [List.take_left]
  rw [h1, zipWith_take_right _ _ _ _ h]

/-- Gather value of an advanced index array broadcast into the combined
space, when its real dimensions sit at the right end of a leading block of
length slen followed by trailing coordinates: it equals the broadcast of
the array over just that leading block. -/
lemma adv_gather_value (Csub : List Nat) (L : Nat) (x : NdArr Int)
    (csub : List Int) (k : Int)
    (hcl : csub.length = Csub.length) (hnd : x.ndim ≤ Csub.length) :
    (broadcastTo (Csub ++ [L]) (unsqueezeBack 1 (unsqueezeFront 0 x))).get
        (csub ++ [k]) =
      (broadcastTo Csub x).get csub := by
  rw [bTo_unsq_get (Csub ++ [L]) x 0 1 (csub ++ [k])
      (by simp [hcl]) (by simp; omega)]
  have h1 : (Csub ++ [L]).length - (x.ndim + 1) = Csub.length - x.ndim := by
    simp
  rw [h1]
  have h2 : (csub ++ [k]).drop (Csub.length - x.ndim) =
      csub.drop (Csub.length - x.ndim) ++ [k] :=
    List.drop_append_of_le_length (by omega)
  rw [h2]
  rw [zipWith_append_left_truncate _ _ _ _ (by
    simp only [List.length_drop]
    unfold NdArr.ndim at hnd ⊢
    omega)]
  rfl

lemma broadcastArrays_three_eq (X Y Z : NdArr Int) (S : List Nat)
    (hS : broadcastShapes2 (broadcastShapes2 (broadcastShapes2 [] X.shape)
        Y.shape) Z.shape = S) :
    broadcastArrays [X, Y, Z] =
      [broadcastTo S X, broadcastTo S Y, broadcastTo S Z] := by
  subst hS
  rfl

/-- C5: for an index sequence in which a basic specification separates two
advanced specifications ([advanced, basic, advanced]), expand_indices
places the advanced-generated subspace dimensions at the front of the
combined output shape followed by the basic dimension (the middle axis is
read from the last output coordinate), whereas for a contiguous run of
advanced specifications ([advanced, advanced, basic]) the subspace
dimensions remain in place and output axes are not reordered (each axis is
read from the output coordinates in axis order). -/
theorem expand_indices_subspace_placement
    (a b : NdArr Int) (sl : PySlice) (n1 n2 n3 : Nat) :
    (∃ e0 e1 e2,
      expand_indices [.arr a, .slc sl, .arr b] [n1, n2, n3] = [e0, e1, e2] ∧
      (∀ i ∈ [e0, e1, e2], NdArr.shape i =
        broadcastShapes2 a.shape b.shape ++
          [rangeLen (sliceCanonical sl (n2 : Int)).1
            (sliceCanonical sl (n2 : Int)).2.1
            (sliceCanonical sl (n2 : Int)).2.2]) ∧
      (∀ (csub : List Int) (k : Int),
        csub.length = (broadcastShapes2 a.shape b.shape).length →
        0 ≤ k →
        k < (rangeLen (sliceCanonical sl (n2 : Int)).1
              (sliceCanonical sl (n2 : Int)).2.1
              (sliceCanonical sl (n2 : Int)).2.2 : Int) →
        e0.get (csub ++ [k]) =
          (broadcastTo (broadcastShapes2 a.shape b.shape) a).get csub ∧
        e1.get (csub ++ [k]) =
          (sliceCanonical sl (n2 : Int)).1 +
            k * (sliceCanonical sl (n2 : Int)).2.2 ∧
        e2.get (csub ++ [k]) =
          (broadcastTo (broadcastShapes2 a.shape b.shape) b).get csub)) ∧
    (∃ e0 e1 e2,
      expand_indices [.arr a, .arr b, .slc sl] [n1, n2, n3] = [e0, e1, e2] ∧
      (∀ i ∈ [e0, e1, e2], NdArr.shape i =
        broadcastShapes2 a.shape b.shape ++
          [rangeLen (sliceCanonical sl (n3 : Int)).1
            (sliceCanonical sl (n3 : Int)).2.1
            (sliceCanonical sl (n3 : Int)).2.2]) ∧
      (∀ (csub : List Int) (k : Int),
        csub.length = (broadcastShapes2 a.shape b.shape).length →
        0 ≤ k →
        k < (rangeLen (sliceCanonical sl (n3 : Int)).1
              (sliceCanonical sl (n3 : Int)).2.1
              (sliceCanonical sl (n3 : Int)).2.2 : Int) →
        e0.get (csub ++ [k]) =
          (broadcastTo (broadcastShapes2 a.shape b.shape) a).get csub ∧
        e1.get (csub ++ [k]) =
          (broadcastTo (broadcastShapes2 a.shape b.shape) b).get csub ∧
        e2.get (csub ++ [k]) =
          (sliceCanonical sl (n3 : Int)).1 +
            k * (sliceCanonical sl (n3 : Int)).2.2)) := by
  have hmaxlen : (broadcastShapes2 a.shape b.shape).length =
      max a.shape.length b.shape.length := length_broadcastShapes2 _ _
  constructor
  · -- non-contiguous [advanced, basic, advanced]
    have hE : expand_indices [.arr a, .slc sl, .arr b] [n1, n2, n3] =
        broadcastArrays
          [unsqueezeBack 1 a,
           unsqueezeBack 0
             (unsqueezeFront (max a.ndim (max b.ndim 0))
               (arangeArr (sliceCanonical sl (n2 : Int)).1
                 (sliceCanonical sl (n2 : Int)).2.1
                 (sliceCanonical sl (n2 : Int)).2.2)),
           unsqueezeBack 1 b] := rfl
    rw [broadcastArrays_three_eq _ _ _
        (broadcastShapes2 a.shape b.shape ++
          [rangeLen (sliceCanonical sl (n2 : Int)).1
            (sliceCanonical sl (n2 : Int)).2.1
            (sliceCanonical sl (n2 : Int)).2.2])
        (by
          simp only [unsqueezeBack, unsqueezeFront, arangeArr, NdArr.ndim]
          apply rdim_ext
          · simp only [length_broadcastShapes2, List.length_append,
              List.length_replicate, List.length_nil, List.length_cons]
            omega
          · intro k _
            by_cases hk0 : k = 0
            · subst hk0
              simp [rdim_broadcastShapes2, rdim_nil, rdim_append,
                rdim_replicate_one, rdim_singleton, comb_one_left,
                comb_one_right]
            · have hk1 : ¬ k < 1 := by omega
              simp [rdim_broadcastShapes2, rdim_nil, rdim_append,
                rdim_replicate_one, rdim_singleton, hk1, comb_one_left,
                comb_one_right])] at hE
    refine ⟨_, _, _, hE, ?_, ?_⟩
    · intro i hi
      simp only [List.mem_cons, List.not_mem_nil, or_false] at hi
      rcases hi with rfl | rfl | rfl <;> rfl
    · intro csub k hcl hk0 hkL
      refine ⟨?_, ?_, ?_⟩
      · exact adv_gather_value _ _ a csub k hcl
          (by simp only [NdArr.ndim, hmaxlen]; omega)
      · rw [bTo_unsq_arange_get _ _ _ _ _ _ _
            (by simp [hcl]) (by simp only [NdArr.ndim, List.length_append, List.length_cons, List.length_nil, hmaxlen]; omega)]
        have hdl : ((csub ++ [k]).drop
            ((broadcastShapes2 a.shape b.shape ++
              [rangeLen (sliceCanonical sl (n2 : Int)).1
                (sliceCanonical sl (n2 : Int)).2.1
                (sliceCanonical sl (n2 : Int)).2.2]).length - (1 + 0))) = [k] := by
          apply List.drop_left'
          simp [hcl]
        rw [hdl]
        by_cases hone : rangeLen (sliceCanonical sl (n2 : Int)).1
            (sliceCanonical sl (n2 : Int)).2.1
            (sliceCanonical sl (n2 : Int)).2.2 = 1
        · rw [if_pos hone]
          rw [hone] at hkL
          have : k = 0 := by omega
          subst this
          rfl
        · rw [if_neg hone]
          rfl
      · exact adv_gather_value _ _ b csub k hcl
          (by simp only [NdArr.ndim, hmaxlen]; omega)
  · -- contiguous [advanced, advanced, basic]
    have hE : expand_indices [.arr a, .arr b, .slc sl] [n1, n2, n3] =
        broadcastArrays
          [unsqueezeBack 1 (unsqueezeFront 0 a),
           unsqueezeBack 1 (unsqueezeFront 0 b),
           unsqueezeBack
             (max a.ndim (max b.ndim 0) + 1 - (max a.ndim (max b.ndim 0) + 0) - 1)
             (unsqueezeFront (max a.ndim (max b.ndim 0) + 0)
               (arangeArr (sliceCanonical sl (n3 : Int)).1
                 (sliceCanonical sl (n3 : Int)).2.1
                 (sliceCanonical sl (n3 : Int)).2.2))] := rfl
    rw [show max a.ndim (max b.ndim 0) + 1 - (max a.ndim (max b.ndim 0) + 0) - 1 = 0
        from by omega, Nat.add_zero] at hE
    rw [broadcastArrays_three_eq _ _ _
        (broadcastShapes2 a.shape b.shape ++
          [rangeLen (sliceCanonical sl (n3 : Int)).1
            (sliceCanonical sl (n3 : Int)).2.1
            (sliceCanonical sl (n3 : Int)).2.2])
        (by
          simp only [unsqueezeBack, unsqueezeFront, arangeArr, NdArr.ndim]
          apply rdim_ext
          · simp only [length_broadcastShapes2, List.length_append,
              List.length_replicate, List.length_nil, List.length_cons]
            omega
          · intro k _
            by_cases hk0 : k = 0
            · subst hk0
              simp [rdim_broadcastShapes2, rdim_nil, rdim_append,
                rdim_replicate_one, rdim_singleton, comb_one_left,
                comb_one_right]
            · have hk1 : ¬ k < 1 := by omega
              simp [rdim_broadcastShapes2, rdim_nil, rdim_append,
                rdim_replicate_one, rdim_singleton, hk1, comb_one_left,
                comb_one_right])] at hE
    refine ⟨_, _, _, hE, ?_, ?_⟩
    · intro i hi
      simp only [List.mem_cons, List.not_mem_nil, or_false] at hi
      rcases hi with rfl | rfl | rfl <;> rfl
    · intro csub k hcl hk0 hkL
      refine ⟨?_, ?_, ?_⟩
      · exact adv_gather_value _ _ a csub k hcl
          (by simp only [NdArr.ndim, hmaxlen]; omega)
      · exact adv_gather_value _ _ b csub k hcl
          (by simp only [NdArr.ndim, hmaxlen]; omega)
      · rw [bTo_unsq_arange_get _ _ _ _ _ _ _
            (by simp [hcl]) (by simp only [NdArr.ndim, List.length_append, List.length_cons, List.length_nil, hmaxlen]; omega)]
        have hdl : ((csub ++ [k]).drop
            ((broadcastShapes2 a.shape b.shape ++
              [rangeLen (sliceCanonical sl (n3 : Int)).1
                (sliceCanonical sl (n3 : Int)).2.1
                (sliceCanonical sl (n3 : Int)).2.2]).length - (1 + 0))) = [k] := by
          apply List.drop_left'
          simp [hcl]
        rw [hdl]
        by_cases hone : rangeLen (sliceCanonical sl (n3 : Int)).1
            (sliceCanonical sl (n3 : Int)).2.1
            (sliceCanonical sl (n3 : Int)).2.2 = 1
        · rw [if_pos hone]
          rw [hone] at hkL
          have : k = 0 := by omega
          subst this
          rfl
        · rw [if_neg hone]
          rfl

/-- C5 witness: on shape (2,3,2) with the 1-d selectors [0,1] and [1,0],
the non-contiguous sequence puts the subspace in front: the middle (slice)
axis reads the last output coordinate. -/
theorem expand_indices_subspace_placement_witness :
    ∃ e0 e1 e2,
      expand_indices
        [.arr ⟨[2], fun c => c.headI⟩, .slc fullSlice,
         .arr ⟨[2], fun c => 1 - c.headI⟩] [2, 3, 2] = [e0, e1, e2] ∧
      e1.shape = [2, 3] ∧
      e1.get [0, 1] = 1 := by
  obtain ⟨e0, e1, e2, hE, hsh, hget⟩ :=
    (expand_indices_subspace_placement ⟨[2], fun c => c.headI⟩
      ⟨[2], fun c => 1 - c.headI⟩ fullSlice 2 3 2).1
  refine ⟨e0, e1, e2, hE, ?_, ?_⟩
  · rw [hsh e1 (by simp)]
    decide
  · have h := (hget [0] 1 (by decide) (by decide) (by decide)).2.1
    have h2 : ([0] ++ [1] : List Int) = [0, 1] := rfl
    rw [h2] at h
    rw [h]
    decide

/-! Specification-side semantics of NumPy mixed basic/advanced indexing,
following the spec's words: pad with trailing full slices; broadcast the
advanced index values to a common subspace shape; the combined output is
the subspace followed by the basic dimensions when a basic block interrupts
the advanced run (non-contiguous case, subspace moved to the front), and
the basic dimensions before the advanced block, then the subspace, then the
remaining basic dimensions otherwise; each output position reads, per
original axis, the advanced value broadcast over the subspace coordinates
or the resolved slice position at the corresponding basic coordinate. -/

def countNonNew (l : List IndexSpec) : Nat :=
  (l.filter (fun i => !is_newaxis i)).length

def countBasic (l : List IndexSpec) : Nat :=
  (l.filter is_basic_idx).length

def padFull (indices : List IndexSpec) (shape : List Nat) : List IndexSpec :=
  indices ++ List.replicate (shape.length - countNonNew indices) (.slc fullSlice)

def advShapes (l : List IndexSpec) : List (List Nat) :=
  l.filterMap (fun i => match i with | .arr a => some a.shape | _ => none)

def subShapeOf (l : List IndexSpec) : List Nat :=
  (advShapes l).foldl broadcastShapes2 []

def basicLens : List IndexSpec → List Nat → List Nat
  | [], _ => []
  | .newaxis :: rest, shp => 1 :: basicLens rest shp
  | .slc sl :: rest, shp =>
      (let abc := sliceIndices sl ((shp.headI : Nat) : Int)
       rangeLen abc.1 abc.2.1 abc.2.2) :: basicLens rest shp.tail
  | .arr _ :: rest, shp => basicLens rest shp.tail

def advNonContiguous (l : List IndexSpec) : Bool :=
  ((l.dropWhile is_basic_idx).dropWhile (fun i => !is_basic_idx i)).any
    (fun i => !is_basic_idx i)

def nbbOf (l : List IndexSpec) : Nat :=
  (l.takeWhile is_basic_idx).length

def axisCoords (subShape : List Nat) :
    List IndexSpec → List Nat → List Int → List Int → List Int
  | [], _, _, _ => []
  | .newaxis :: rest, shp, bsub, cbas =>
      axisCoords subShape rest shp bsub cbas.tail
  | .arr a :: rest, shp, bsub, cbas =>
      (broadcastTo subShape a).get bsub ::
        axisCoords subShape rest shp.tail bsub cbas
  | .slc sl :: rest, shp, bsub, cbas =>
      (let abc := sliceIndices sl ((shp.headI : Nat) : Int)
       abc.1 + cbas.headI * abc.2.2) ::
        axisCoords subShape rest shp.tail bsub cbas.tail

/-- Specification-side result of applying a mixed index sequence, written
from the spec's words and the NumPy indexing rules (not from the source). -/
def numpyMixedIndex (arr : NdArr α) (indices : List IndexSpec)
    (shape : List Nat) : NdArr α :=
  let full := padFull indices shape
  let subShape := subShapeOf full
  let nsub := subShape.length
  let nbb := nbbOf full
  let moved := advNonContiguous full
  let blens := basicLens full shape
  { shape :=
      if moved then subShape ++ blens
      else blens.take nbb ++ subShape ++ blens.drop nbb
    get := fun c =>
      let bsub := if moved then c.take nsub else (c.drop nbb).take nsub
      let cbas := if moved then c.drop nsub
                  else c.take nbb ++ c.drop (nbb + nsub)
      arr.get (axisCoords subShape full shape bsub cbas) }

/-- Coordinate validity for a shape: same rank and every entry within its
axis size. -/
def validCoordB : List Nat → List Int → Bool
  | [], [] => true
  | n :: s, i :: c => (0 ≤ i && i < (n : Int)) && validCoordB s c
  | _, _ => false

/-! Proof scaffolding for expand_indices: the loop is split into an
annotation pass (recording, for each non-newaxis entry, its position d, the
number of preceding basic entries, and the popped axis size) followed by a
per-entry materialization. -/

def annLoop : Nat → List IndexSpec → List Nat → Nat →
    List (Nat × Nat × Nat × IndexSpec)
  | _, [], _, _ => []
  | d, .newaxis :: rest, shp, npb => annLoop (d + 1) rest shp (npb + 1)
  | d, .arr a :: rest, shp, npb =>
      (d, npb, shp.headI, .arr a) :: annLoop (d + 1) rest shp.tail npb
  | d, .slc sl :: rest, shp, npb =>
      (d, npb, shp.headI, .slc sl) :: annLoop (d + 1) rest shp.tail (npb + 1)

def entryExp (moved_subspace : Bool)
    (n_basic_indices n_subspace_dims n_output_dims first_adv_idx : Nat) :
    Nat × Nat × Nat × IndexSpec → NdArr Int
  | (d, npb, s, idx) =>
    match idx with
    | .arr a =>
        if moved_subspace then unsqueezeBack n_basic_indices a
        else unsqueezeBack (n_basic_indices - npb) (unsqueezeFront npb a)
    | .slc sl =>
        let abc := sliceCanonical sl (s : Int)
        let ar := arangeArr abc.1 abc.2.1 abc.2.2
        if moved_subspace then
          unsqueezeBack (n_basic_indices - npb - 1)
            (unsqueezeFront (n_subspace_dims + npb) ar)
        else
          unsqueezeBack
            (n_output_dims - ((if first_adv_idx < d then n_subspace_dims else 0) + npb) - 1)
            (unsqueezeFront ((if first_adv_idx < d then n_subspace_dims else 0) + npb) ar)
    | .newaxis => ⟨[], fun _ => 0⟩

lemma expandLoop_eq (moved : Bool) (nb nsub nout fa : Nat) :
    ∀ (specs : List IndexSpec) (d : Nat) (shp : List Nat) (npb : Nat),
      expandLoop moved nb nsub nout fa d specs shp npb =
        (annLoop d specs shp npb).map (entryExp moved nb nsub nout fa) := by
  intro specs
  induction specs with
  | nil => intro d shp npb; rfl
  | cons x rest ih =>
    intro d shp npb
    cases x with
    | newaxis =>
      rw [show annLoop d (IndexSpec.newaxis :: rest) shp npb =
          annLoop (d + 1) rest shp (npb + 1) from rfl]
      rw [show expandLoop moved nb nsub nout fa d (IndexSpec.newaxis :: rest) shp npb =
          expandLoop moved nb nsub nout fa (d + 1) rest shp (npb + 1) from rfl]
      exact ih (d + 1) shp (npb + 1)
    | arr a =>
      show _ :: expandLoop moved nb nsub nout fa (d + 1) rest shp.tail npb =
        _ :: (annLoop (d + 1) rest shp.tail npb).map (entryExp moved nb nsub nout fa)
      rw [ih]
      rfl
    | slc sl =>
      show _ :: expandLoop moved nb nsub nout fa (d + 1) rest shp.tail (npb + 1) =
        _ :: (annLoop (d + 1) rest shp.tail (npb + 1)).map (entryExp moved nb nsub nout fa)
      rw [ih]
      rfl

lemma countNonNew_cons (x : IndexSpec) (rest : List IndexSpec) :
    countNonNew (x :: rest) =
      (if is_newaxis x then 0 else 1) + countNonNew rest := by
  cases x <;> simp [countNonNew, is_newaxis, List.filter] <;> omega

lemma countBasic_cons (x : IndexSpec) (rest : List IndexSpec) :
    countBasic (x :: rest) =
      (if is_basic_idx x then 1 else 0) + countBasic rest := by
  cases x <;> simp [countBasic, is_basic_idx, List.filter] <;> omega

lemma drop_tail_eq {α : Type} (l : List α) (n : Nat) :
    l.tail.drop n = l.drop (1 + n) := by
  rw [← List.drop_one, List.drop_drop]

lemma annLoop_append :
    ∀ (l1 l2 : List IndexSpec) (d : Nat) (shp : List Nat) (npb : Nat),
      annLoop d (l1 ++ l2) shp npb =
        annLoop d l1 shp npb ++
          annLoop (d + l1.length) l2 (shp.drop (countNonNew l1))
            (npb + countBasic l1) := by
  intro l1
  induction l1 with
  | nil =>
    intro l2 d shp npb
    simp [countNonNew, countBasic, annLoop]
  | cons x rest ih =>
    intro l2 d shp npb
    cases x with
    | newaxis =>
      have h1 : countNonNew (IndexSpec.newaxis :: rest) = countNonNew rest := by
        simp [countNonNew, is_newaxis, List.filter_cons]
      have h2 : countBasic (IndexSpec.newaxis :: rest) = 1 + countBasic rest := by
        simp [countBasic, is_basic_idx, List.filter_cons]
        omega
      rw [h1, h2, List.length_cons]
      show annLoop (d + 1) (rest ++ l2) shp (npb + 1) =
        annLoop (d + 1) rest shp (npb + 1) ++
          annLoop (d + (rest.length + 1)) l2 (shp.drop (countNonNew rest))
            (npb + (1 + countBasic rest))
      rw [show d + (rest.length + 1) = d + 1 + rest.length from by omega,
          show npb + (1 + countBasic rest) = npb + 1 + countBasic rest from by omega]
      exact ih l2 (d + 1) shp (npb + 1)
    | arr a =>
      have h1 : countNonNew (IndexSpec.arr a :: rest) = 1 + countNonNew rest := by
        simp [countNonNew, is_newaxis, List.filter_cons]
        omega
      have h2 : countBasic (IndexSpec.arr a :: rest) = countBasic rest := by
        simp [countBasic, is_basic_idx, List.filter_cons]
      rw [h1, h2, List.length_cons]
      show (d, npb, shp.headI, IndexSpec.arr a) ::
          annLoop (d + 1) (rest ++ l2) shp.tail npb =
        ((d, npb, shp.headI, IndexSpec.arr a) ::
          annLoop (d + 1) rest shp.tail npb) ++
          annLoop (d + (rest.length + 1)) l2 (shp.drop (1 + countNonNew rest))
            (npb + countBasic rest)
      rw [show d + (rest.length + 1) = d + 1 + rest.length from by omega,
          ← drop_tail_eq, List.cons_append]
      rw [ih l2 (d + 1) shp.tail npb]
    | slc sl =>
      have h1 : countNonNew (IndexSpec.slc sl :: rest) = 1 + countNonNew rest := by
        simp [countNonNew, is_newaxis, List.filter_cons]
        omega
      have h2 : countBasic (IndexSpec.slc sl :: rest) = 1 + countBasic rest := by
        simp [countBasic, is_basic_idx, List.filter_cons]
        omega
      rw [h1, h2, List.length_cons]
      show (d, npb, shp.headI, IndexSpec.slc sl) ::
          annLoop (d + 1) (rest ++ l2) shp.tail (npb + 1) =
        ((d, npb, shp.headI, IndexSpec.slc sl) ::
          annLoop (d + 1) rest shp.tail (npb + 1)) ++
          annLoop (d + (rest.length + 1)) l2 (shp.drop (1 + countNonNew rest))
            (npb + (1 + countBasic rest))
      rw [show d + (rest.length + 1) = d + 1 + rest.length from by omega,
          show npb + (1 + countBasic rest) = npb + 1 + countBasic rest from by omega,
          ← drop_tail_eq, List.cons_append]
      rw [ih l2 (d + 1) shp.tail (npb + 1)]

lemma rdim_slcShape (A B L k : Nat) :
    rdim ((List.replicate A 1 ++ [L]) ++ List.replicate B 1) k =
      if k = B then L else 1 := by
  rw [rdim_append, rdim_append]
  simp only [List.length_replicate, List.length_singleton]
  by_cases hk : k < B
  · rw [if_pos hk, rdim_replicate_one, if_neg (by omega)]
  · rw [if_neg hk]
    by_cases h2 : k - B < 1
    · rw [if_pos h2, rdim_singleton, if_pos (by omega), if_pos (by omega)]
    · rw [if_neg h2, rdim_replicate_one, if_neg (by omega)]

lemma rdim_advShape (P Q : Nat) (ash : List Nat) (k : Nat) :
    rdim ((List.replicate P 1 ++ ash) ++ List.replicate Q 1) k =
      if k < Q then 1 else rdim ash (k - Q) := by
  rw [rdim_append, rdim_append]
  simp only [List.length_replicate]
  by_cases hk : k < Q
  · rw [if_pos hk, if_pos hk, rdim_replicate_one]
  · rw [if_neg hk, if_neg hk]
    by_cases h2 : k - Q < ash.length
    · rw [if_pos h2]
    · rw [if_neg h2, rdim_replicate_one, rdim_of_ge (Nat.le_of_not_lt h2)]

lemma headI_drop (l : List Int) (n : Nat) :
    (l.drop n).headI = l.getD n 0 := by
  induction l generalizing n with
  | nil => cases n <;> rfl
  | cons a t ih =>
    cases n with
    | zero => rfl
    | succ m =>
      show (t.drop m).headI = _
      rw [ih]
      rfl

lemma getD_append_calc (l1 l2 : List Int) (n : Nat) :
    (l1 ++ l2).getD n 0 =
      if n < l1.length then l1.getD n 0 else l2.getD (n - l1.length) 0 := by
  induction l1 generalizing n with
  | nil => simp
  | cons a t ih =>
    cases n with
    | zero => simp
    | succ m =>
      show (t ++ l2).getD m 0 = _
      rw [ih]
      simp only [List.length_cons]
      by_cases h : m < t.length
      · rw [if_pos h, if_pos (by omega)]
        rfl
      · rw [if_neg h, if_neg (by omega)]
        congr 1
        omega

lemma getD_take_calc (l : List Int) (n k : Nat) (h : k < n) :
    (l.take n).getD k 0 = l.getD k 0 := by
  rw [List.getD_eq_getElem?_getD, List.getD_eq_getElem?_getD,
    List.getElem?_take_of_lt h]

lemma getD_drop_calc (l : List Int) (n k : Nat) :
    (l.drop n).getD k 0 = l.getD (n + k) 0 := by
  rw [List.getD_eq_getElem?_getD, List.getD_eq_getElem?_getD,
    List.getElem?_drop]

lemma validCoordB_length : ∀ (s : List Nat) (c : List Int),
    validCoordB s c = true → c.length = s.length := by
  intro s
  induction s with
  | nil => intro c h; cases c with
    | nil => rfl
    | cons a t => simp [validCoordB] at h
  | cons n t ih =>
    intro c h
    cases c with
    | nil => simp [validCoordB] at h
    | cons i c' =>
      have h' : validCoordB t c' = true := by
        simp [validCoordB] at h
        exact h.2
      simp [ih c' h']

lemma validCoordB_getD : ∀ (s : List Nat) (c : List Int),
    validCoordB s c = true → ∀ k, k < s.length →
      0 ≤ c.getD k 0 ∧ c.getD k 0 < (s.getD k 1 : Int) := by
  intro s
  induction s with
  | nil => intro c _ k hk; simp at hk
  | cons n t ih =>
    intro c h k hk
    cases c with
    | nil => simp [validCoordB] at h
    | cons i c' =>
      simp only [validCoordB, Bool.and_eq_true, decide_eq_true_eq] at h
      cases k with
      | zero => exact ⟨h.1.1, h.1.2⟩
      | succ m =>
        have := ih c' h.2 m (by simpa using hk)
        exact this

lemma basicLens_append : ∀ (l1 l2 : List IndexSpec) (shp : List Nat),
    basicLens (l1 ++ l2) shp =
      basicLens l1 shp ++ basicLens l2 (shp.drop (countNonNew l1)) := by
  intro l1
  induction l1 with
  | nil => intro l2 shp; simp [basicLens, countNonNew]
  | cons x rest ih =>
    intro l2 shp
    cases x with
    | newaxis =>
      have h1 : countNonNew (IndexSpec.newaxis :: rest) = countNonNew rest := by
        simp [countNonNew, is_newaxis, List.filter_cons]
      rw [h1]
      show _ :: basicLens (rest ++ l2) shp = (_ :: basicLens rest shp) ++ _
      rw [ih, List.cons_append]
    | arr a =>
      have h1 : countNonNew (IndexSpec.arr a :: rest) = 1 + countNonNew rest := by
        simp [countNonNew, is_newaxis, List.filter_cons]
        omega
      rw [h1, ← drop_tail_eq]
      show basicLens (rest ++ l2) shp.tail = _
      rw [ih]
      rfl
    | slc sl =>
      have h1 : countNonNew (IndexSpec.slc sl :: rest) = 1 + countNonNew rest := by
        simp [countNonNew, is_newaxis, List.filter_cons]
        omega
      rw [h1, ← drop_tail_eq]
      show _ :: basicLens (rest ++ l2) shp.tail = (_ :: basicLens rest shp.tail) ++ _
      rw [ih, List.cons_append]

lemma length_basicLens : ∀ (l : List IndexSpec) (shp : List Nat),
    (basicLens l shp).length = countBasic l := by
  intro l
  induction l with
  | nil => intro shp; simp [basicLens, countBasic]
  | cons x rest ih =>
    intro shp
    cases x with
    | newaxis =>
      show (basicLens rest shp).length + 1 = _
      rw [ih, countBasic_cons]
      simp [is_basic_idx]
      omega
    | arr a =>
      show (basicLens rest shp.tail).length = _
      rw [ih, countBasic_cons]
      simp [is_basic_idx]
    | slc sl =>
      show (basicLens rest shp.tail).length + 1 = _
      rw [ih, countBasic_cons]
      simp [is_basic_idx]
      omega

lemma axisCoords_append (sub : List Nat) :
    ∀ (l1 l2 : List IndexSpec) (shp : List Nat) (bsub cbas : List Int),
      axisCoords sub (l1 ++ l2) shp bsub cbas =
        axisCoords sub l1 shp bsub cbas ++
          axisCoords sub l2 (shp.drop (countNonNew l1)) bsub
            (cbas.drop (countBasic l1)) := by
  intro l1
  induction l1 with
  | nil => intro l2 shp bsub cbas; simp [axisCoords, countNonNew, countBasic]
  | cons x rest ih =>
    intro l2 shp bsub cbas
    cases x with
    | newaxis =>
      have h1 : countNonNew (IndexSpec.newaxis :: rest) = countNonNew rest := by
        simp [countNonNew, is_newaxis, List.filter_cons]
      have h2 : countBasic (IndexSpec.newaxis :: rest) = 1 + countBasic rest := by
        simp [countBasic, is_basic_idx, List.filter_cons]
        omega
      rw [h1, h2, ← drop_tail_eq]
      show axisCoords sub (rest ++ l2) shp bsub cbas.tail = _
      rw [ih]
      rfl
    | arr a =>
      have h1 : countNonNew (IndexSpec.arr a :: rest) = 1 + countNonNew rest := by
        simp [countNonNew, is_newaxis, List.filter_cons]
        omega
      have h2 : countBasic (IndexSpec.arr a :: rest) = countBasic rest := by
        simp [countBasic, is_basic_idx, List.filter_cons]
      rw [h1, h2, ← drop_tail_eq]
      show _ :: axisCoords sub (rest ++ l2) shp.tail bsub cbas =
        (_ :: axisCoords sub rest shp.tail bsub cbas) ++ _
      rw [ih, List.cons_append]
    | slc sl =>
      have h1 : countNonNew (IndexSpec.slc sl :: rest) = 1 + countNonNew rest := by
        simp [countNonNew, is_newaxis, List.filter_cons]
        omega
      have h2 : countBasic (IndexSpec.slc sl :: rest) = 1 + countBasic rest := by
        simp [countBasic, is_basic_idx, List.filter_cons]
        omega
      rw [h1, h2, ← drop_tail_eq, ← drop_tail_eq]
      show _ :: axisCoords sub (rest ++ l2) shp.tail bsub cbas.tail =
        (_ :: axisCoords sub rest shp.tail bsub cbas.tail) ++ _
      rw [ih, List.cons_append]

lemma findFrom_zero (l : List Bool) (b : Bool) :
    findFrom l b 0 = l.findIdx? (fun x => x = b) := by
  simp [findFrom]

lemma findFrom_shift (l : List Bool) (b : Bool) (s : Nat) :
    findFrom l b s = ((l.drop s).findIdx? (fun x => x = b)).map (· + s) := rfl

lemma findIdxFalse_eq (l : List IndexSpec) :
    (l.map is_basic_idx).findIdx? (fun x => x = false) =
      if (l.dropWhile is_basic_idx).isEmpty then none
      else some (l.takeWhile is_basic_idx).length := by
  induction l with
  | nil => rfl
  | cons x rest ih =>
    by_cases hb : is_basic_idx x = true
    · simp only [List.map_cons, List.findIdx?_cons, hb]
      rw [if_neg (by simp)]
      rw [List.findIdx?_start_succ, ih]
      rw [List.dropWhile_cons_of_pos hb, List.takeWhile_cons_of_pos hb]
      cases hd : (rest.dropWhile is_basic_idx).isEmpty <;> simp [hd]
    · have hb' : is_basic_idx x = false := by
        simpa using hb
      simp only [List.map_cons, List.findIdx?_cons, hb']
      rw [if_pos (by simp)]
      rw [List.dropWhile_cons_of_neg (by simp [hb']),
        List.takeWhile_cons_of_neg (by simp [hb'])]
      simp

lemma findIdx?_append_none {α : Type} {p : α → Bool} :
    ∀ (l1 l2 : List α), (∀ x ∈ l1, p x = false) →
      (l1 ++ l2).findIdx? p = (l2.findIdx? p).map (· + l1.length) := by
  intro l1
  induction l1 with
  | nil => intro l2 _; simp
  | cons a t ih =>
    intro l2 h
    simp only [List.cons_append, List.findIdx?_cons, h a (by simp)]
    rw [if_neg (by simp)]
    rw [List.findIdx?_start_succ, ih l2 (fun x hx => h x (by simp [hx]))]
    simp only [Option.map_map, List.length_cons]
    rcases l2.findIdx? p with _ | v
    · rfl
    · show some _ = some _
      simp
      omega

lemma any_map_pred {α β : Type} (f : α → β) (p : β → Bool) :
    ∀ l : List α, (l.map f).any p = l.any (fun x => p (f x)) := by
  intro l
  induction l with
  | nil => rfl
  | cons a t ih => simp [List.any_cons, ih]

lemma findIdxTrue_eq (l : List IndexSpec) :
    (l.map is_basic_idx).findIdx? (fun x => x = true) =
      if (l.dropWhile (fun i => !is_basic_idx i)).isEmpty then none
      else some (l.takeWhile (fun i => !is_basic_idx i)).length := by
  induction l with
  | nil => rfl
  | cons x rest ih =>
    by_cases hb : is_basic_idx x = true
    · simp only [List.map_cons, List.findIdx?_cons, hb]
      rw [if_pos (by simp)]
      rw [List.dropWhile_cons_of_neg (by simp [hb]),
        List.takeWhile_cons_of_neg (by simp [hb])]
      simp
    · have hb' : is_basic_idx x = false := by simpa using hb
      simp only [List.map_cons, List.findIdx?_cons, hb']
      rw [if_neg (by simp)]
      rw [List.findIdx?_start_succ, ih]
      rw [List.dropWhile_cons_of_pos (by simp [hb']),
        List.takeWhile_cons_of_pos (by simp [hb'])]
      cases hd : (rest.dropWhile (fun i => !is_basic_idx i)).isEmpty <;> simp [hd]

lemma firstAdv_eq (full : List IndexSpec) (dflt : Nat) :
    (findFrom (full.map is_basic_idx) false 0).getD dflt =
      if (full.dropWhile is_basic_idx).isEmpty then dflt else nbbOf full := by
  rw [findFrom_zero, findIdxFalse_eq]
  cases h : (full.dropWhile is_basic_idx).isEmpty <;> simp [nbbOf, h]

lemma movedFlag_eq (full : List IndexSpec) :
    (match findFrom (full.map is_basic_idx) false 0 with
     | none => false
     | some fa =>
       match findFrom (full.map is_basic_idx) true fa with
       | none => false
       | some fb => (findFrom (full.map is_basic_idx) false fb).isSome)
    = advNonContiguous full := by
  rw [findFrom_zero, findIdxFalse_eq]
  by_cases hRe : (full.dropWhile is_basic_idx).isEmpty
  · rw [if_pos hRe]
    show false = advNonContiguous full
    unfold advNonContiguous
    rw [List.isEmpty_iff.mp hRe]
    rfl
  · rw [if_neg hRe]
    set P := full.takeWhile is_basic_idx with hPdef
    set R := full.dropWhile is_basic_idx with hRdef
    have hPR : P ++ R = full := List.takeWhile_append_dropWhile _ _
    have hdrop1 : (full.map is_basic_idx).drop P.length = R.map is_basic_idx := by
      rw [← hPR, List.map_append, ← List.length_map P is_basic_idx,
        List.drop_left]
    show (match findFrom (full.map is_basic_idx) true P.length with
          | none => false
          | some fb => (findFrom (full.map is_basic_idx) false fb).isSome)
      = advNonContiguous full
    rw [findFrom_shift, hdrop1, findIdxTrue_eq]
    set M := R.takeWhile (fun i => !is_basic_idx i) with hMdef
    set S := R.dropWhile (fun i => !is_basic_idx i) with hSdef
    have hadv : advNonContiguous full = S.any (fun i => !is_basic_idx i) := by
      rw [hSdef, hRdef]
      rfl
    by_cases hSe : S.isEmpty
    · rw [if_pos hSe]
      show false = advNonContiguous full
      rw [hadv, List.isEmpty_iff.mp hSe]
      rfl
    · rw [if_neg hSe]
      show (findFrom (full.map is_basic_idx) false (M.length + P.length)).isSome
        = advNonContiguous full
      have hMS : M ++ S = R := List.takeWhile_append_dropWhile _ _
      have hdrop2 : (full.map is_basic_idx).drop (M.length + P.length) =
          S.map is_basic_idx := by
        rw [Nat.add_comm M.length P.length, ← List.drop_drop, hdrop1, ← hMS,
          List.map_append, ← List.length_map M is_basic_idx, List.drop_left]
      rw [findFrom_shift, hdrop2, Option.isSome_map']
      rw [List.findIdx?_isSome, any_map_pred, hadv]
      have hd : ∀ i : IndexSpec,
          (decide (is_basic_idx i = false)) = !is_basic_idx i := by
        intro i
        cases h : is_basic_idx i <;> simp
      simp only [hd]

lemma comb_assoc (a b c : Nat) : comb (comb a b) c = comb a (comb b c) := by
  unfold comb
  by_cases ha : a = 1
  · simp [ha]
  · simp [ha]

lemma foldl_comb_shift {α : Type} (f : α → Nat) :
    ∀ (l : List α) (v : Nat),
      l.foldl (fun v x => comb v (f x)) v =
        comb v (l.foldl (fun v x => comb v (f x)) 1) := by
  intro l
  induction l with
  | nil => intro v; rw [List.foldl_nil, List.foldl_nil, comb_one_right]
  | cons a t ih =>
    intro v
    rw [List.foldl_cons, List.foldl_cons, ih (comb v (f a)),
      ih (comb 1 (f a)), comb_one_left, comb_assoc]

lemma foldl_max_le (m : Nat) : ∀ (L : List Nat) (a : Nat), a ≤ m →
    (∀ x ∈ L, x ≤ m) → L.foldl max a ≤ m := by
  intro L
  induction L with
  | nil => intro a ha _; exact ha
  | cons x t ih =>
    intro a ha h
    rw [List.foldl_cons]
    exact ih _ (by have := h x (by simp); omega)
      (fun y hy => h y (by simp [hy]))

lemma foldl_max_ge_start : ∀ (L : List Nat) (a : Nat), a ≤ L.foldl max a := by
  intro L
  induction L with
  | nil => intro a; exact Nat.le_refl a
  | cons x t ih =>
    intro a
    rw [List.foldl_cons]
    have := ih (max a x)
    omega

lemma foldl_max_ge_mem : ∀ (L : List Nat) (a x : Nat), x ∈ L →
    x ≤ L.foldl max a := by
  intro L
  induction L with
  | nil => intro a x hx; simp at hx
  | cons y t ih =>
    intro a x hx
    rw [List.foldl_cons]
    rcases List.mem_cons.mp hx with h | h
    · subst h
      have := foldl_max_ge_start t (max a x)
      omega
    · exact ih _ x h

lemma foldr_max_le : ∀ (L : List Nat) (x : Nat), x ∈ L → x ≤ L.foldr max 0 := by
  intro L
  induction L with
  | nil => intro x hx; simp at hx
  | cons y t ih =>
    intro x hx
    rw [List.foldr_cons]
    rcases List.mem_cons.mp hx with h | h
    · subst h; omega
    · have := ih x h; omega

lemma foldr_max_attained : ∀ (L : List Nat),
    L.foldr max 0 = 0 ∨ L.foldr max 0 ∈ L := by
  intro L
  induction L with
  | nil => exact Or.inl rfl
  | cons y t ih =>
    rw [List.foldr_cons]
    rcases ih with h | h
    · by_cases hy : t.foldr max 0 ≤ y
      · right; rw [Nat.max_eq_left hy]; simp
      · left; omega
    · by_cases hy : t.foldr max 0 ≤ y
      · right; rw [Nat.max_eq_left hy]; simp
      · right
        rw [Nat.max_eq_right (by omega)]
        simp [h]

lemma foldl_max_len : ∀ (L : List Nat) (a : Nat),
    L.foldl max a = max a (L.foldr max 0) := by
  intro L
  induction L with
  | nil => intro a; simp
  | cons x t ih =>
    intro a
    rw [List.foldl_cons, List.foldr_cons, ih]
    omega

lemma filter_id_map : ∀ (l : List IndexSpec),
    ((l.map is_basic_idx).filter id).length = countBasic l := by
  intro l
  induction l with
  | nil => rfl
  | cons x rest ih =>
    rw [countBasic_cons]
    cases hx : is_basic_idx x <;> (simp [List.filter_cons, hx, ih]; try omega)

/-- The advanced (array) index values of a specification list, in order. -/
def advArrs (l : List IndexSpec) : List (NdArr Int) :=
  l.filterMap (fun i => match i with | .arr a => some a | _ => none)

lemma advShapes_eq_map (l : List IndexSpec) :
    advShapes l = (advArrs l).map NdArr.shape := by
  induction l with
  | nil => rfl
  | cons x rest ih =>
    cases x <;> simp [advShapes, advArrs, List.filterMap_cons, ih] <;>
      simp [advShapes, advArrs] at ih <;> exact ih

lemma advShapes_filter : ∀ (l : List IndexSpec),
    (l.filter (fun i => !is_basic_idx i)).map specNdim =
      (advShapes l).map List.length := by
  intro l
  induction l with
  | nil => rfl
  | cons x rest ih =>
    cases x with
    | slc sl => exact ih
    | newaxis => exact ih
    | arr a =>
      show specNdim (.arr a) :: (rest.filter (fun i => !is_basic_idx i)).map specNdim =
        a.shape.length :: (advShapes rest).map List.length
      rw [ih]
      rfl

lemma length_subShapeOf (l : List IndexSpec) :
    (subShapeOf l).length = ((advShapes l).map List.length).foldr max 0 := by
  unfold subShapeOf
  rw [length_foldl_broadcastShapes2]
  have h : ∀ (L : List (List Nat)) (a : Nat),
      L.foldl (fun n s => max n s.length) a =
        (L.map List.length).foldl max a := by
    intro L
    induction L with
    | nil => intro a; rfl
    | cons s t ih => intro a; rw [List.foldl_cons, List.map_cons,
        List.foldl_cons, ih]
  rw [h, foldl_max_len]
  simp

/-- entryExp depends only on the values of its scalar parameters. -/
lemma entryExp_congr {m1 m2 : Bool} {b1 b2 s1 s2 o1 o2 f1 f2 : Nat}
    (hm : m1 = m2) (hb : b1 = b2) (hs : s1 = s2) (ho : o1 = o2)
    (hf : f1 = f2) :
    entryExp m1 b1 s1 o1 f1 = entryExp m2 b2 s2 o2 f2 := by
  subst hm hb hs ho hf
  rfl

/-- Canonical form of the expanded (pre-broadcast) index entries. -/
def expandEntries (indices : List IndexSpec) (shape : List Nat) :
    List (NdArr Int) :=
  (annLoop 0 (padFull indices shape) shape 0).map
    (entryExp (advNonContiguous (padFull indices shape))
      (countBasic (padFull indices shape))
      (subShapeOf (padFull indices shape)).length
      ((subShapeOf (padFull indices shape)).length +
        countBasic (padFull indices shape))
      (if ((padFull indices shape).dropWhile is_basic_idx).isEmpty
       then shape.length else nbbOf (padFull indices shape)))

lemma expand_indices_body (indices : List IndexSpec) (shape : List Nat) :
    expand_indices indices shape =
      broadcastArrays
        (expandLoop
          (match findFrom ((padFull indices shape).map is_basic_idx) false 0 with
           | none => false
           | some fa =>
             match findFrom ((padFull indices shape).map is_basic_idx) true fa with
             | none => false
             | some fb =>
               (findFrom ((padFull indices shape).map is_basic_idx) false fb).isSome)
          (((padFull indices shape).map is_basic_idx).filter id).length
          ((((padFull indices shape).filter (fun i => !is_basic_idx i)).map
              specNdim).foldr max 0)
          (((((padFull indices shape).filter (fun i => !is_basic_idx i)).map
              specNdim).foldr max 0) +
            (((padFull indices shape).map is_basic_idx).filter id).length)
          ((findFrom ((padFull indices shape).map is_basic_idx) false 0).getD
            shape.length)
          0 (padFull indices shape) shape 0) := rfl

lemma expand_indices_eq (indices : List IndexSpec) (shape : List Nat) :
    expand_indices indices shape = broadcastArrays (expandEntries indices shape) := by
  rw [expand_indices_body, expandLoop_eq]
  unfold expandEntries
  congr 1
  have hs : (((padFull indices shape).filter (fun i => !is_basic_idx i)).map
      specNdim).foldr max 0 = (subShapeOf (padFull indices shape)).length := by
    rw [length_subShapeOf, advShapes_filter]
  have ho : (((padFull indices shape).filter (fun i => !is_basic_idx i)).map
        specNdim).foldr max 0 +
      (((padFull indices shape).map is_basic_idx).filter id).length =
      (subShapeOf (padFull indices shape)).length +
        countBasic (padFull indices shape) := by
    rw [length_subShapeOf, advShapes_filter, filter_id_map]
  rw [entryExp_congr (movedFlag_eq (padFull indices shape))
    (filter_id_map (padFull indices shape)) hs ho
    (firstAdv_eq (padFull indices shape) shape.length)]

/-- One step of the right-aligned segment-value bookkeeping: consuming one
basic entry of resolved length L at depth o extends the covered block of
output positions by the position nout - o - 1 holding L. -/
lemma segVal_cons_val (nout o rl k L : Nat) (lens : List Nat)
    (hfit : o + 1 + rl ≤ nout) :
    comb (if k = nout - o - 1 then L else 1)
      (if nout - (o + 1) - rl ≤ k ∧ k < nout - (o + 1)
       then lens.getD (nout - (o + 1) - 1 - k) 1 else 1) =
    (if nout - o - (rl + 1) ≤ k ∧ k < nout - o
     then (L :: lens).getD (nout - o - 1 - k) 1 else 1) := by
  by_cases hk : k = nout - o - 1
  · rw [if_pos hk, if_neg (by omega), comb_one_right,
      if_pos ⟨by omega, by omega⟩,
      show nout - o - 1 - k = 0 from by omega]
    rfl
  · rw [if_neg hk, comb_one_left]
    by_cases h2 : nout - (o + 1) - rl ≤ k ∧ k < nout - (o + 1)
    · rw [if_pos h2, if_pos ⟨by omega, by omega⟩,
        show nout - o - 1 - k = (nout - (o + 1) - 1 - k) + 1 from by omega]
      rfl
    · rw [if_neg h2, if_neg (fun hA => h2 ⟨by omega, by omega⟩)]

/-- Shape fold over an all-basic run of the expansion loop (subspace not
moved): the run contributes, at right-aligned position k, the resolved basic
length whose output axis sits at k, and the stretchable size 1 elsewhere. -/
lemma basicSeg_fold (nb nsub nout fa k off : Nat) :
    ∀ (B : List IndexSpec) (shp : List Nat) (d0 npb0 v : Nat),
      (∀ x ∈ B, is_basic_idx x = true) →
      (∀ sl, IndexSpec.slc sl ∈ B →
        ∀ n : Int, sliceCanonical sl n = sliceIndices sl n) →
      (∀ d', d0 ≤ d' → d' < d0 + B.length →
        (if fa < d' then nsub else 0) = off) →
      off + npb0 + B.length ≤ nout →
      ((annLoop d0 B shp npb0).map (entryExp false nb nsub nout fa)).foldl
          (fun v e => comb v (rdim e.shape k)) v
        = comb v (if nout - (off + npb0) - B.length ≤ k ∧
                    k < nout - (off + npb0)
                  then (basicLens B shp).getD (nout - (off + npb0) - 1 - k) 1
                  else 1) := by
  intro B
  induction B with
  | nil =>
    intro shp d0 npb0 v _ _ _ _
    show v = comb v _
    rw [show basicLens [] shp = [] from rfl]
    rw [show ([] : List Nat).getD (nout - (off + npb0) - 1 - k) 1 = 1 from rfl]
    rw [ite_self, comb_one_right]
  | cons x rest ih =>
    intro shp d0 npb0 v hB hslc hoff hfit
    have hfit' : off + npb0 + rest.length + 1 ≤ nout := by
      simp only [List.length_cons] at hfit
      omega
    cases x with
    | arr a =>
      have := hB (.arr a) (by simp)
      simp [is_basic_idx] at this
    | newaxis =>
      show ((annLoop (d0 + 1) rest shp (npb0 + 1)).map
          (entryExp false nb nsub nout fa)).foldl _ v = _
      rw [ih shp (d0 + 1) (npb0 + 1) v (fun y hy => hB y (by simp [hy]))
        (fun sl hs n => hslc sl (List.mem_cons_of_mem _ hs) n)
        (fun d' h1 h2 => hoff d' (by omega)
          (by simp only [List.length_cons]; omega))
        (by omega)]
      congr 1
      rw [show basicLens (IndexSpec.newaxis :: rest) shp =
          1 :: basicLens rest shp from rfl]
      simp only [List.length_cons]
      rw [show off + (npb0 + 1) = off + npb0 + 1 from by omega]
      rw [← segVal_cons_val nout (off + npb0) rest.length k 1
        (basicLens rest shp) (by omega)]
      rw [ite_self, comb_one_left]
    | slc sl =>
      have hsc := hslc sl (List.mem_cons_self _ _) ((shp.headI : Nat) : Int)
      have hpd : (if fa < d0 then nsub else 0) + npb0 = off + npb0 := by
        rw [hoff d0 (Nat.le_refl d0) (by simp only [List.length_cons]; omega)]
      rw [show annLoop d0 (IndexSpec.slc sl :: rest) shp npb0 =
          (d0, npb0, shp.headI, IndexSpec.slc sl) ::
            annLoop (d0 + 1) rest shp.tail (npb0 + 1) from rfl]
      simp only [List.map_cons, List.foldl_cons]
      rw [ih shp.tail (d0 + 1) (npb0 + 1) _
        (fun y hy => hB y (by simp [hy]))
        (fun sl0 hs n => hslc sl0 (List.mem_cons_of_mem _ hs) n)
        (fun d' h1 h2 => hoff d' (by omega)
          (by simp only [List.length_cons]; omega))
        (by omega)]
      have hentry : (entryExp false nb nsub nout fa
          (d0, npb0, shp.headI, IndexSpec.slc sl)).shape =
          (List.replicate ((if fa < d0 then nsub else 0) + npb0) 1 ++
            [rangeLen (sliceCanonical sl ((shp.headI : Nat) : Int)).1
              (sliceCanonical sl ((shp.headI : Nat) : Int)).2.1
              (sliceCanonical sl ((shp.headI : Nat) : Int)).2.2]) ++
            List.replicate
              (nout - ((if fa < d0 then nsub else 0) + npb0) - 1) 1 := rfl
      rw [hentry, hsc, hpd, rdim_slcShape]
      rw [comb_assoc]
      congr 1
      rw [show basicLens (IndexSpec.slc sl :: rest) shp =
          rangeLen (sliceIndices sl ((shp.headI : Nat) : Int)).1
              (sliceIndices sl ((shp.headI : Nat) : Int)).2.1
              (sliceIndices sl ((shp.headI : Nat) : Int)).2.2 ::
            basicLens rest shp.tail from rfl]
      simp only [List.length_cons]
      rw [show off + (npb0 + 1) = off + npb0 + 1 from by omega]
      exact segVal_cons_val nout (off + npb0) rest.length k _
        (basicLens rest shp.tail) (by omega)

/-- Shape fold over an all-advanced run of the expansion loop (subspace not
moved): below the trailing-basic block the run contributes only stretchable
sizes; at and above it, it folds in the advanced shapes themselves. -/
lemma arrSeg_fold (nb nsub nout fa k : Nat) :
    ∀ (M : List IndexSpec) (shp : List Nat) (d0 npb0 v : Nat),
      (∀ x ∈ M, is_basic_idx x = false) →
      ((annLoop d0 M shp npb0).map (entryExp false nb nsub nout fa)).foldl
          (fun v e => comb v (rdim e.shape k)) v
        = if k < nb - npb0 then v
          else (advShapes M).foldl
            (fun v s => comb v (rdim s (k - (nb - npb0)))) v := by
  intro M
  induction M with
  | nil =>
    intro shp d0 npb0 v _
    show v = if k < nb - npb0 then v else v
    rw [ite_self]
  | cons x rest ih =>
    intro shp d0 npb0 v hM
    cases x with
    | slc sl =>
      have := hM (.slc sl) (by simp)
      simp [is_basic_idx] at this
    | newaxis =>
      have := hM .newaxis (by simp)
      simp [is_basic_idx] at this
    | arr a =>
      rw [show annLoop d0 (IndexSpec.arr a :: rest) shp npb0 =
          (d0, npb0, shp.headI, IndexSpec.arr a) ::
            annLoop (d0 + 1) rest shp.tail npb0 from rfl]
      simp only [List.map_cons, List.foldl_cons]
      rw [ih shp.tail (d0 + 1) npb0 _ (fun y hy => hM y (by simp [hy]))]
      have hentry : (entryExp false nb nsub nout fa
          (d0, npb0, shp.headI, IndexSpec.arr a)).shape =
          (List.replicate npb0 1 ++ a.shape) ++
            List.replicate (nb - npb0) 1 := rfl
      rw [hentry, rdim_advShape]
      rw [show advShapes (IndexSpec.arr a :: rest) =
          a.shape :: advShapes rest from rfl, List.foldl_cons]
      by_cases hk : k < nb - npb0
      · rw [if_pos hk, if_pos hk, if_pos hk, comb_one_right]
      · rw [if_neg hk, if_neg hk, if_neg hk]

/-- Shape fold over a run of the expansion loop with the subspace moved to
the front: basic entries cover the trailing nb output positions in order,
advanced entries fold their shapes into the leading subspace positions. -/
lemma movedSeg_fold (nb nsub nout fa k : Nat) :
    ∀ (l : List IndexSpec) (shp : List Nat) (d0 npb0 v : Nat),
      npb0 + countBasic l ≤ nb →
      (∀ sl, IndexSpec.slc sl ∈ l →
        ∀ n : Int, sliceCanonical sl n = sliceIndices sl n) →
      ((annLoop d0 l shp npb0).map (entryExp true nb nsub nout fa)).foldl
          (fun v e => comb v (rdim e.shape k)) v
        = comb v (comb
            (if nb - npb0 - countBasic l ≤ k ∧ k < nb - npb0
             then (basicLens l shp).getD (nb - npb0 - 1 - k) 1 else 1)
            (if k < nb then 1
             else (advShapes l).foldl
               (fun v s => comb v (rdim s (k - nb))) 1)) := by
  intro l
  induction l with
  | nil =>
    intro shp d0 npb0 v _ _
    show v = comb v _
    rw [show basicLens [] shp = [] from rfl,
      show advShapes [] = [] from rfl,
      show (([] : List Nat)).getD (nb - npb0 - 1 - k) 1 = 1 from rfl,
      List.foldl_nil, ite_self, ite_self, comb_one_left, comb_one_right]
  | cons x rest ih =>
    intro shp d0 npb0 v hfit hslc
    cases x with
    | newaxis =>
      have hcb : countBasic (IndexSpec.newaxis :: rest) =
          countBasic rest + 1 := by
        rw [countBasic_cons]
        simp [is_basic_idx]
        omega
      rw [hcb] at hfit
      show ((annLoop (d0 + 1) rest shp (npb0 + 1)).map
          (entryExp true nb nsub nout fa)).foldl _ v = _
      rw [ih shp (d0 + 1) (npb0 + 1) v (by omega)
        (fun sl hs n => hslc sl (List.mem_cons_of_mem _ hs) n)]
      congr 1
      rw [hcb, show basicLens (IndexSpec.newaxis :: rest) shp =
          1 :: basicLens rest shp from rfl,
        show advShapes (IndexSpec.newaxis :: rest) = advShapes rest from rfl]
      congr 1
      rw [← segVal_cons_val nb npb0 (countBasic rest) k 1
        (basicLens rest shp) (by omega), ite_self, comb_one_left]
    | slc sl =>
      have hsc := hslc sl (List.mem_cons_self _ _) ((shp.headI : Nat) : Int)
      have hcb : countBasic (IndexSpec.slc sl :: rest) =
          countBasic rest + 1 := by
        rw [countBasic_cons]
        simp [is_basic_idx]
        omega
      rw [hcb] at hfit
      rw [show annLoop d0 (IndexSpec.slc sl :: rest) shp npb0 =
          (d0, npb0, shp.headI, IndexSpec.slc sl) ::
            annLoop (d0 + 1) rest shp.tail (npb0 + 1) from rfl]
      simp only [List.map_cons, List.foldl_cons]
      rw [ih shp.tail (d0 + 1) (npb0 + 1) _ (by omega)
        (fun sl0 hs n => hslc sl0 (List.mem_cons_of_mem _ hs) n)]
      have hentry : (entryExp true nb nsub nout fa
          (d0, npb0, shp.headI, IndexSpec.slc sl)).shape =
          (List.replicate (nsub + npb0) 1 ++
            [rangeLen (sliceCanonical sl ((shp.headI : Nat) : Int)).1
              (sliceCanonical sl ((shp.headI : Nat) : Int)).2.1
              (sliceCanonical sl ((shp.headI : Nat) : Int)).2.2]) ++
            List.replicate (nb - npb0 - 1) 1 := rfl
      rw [hentry, hsc, rdim_slcShape, comb_assoc]
      congr 1
      rw [hcb, show basicLens (IndexSpec.slc sl :: rest) shp =
          rangeLen (sliceIndices sl ((shp.headI : Nat) : Int)).1
              (sliceIndices sl ((shp.headI : Nat) : Int)).2.1
              (sliceIndices sl ((shp.headI : Nat) : Int)).2.2 ::
            basicLens rest shp.tail from rfl,
        show advShapes (IndexSpec.slc sl :: rest) = advShapes rest from rfl]
      rw [← comb_assoc]
      congr 1
      exact segVal_cons_val nb npb0 (countBasic rest) k _
        (basicLens rest shp.tail) (by omega)
    | arr a =>
      have hcb : countBasic (IndexSpec.arr a :: rest) = countBasic rest := by
        rw [countBasic_cons]
        simp [is_basic_idx]
      rw [hcb] at hfit
      rw [show annLoop d0 (IndexSpec.arr a :: rest) shp npb0 =
          (d0, npb0, shp.headI, IndexSpec.arr a) ::
            annLoop (d0 + 1) rest shp.tail npb0 from rfl]
      simp only [List.map_cons, List.foldl_cons]
      rw [ih shp.tail (d0 + 1) npb0 _ (by omega)
        (fun sl hs n => hslc sl (List.mem_cons_of_mem _ hs) n)]
      have hentry : (entryExp true nb nsub nout fa
          (d0, npb0, shp.headI, IndexSpec.arr a)).shape =
          a.shape ++ List.replicate nb 1 := rfl
      rw [hentry, rdim_append, List.length_replicate, rdim_replicate_one]
      rw [hcb, show basicLens (IndexSpec.arr a :: rest) shp =
          basicLens rest shp.tail from rfl,
        show advShapes (IndexSpec.arr a :: rest) =
          a.shape :: advShapes rest from rfl, List.foldl_cons,
        comb_one_left]
      by_cases hk : k < nb
      · rw [if_pos hk, if_pos hk, if_pos hk, comb_one_right]
      · rw [if_neg hk, if_neg hk, if_neg hk]
        rw [if_neg (by intro hA; omega)]
        rw [foldl_comb_shift (fun s => rdim s (k - nb)) (advShapes rest)
          (rdim a.shape (k - nb))]
        rw [comb_one_left, ← comb_assoc, ← comb_assoc, comb_one_right]

lemma advArrs_cons_arr (a : NdArr Int) (rest : List IndexSpec) :
    advArrs (.arr a :: rest) = a :: advArrs rest := rfl

lemma getD_tail (l : List Int) (j : Nat) :
    l.tail.getD j 0 = l.getD (j + 1) 0 := by
  rw [← List.drop_one, getD_drop_calc, Nat.add_comm]

lemma headI_eq_getD (l : List Int) : l.headI = l.getD 0 0 := by
  cases l <;> rfl

/-- Values over an all-basic run of the expansion loop (subspace not moved):
after broadcasting into the combined space, each emitted arange reads the
output coordinate of its own axis, matching the per-axis slice positions of
the specification side. -/
lemma basicSeg_vals (C sub : List Nat) (nb nsub nout fa off : Nat)
    (hC : C.length = nout) :
    ∀ (B : List IndexSpec) (shp : List Nat) (d0 npb0 : Nat)
      (bsub cbas c : List Int),
      (∀ x ∈ B, is_basic_idx x = true) →
      (∀ sl, IndexSpec.slc sl ∈ B →
        ∀ n : Int, sliceCanonical sl n = sliceIndices sl n) →
      (∀ d', d0 ≤ d' → d' < d0 + B.length →
        (if fa < d' then nsub else 0) = off) →
      c.length = nout →
      off + npb0 + B.length ≤ nout →
      (∀ j, j < B.length → cbas.getD j 0 = c.getD (off + npb0 + j) 0) →
      (∀ j, j < B.length → 0 ≤ c.getD (off + npb0 + j) 0 ∧
        c.getD (off + npb0 + j) 0 < ((basicLens B shp).getD j 1 : Int)) →
      ((annLoop d0 B shp npb0).map (entryExp false nb nsub nout fa)).map
          (fun e => (broadcastTo C e).get c)
        = axisCoords sub B shp bsub cbas := by
  intro B
  induction B with
  | nil => intro shp d0 npb0 bsub cbas c _ _ _ _ _ _ _; rfl
  | cons x rest ih =>
    intro shp d0 npb0 bsub cbas c hB hslc hoff hc hfit hget hval
    have hfit' : off + npb0 + rest.length + 1 ≤ nout := by
      simp only [List.length_cons] at hfit
      omega
    cases x with
    | arr a =>
      have := hB (.arr a) (by simp)
      simp [is_basic_idx] at this
    | newaxis =>
      show ((annLoop (d0 + 1) rest shp (npb0 + 1)).map
          (entryExp false nb nsub nout fa)).map _ =
        axisCoords sub rest shp bsub cbas.tail
      rw [ih shp (d0 + 1) (npb0 + 1) bsub cbas.tail c
        (fun y hy => hB y (by simp [hy]))
        (fun sl hs n => hslc sl (List.mem_cons_of_mem _ hs) n)
        (fun d' h1 h2 => hoff d' (by omega)
          (by simp only [List.length_cons]; omega))
        hc (by omega)
        (fun j hj => by
          rw [getD_tail, hget (j + 1) (by simp only [List.length_cons]; omega)]
          congr 1
          omega)
        (fun j hj => by
          have := hval (j + 1) (by simp only [List.length_cons]; omega)
          rw [show basicLens (IndexSpec.newaxis :: rest) shp =
            1 :: basicLens rest shp from rfl] at this
          rw [show (1 :: basicLens rest shp).getD (j + 1) 1 =
            (basicLens rest shp).getD j 1 from rfl] at this
          rw [show off + (npb0 + 1) + j = off + npb0 + (j + 1) from by omega]
          exact this)]
    | slc sl =>
      have hsc := hslc sl (List.mem_cons_self _ _) ((shp.headI : Nat) : Int)
      rw [show annLoop d0 (IndexSpec.slc sl :: rest) shp npb0 =
          (d0, npb0, shp.headI, IndexSpec.slc sl) ::
            annLoop (d0 + 1) rest shp.tail (npb0 + 1) from rfl]
      simp only [List.map_cons]
      rw [show axisCoords sub (IndexSpec.slc sl :: rest) shp bsub cbas =
          ((sliceIndices sl ((shp.headI : Nat) : Int)).1 +
            cbas.headI * (sliceIndices sl ((shp.headI : Nat) : Int)).2.2) ::
            axisCoords sub rest shp.tail bsub cbas.tail from rfl]
      have hpd : (if fa < d0 then nsub else 0) + npb0 = off + npb0 := by
        rw [hoff d0 (Nat.le_refl d0) (by simp only [List.length_cons]; omega)]
      congr 1
      · rw [show entryExp false nb nsub nout fa
            (d0, npb0, shp.headI, IndexSpec.slc sl) =
            unsqueezeBack
              (nout - ((if fa < d0 then nsub else 0) + npb0) - 1)
              (unsqueezeFront ((if fa < d0 then nsub else 0) + npb0)
                (arangeArr (sliceCanonical sl ((shp.headI : Nat) : Int)).1
                  (sliceCanonical sl ((shp.headI : Nat) : Int)).2.1
                  (sliceCanonical sl ((shp.headI : Nat) : Int)).2.2)) from rfl]
        rw [hsc, hpd]
        rw [bTo_unsq_arange_get C _ _ _ (off + npb0)
          (nout - (off + npb0) - 1) c (by omega) (by omega)]
        rw [hC, show nout - (1 + (nout - (off + npb0) - 1)) = off + npb0
          from by omega]
        rw [headI_drop, headI_eq_getD,
          hget 0 (by simp only [List.length_cons]; omega), Nat.add_zero]
        by_cases hL : rangeLen (sliceIndices sl ((shp.headI : Nat) : Int)).1
            (sliceIndices sl ((shp.headI : Nat) : Int)).2.1
            (sliceIndices sl ((shp.headI : Nat) : Int)).2.2 = 1
        · rw [if_pos hL]
          have hv := hval 0 (by simp only [List.length_cons]; omega)
          rw [Nat.add_zero] at hv
          rw [show (basicLens (IndexSpec.slc sl :: rest) shp).getD 0 1 =
            rangeLen (sliceIndices sl ((shp.headI : Nat) : Int)).1
              (sliceIndices sl ((shp.headI : Nat) : Int)).2.1
              (sliceIndices sl ((shp.headI : Nat) : Int)).2.2 from rfl,
            hL] at hv
          have : c.getD (off + npb0) 0 = 0 := by omega
          rw [this]
        · rw [if_neg hL]
      · rw [ih shp.tail (d0 + 1) (npb0 + 1) bsub cbas.tail c
          (fun y hy => hB y (by simp [hy]))
          (fun sl0 hs n => hslc sl0 (List.mem_cons_of_mem _ hs) n)
          (fun d' h1 h2 => hoff d' (by omega)
            (by simp only [List.length_cons]; omega))
          hc (by omega)
          (fun j hj => by
            rw [getD_tail, hget (j + 1) (by simp only [List.length_cons]; omega)]
            congr 1
            omega)
          (fun j hj => by
            have := hval (j + 1) (by simp only [List.length_cons]; omega)
            rw [show (basicLens (IndexSpec.slc sl :: rest) shp).getD (j + 1) 1 =
              (basicLens rest shp.tail).getD j 1 from rfl] at this
            rw [show off + (npb0 + 1) + j = off + npb0 + (j + 1) from by omega]
            exact this)]

/-- Gather value of one broadcast advanced entry in the unmoved layout: the
array reads the subspace block of output coordinates, exactly as the
specification-side broadcast over the subspace shape does. -/
lemma arrEntry_val (C sub : List Nat) (nsub nout p q : Nat)
    (hC : C.length = nout) (hpq : p + nsub + q = nout)
    (hsub : sub.length = nsub) (a : NdArr Int) (c : List Int)
    (hc : c.length = nout) (ha : a.ndim ≤ nsub) :
    (broadcastTo C (unsqueezeBack q (unsqueezeFront p a))).get c =
      (broadcastTo sub a).get ((c.drop p).take nsub) := by
  rw [bTo_unsq_get C a p q c (by omega) (by unfold NdArr.ndim at ha ⊢; omega)]
  rw [show (broadcastTo sub a).get ((c.drop p).take nsub) =
    a.get (List.zipWith (fun s ci => if s = 1 then 0 else ci) a.shape
      (((c.drop p).take nsub).drop (sub.length - a.shape.length))) from rfl]
  rw [hsub]
  unfold NdArr.ndim at ha ⊢
  rw [List.drop_take, List.drop_drop, hC]
  rw [show nout - (a.shape.length + q) = p + (nsub - a.shape.length)
    from by omega]
  rw [zipWith_take_right _ _ _ _ (by omega)]

/-- Values over an all-advanced run of the expansion loop (subspace not
moved), with the preceding-basic count p: each broadcast entry reads the
subspace block starting at position p. -/
lemma arrSeg_vals (C sub : List Nat) (nb nsub nout fa p : Nat)
    (hC : C.length = nout) (hpq : p + nsub + (nb - p) = nout)
    (hsub : sub.length = nsub) :
    ∀ (M : List IndexSpec) (shp : List Nat) (d0 : Nat)
      (cbas c : List Int),
      (∀ x ∈ M, is_basic_idx x = false) →
      c.length = nout →
      (∀ a ∈ advArrs M, a.ndim ≤ nsub) →
      ((annLoop d0 M shp p).map (entryExp false nb nsub nout fa)).map
          (fun e => (broadcastTo C e).get c)
        = axisCoords sub M shp ((c.drop p).take nsub) cbas := by
  intro M
  induction M with
  | nil => intro shp d0 cbas c _ _ _; rfl
  | cons x rest ih =>
    intro shp d0 cbas c hM hc harr
    cases x with
    | slc sl =>
      have := hM (.slc sl) (by simp)
      simp [is_basic_idx] at this
    | newaxis =>
      have := hM .newaxis (by simp)
      simp [is_basic_idx] at this
    | arr a =>
      rw [show annLoop d0 (IndexSpec.arr a :: rest) shp p =
          (d0, p, shp.headI, IndexSpec.arr a) ::
            annLoop (d0 + 1) rest shp.tail p from rfl]
      simp only [List.map_cons]
      rw [show axisCoords sub (IndexSpec.arr a :: rest) shp
          ((c.drop p).take nsub) cbas =
          (broadcastTo sub a).get ((c.drop p).take nsub) ::
            axisCoords sub rest shp.tail ((c.drop p).take nsub) cbas from rfl]
      congr 1
      · rw [show entryExp false nb nsub nout fa
            (d0, p, shp.headI, IndexSpec.arr a) =
            unsqueezeBack (nb - p) (unsqueezeFront p a) from rfl]
        exact arrEntry_val C sub nsub nout p (nb - p) hC hpq hsub a c hc
          (harr a (by rw [advArrs_cons_arr]; exact List.mem_cons_self a _))
      · exact ih shp.tail (d0 + 1) cbas c
          (fun y hy => hM y (by simp [hy])) hc
          (fun y hy => harr y
            (by rw [advArrs_cons_arr]; exact List.mem_cons_of_mem a hy))

/-- Values over a run of the expansion loop with the subspace moved to the
front: advanced entries read the leading subspace block, basic entries read
the trailing coordinates in basic order. -/
lemma movedSeg_vals (C sub : List Nat) (nb nsub nout fa : Nat)
    (hC : C.length = nout) (hnn : nout = nsub + nb)
    (hsub : sub.length = nsub) :
    ∀ (l : List IndexSpec) (shp : List Nat) (d0 npb0 : Nat)
      (cbas c : List Int),
      c.length = nout →
      npb0 + countBasic l ≤ nb →
      (∀ sl, IndexSpec.slc sl ∈ l → ∀ n : Int,
        sliceCanonical sl n = sliceIndices sl n) →
      (∀ j, j < countBasic l → cbas.getD j 0 = c.getD (nsub + npb0 + j) 0) →
      (∀ j, j < countBasic l → 0 ≤ c.getD (nsub + npb0 + j) 0 ∧
        c.getD (nsub + npb0 + j) 0 < ((basicLens l shp).getD j 1 : Int)) →
      (∀ a ∈ advArrs l, a.ndim ≤ nsub) →
      ((annLoop d0 l shp npb0).map (entryExp true nb nsub nout fa)).map
          (fun e => (broadcastTo C e).get c)
        = axisCoords sub l shp (c.take nsub) cbas := by
  intro l
  induction l with
  | nil => intro shp d0 npb0 cbas c _ _ _ _ _ _; rfl
  | cons x rest ih =>
    intro shp d0 npb0 cbas c hc hfit hslc hget hval harr
    cases x with
    | newaxis =>
      have hcb : countBasic (IndexSpec.newaxis :: rest) =
          countBasic rest + 1 := by
        rw [countBasic_cons]
        simp [is_basic_idx]
        omega
      rw [hcb] at hfit
      show ((annLoop (d0 + 1) rest shp (npb0 + 1)).map
          (entryExp true nb nsub nout fa)).map _ =
        axisCoords sub rest shp (c.take nsub) cbas.tail
      rw [ih shp (d0 + 1) (npb0 + 1) cbas.tail c hc (by omega)
        (fun sl0 hs n => hslc sl0 (List.mem_cons_of_mem _ hs) n)
        (fun j hj => by
          rw [getD_tail, hget (j + 1) (by omega)]
          congr 1
          omega)
        (fun j hj => by
          have := hval (j + 1) (by omega)
          rw [show (basicLens (IndexSpec.newaxis :: rest) shp).getD (j + 1) 1 =
            (basicLens rest shp).getD j 1 from rfl] at this
          rw [show nsub + (npb0 + 1) + j = nsub + npb0 + (j + 1) from by omega]
          exact this)
        harr]
    | slc sl =>
      have hcb : countBasic (IndexSpec.slc sl :: rest) =
          countBasic rest + 1 := by
        rw [countBasic_cons]
        simp [is_basic_idx]
        omega
      rw [hcb] at hfit
      have hsc := hslc sl (List.mem_cons_self _ _) ((shp.headI : Nat) : Int)
      rw [show annLoop d0 (IndexSpec.slc sl :: rest) shp npb0 =
          (d0, npb0, shp.headI, IndexSpec.slc sl) ::
            annLoop (d0 + 1) rest shp.tail (npb0 + 1) from rfl]
      simp only [List.map_cons]
      rw [show axisCoords sub (IndexSpec.slc sl :: rest) shp
          (c.take nsub) cbas =
          ((sliceIndices sl ((shp.headI : Nat) : Int)).1 +
            cbas.headI * (sliceIndices sl ((shp.headI : Nat) : Int)).2.2) ::
            axisCoords sub rest shp.tail (c.take nsub) cbas.tail from rfl]
      congr 1
      · rw [show entryExp true nb nsub nout fa
            (d0, npb0, shp.headI, IndexSpec.slc sl) =
            unsqueezeBack (nb - npb0 - 1)
              (unsqueezeFront (nsub + npb0)
                (arangeArr (sliceCanonical sl ((shp.headI : Nat) : Int)).1
                  (sliceCanonical sl ((shp.headI : Nat) : Int)).2.1
                  (sliceCanonical sl ((shp.headI : Nat) : Int)).2.2)) from rfl]
        rw [hsc]
        rw [bTo_unsq_arange_get C _ _ _ (nsub + npb0) (nb - npb0 - 1) c
          (by omega) (by omega)]
        rw [hC, show nout - (1 + (nb - npb0 - 1)) = nsub + npb0
          from by omega]
        rw [headI_drop, headI_eq_getD, hget 0 (by omega), Nat.add_zero]
        by_cases hL : rangeLen (sliceIndices sl ((shp.headI : Nat) : Int)).1
            (sliceIndices sl ((shp.headI : Nat) : Int)).2.1
            (sliceIndices sl ((shp.headI : Nat) : Int)).2.2 = 1
        · rw [if_pos hL]
          have hv := hval 0 (by omega)
          rw [Nat.add_zero] at hv
          rw [show (basicLens (IndexSpec.slc sl :: rest) shp).getD 0 1 =
            rangeLen (sliceIndices sl ((shp.headI : Nat) : Int)).1
              (sliceIndices sl ((shp.headI : Nat) : Int)).2.1
              (sliceIndices sl ((shp.headI : Nat) : Int)).2.2 from rfl,
            hL] at hv
          have : c.getD (nsub + npb0) 0 = 0 := by omega
          rw [this]
        · rw [if_neg hL]
      · rw [ih shp.tail (d0 + 1) (npb0 + 1) cbas.tail c hc (by omega)
          (fun sl0 hs n => hslc sl0 (List.mem_cons_of_mem _ hs) n)
          (fun j hj => by
            rw [getD_tail, hget (j + 1) (by omega)]
            congr 1
            omega)
          (fun j hj => by
            have := hval (j + 1) (by omega)
            rw [show (basicLens (IndexSpec.slc sl :: rest) shp).getD (j + 1) 1 =
              (basicLens rest shp.tail).getD j 1 from rfl] at this
            rw [show nsub + (npb0 + 1) + j = nsub + npb0 + (j + 1) from by omega]
            exact this)
          harr]
    | arr a =>
      have hcb : countBasic (IndexSpec.arr a :: rest) = countBasic rest := by
        rw [countBasic_cons]
        simp [is_basic_idx]
      rw [hcb] at hfit
      rw [show annLoop d0 (IndexSpec.arr a :: rest) shp npb0 =
          (d0, npb0, shp.headI, IndexSpec.arr a) ::
            annLoop (d0 + 1) rest shp.tail npb0 from rfl]
      simp only [List.map_cons]
      rw [show axisCoords sub (IndexSpec.arr a :: rest) shp
          (c.take nsub) cbas =
          (broadcastTo sub a).get (c.take nsub) ::
            axisCoords sub rest shp.tail (c.take nsub) cbas from rfl]
      congr 1
      · rw [show entryExp true nb nsub nout fa
            (d0, npb0, shp.headI, IndexSpec.arr a) =
            unsqueezeBack nb (unsqueezeFront 0 a) from rfl]
        have := arrEntry_val C sub nsub nout 0 nb hC (by omega) hsub a c hc
          (harr a (by rw [advArrs_cons_arr]; exact List.mem_cons_self a _))
        rw [this, List.drop_zero]
      · exact ih shp.tail (d0 + 1) npb0 cbas c hc (by omega)
          (fun sl0 hs n => hslc sl0 (List.mem_cons_of_mem _ hs) n)
          (fun j hj => hget j (by omega))
          (fun j hj => by
            have := hval j (by omega)
            rw [show (basicLens (IndexSpec.arr a :: rest) shp).getD j 1 =
              (basicLens rest shp.tail).getD j 1 from rfl] at this
            exact this)
          (fun y hy => harr y
            (by rw [advArrs_cons_arr]; exact List.mem_cons_of_mem a hy))

lemma entry_slc_len (moved : Bool) (nb nsub nout fa d npb s : Nat)
    (sl : PySlice) (hfit : npb + 1 ≤ nb) (hnout : nout = nsub + nb) :
    (entryExp moved nb nsub nout fa (d, npb, s, .slc sl)).shape.length =
      nout := by
  cases moved
  · rw [show (entryExp false nb nsub nout fa
        (d, npb, s, IndexSpec.slc sl)).shape =
      (List.replicate ((if fa < d then nsub else 0) + npb) 1 ++
        [rangeLen (sliceCanonical sl (s : Int)).1
          (sliceCanonical sl (s : Int)).2.1
          (sliceCanonical sl (s : Int)).2.2]) ++
        List.replicate
          (nout - ((if fa < d then nsub else 0) + npb) - 1) 1 from rfl]
    simp only [List.length_append, List.length_replicate, List.length_cons,
      List.length_nil]
    have : (if fa < d then nsub else 0) ≤ nsub := by split <;> omega
    omega
  · rw [show (entryExp true nb nsub nout fa
        (d, npb, s, IndexSpec.slc sl)).shape =
      (List.replicate (nsub + npb) 1 ++
        [rangeLen (sliceCanonical sl (s : Int)).1
          (sliceCanonical sl (s : Int)).2.1
          (sliceCanonical sl (s : Int)).2.2]) ++
        List.replicate (nb - npb - 1) 1 from rfl]
    simp only [List.length_append, List.length_replicate, List.length_cons,
      List.length_nil]
    omega

lemma entry_arr_len (moved : Bool) (nb nsub nout fa d npb s : Nat)
    (a : NdArr Int) (hnpb : npb ≤ nb) :
    (entryExp moved nb nsub nout fa (d, npb, s, .arr a)).shape.length =
      a.ndim + nb := by
  cases moved
  · show ((List.replicate npb 1 ++ a.shape) ++
      List.replicate (nb - npb) 1).length = _
    simp only [List.length_append, List.length_replicate, NdArr.ndim]
    omega
  · show (a.shape ++ List.replicate nb 1).length = _
    simp only [List.length_append, List.length_replicate, NdArr.ndim]

lemma entries_len_le (moved : Bool) (nb nsub nout fa : Nat)
    (hnout : nout = nsub + nb) :
    ∀ (l : List IndexSpec) (shp : List Nat) (d0 npb0 : Nat),
      npb0 + countBasic l ≤ nb →
      (∀ a ∈ advArrs l, a.ndim ≤ nsub) →
      ∀ e ∈ (annLoop d0 l shp npb0).map (entryExp moved nb nsub nout fa),
        e.shape.length ≤ nout := by
  intro l
  induction l with
  | nil => intro shp d0 npb0 _ _ e he; simp [annLoop] at he
  | cons x rest ih =>
    intro shp d0 npb0 hfit harr e he
    cases x with
    | newaxis =>
      have hcb : countBasic (IndexSpec.newaxis :: rest) =
          countBasic rest + 1 := by
        rw [countBasic_cons]; simp [is_basic_idx]; omega
      rw [hcb] at hfit
      exact ih shp (d0 + 1) (npb0 + 1) (by omega) harr e he
    | slc sl =>
      have hcb : countBasic (IndexSpec.slc sl :: rest) =
          countBasic rest + 1 := by
        rw [countBasic_cons]; simp [is_basic_idx]; omega
      rw [hcb] at hfit
      rw [show annLoop d0 (IndexSpec.slc sl :: rest) shp npb0 =
          (d0, npb0, shp.headI, IndexSpec.slc sl) ::
            annLoop (d0 + 1) rest shp.tail (npb0 + 1) from rfl,
        List.map_cons] at he
      rcases List.mem_cons.mp he with h | h
      · subst h
        rw [entry_slc_len moved nb nsub nout fa d0 npb0 shp.headI sl
          (by omega) hnout]
      · exact ih shp.tail (d0 + 1) (npb0 + 1) (by omega) harr e h
    | arr a =>
      have hcb : countBasic (IndexSpec.arr a :: rest) = countBasic rest := by
        rw [countBasic_cons]; simp [is_basic_idx]
      rw [hcb] at hfit
      rw [show annLoop d0 (IndexSpec.arr a :: rest) shp npb0 =
          (d0, npb0, shp.headI, IndexSpec.arr a) ::
            annLoop (d0 + 1) rest shp.tail npb0 from rfl,
        List.map_cons] at he
      rcases List.mem_cons.mp he with h | h
      · subst h
        rw [entry_arr_len moved nb nsub nout fa d0 npb0 shp.headI a
          (by omega)]
        have := harr a (by rw [advArrs_cons_arr]; exact List.mem_cons_self a _)
        omega
      · exact ih shp.tail (d0 + 1) npb0 (by omega)
          (fun y hy => harr y
            (by rw [advArrs_cons_arr]; exact List.mem_cons_of_mem a hy)) e h

lemma entries_len_attained_slc (moved : Bool) (nb nsub nout fa : Nat)
    (hnout : nout = nsub + nb) :
    ∀ (l : List IndexSpec) (shp : List Nat) (d0 npb0 : Nat),
      npb0 + countBasic l ≤ nb →
      (∃ sl, IndexSpec.slc sl ∈ l) →
      ∃ e ∈ (annLoop d0 l shp npb0).map (entryExp moved nb nsub nout fa),
        e.shape.length = nout := by
  intro l
  induction l with
  | nil => intro shp d0 npb0 _ hsl; rcases hsl with ⟨sl, h⟩; simp at h
  | cons x rest ih =>
    intro shp d0 npb0 hfit hsl
    cases x with
    | newaxis =>
      have hcb : countBasic (IndexSpec.newaxis :: rest) =
          countBasic rest + 1 := by
        rw [countBasic_cons]; simp [is_basic_idx]; omega
      rw [hcb] at hfit
      rcases hsl with ⟨sl, h⟩
      rcases List.mem_cons.mp h with h' | h'
      · cases h'
      · exact ih shp (d0 + 1) (npb0 + 1) (by omega) ⟨sl, h'⟩
    | slc sl0 =>
      have hcb : countBasic (IndexSpec.slc sl0 :: rest) =
          countBasic rest + 1 := by
        rw [countBasic_cons]; simp [is_basic_idx]; omega
      rw [hcb] at hfit
      refine ⟨entryExp moved nb nsub nout fa
        (d0, npb0, shp.headI, IndexSpec.slc sl0), ?_, ?_⟩
      · rw [show annLoop d0 (IndexSpec.slc sl0 :: rest) shp npb0 =
            (d0, npb0, shp.headI, IndexSpec.slc sl0) ::
              annLoop (d0 + 1) rest shp.tail (npb0 + 1) from rfl,
          List.map_cons]
        exact List.mem_cons_self _ _
      · exact entry_slc_len moved nb nsub nout fa d0 npb0 shp.headI sl0
          (by omega) hnout
    | arr a =>
      have hcb : countBasic (IndexSpec.arr a :: rest) = countBasic rest := by
        rw [countBasic_cons]; simp [is_basic_idx]
      rw [hcb] at hfit
      rcases hsl with ⟨sl, h⟩
      rcases List.mem_cons.mp h with h' | h'
      · cases h'
      · rcases ih shp.tail (d0 + 1) npb0 (by omega) ⟨sl, h'⟩ with ⟨e, he, hl⟩
        refine ⟨e, ?_, hl⟩
        rw [show annLoop d0 (IndexSpec.arr a :: rest) shp npb0 =
            (d0, npb0, shp.headI, IndexSpec.arr a) ::
              annLoop (d0 + 1) rest shp.tail npb0 from rfl,
          List.map_cons]
        exact List.mem_cons_of_mem _ he

lemma entries_len_attained_arr (moved : Bool) (nb nsub nout fa : Nat)
    (hnout : nout = nsub + nb) :
    ∀ (l : List IndexSpec) (shp : List Nat) (d0 npb0 : Nat),
      npb0 + countBasic l ≤ nb →
      (∃ a ∈ advArrs l, a.ndim = nsub) →
      ∃ e ∈ (annLoop d0 l shp npb0).map (entryExp moved nb nsub nout fa),
        e.shape.length = nout := by
  intro l
  induction l with
  | nil => intro shp d0 npb0 _ ha; rcases ha with ⟨a, h, _⟩; simp [advArrs] at h
  | cons x rest ih =>
    intro shp d0 npb0 hfit ha
    cases x with
    | newaxis =>
      have hcb : countBasic (IndexSpec.newaxis :: rest) =
          countBasic rest + 1 := by
        rw [countBasic_cons]; simp [is_basic_idx]; omega
      rw [hcb] at hfit
      exact ih shp (d0 + 1) (npb0 + 1) (by omega) ha
    | slc sl =>
      have hcb : countBasic (IndexSpec.slc sl :: rest) =
          countBasic rest + 1 := by
        rw [countBasic_cons]; simp [is_basic_idx]; omega
      rw [hcb] at hfit
      rcases ih shp.tail (d0 + 1) (npb0 + 1) (by omega) ha with ⟨e, he, hl⟩
      refine ⟨e, ?_, hl⟩
      rw [show annLoop d0 (IndexSpec.slc sl :: rest) shp npb0 =
          (d0, npb0, shp.headI, IndexSpec.slc sl) ::
            annLoop (d0 + 1) rest shp.tail (npb0 + 1) from rfl,
        List.map_cons]
      exact List.mem_cons_of_mem _ he
    | arr a0 =>
      have hcb : countBasic (IndexSpec.arr a0 :: rest) = countBasic rest := by
        rw [countBasic_cons]; simp [is_basic_idx]
      rw [hcb] at hfit
      rcases ha with ⟨a, h, hnd⟩
      rw [advArrs_cons_arr] at h
      rcases List.mem_cons.mp h with h' | h'
      · subst h'
        refine ⟨entryExp moved nb nsub nout fa
          (d0, npb0, shp.headI, IndexSpec.arr a), ?_, ?_⟩
        · rw [show annLoop d0 (IndexSpec.arr a :: rest) shp npb0 =
              (d0, npb0, shp.headI, IndexSpec.arr a) ::
                annLoop (d0 + 1) rest shp.tail npb0 from rfl,
            List.map_cons]
          exact List.mem_cons_self _ _
        · rw [entry_arr_len moved nb nsub nout fa d0 npb0 shp.headI a
            (by omega)]
          omega
      · rcases ih shp.tail (d0 + 1) npb0 (by omega) ⟨a, h', hnd⟩
          with ⟨e, he, hl⟩
        refine ⟨e, ?_, hl⟩
        rw [show annLoop d0 (IndexSpec.arr a0 :: rest) shp npb0 =
            (d0, npb0, shp.headI, IndexSpec.arr a0) ::
              annLoop (d0 + 1) rest shp.tail npb0 from rfl,
          List.map_cons]
        exact List.mem_cons_of_mem _ he

lemma countBasic_append (l1 l2 : List IndexSpec) :
    countBasic (l1 ++ l2) = countBasic l1 + countBasic l2 := by
  simp [countBasic, List.filter_append]

lemma countBasic_all_basic (l : List IndexSpec)
    (h : ∀ x ∈ l, is_basic_idx x = true) : countBasic l = l.length := by
  unfold countBasic
  rw [List.filter_eq_self.mpr h]

lemma countBasic_all_adv (l : List IndexSpec)
    (h : ∀ x ∈ l, is_basic_idx x = false) : countBasic l = 0 := by
  unfold countBasic
  rw [List.filter_eq_nil_iff.mpr (fun a ha => by simp [h a ha])]
  rfl

lemma advShapes_append (l1 l2 : List IndexSpec) :
    advShapes (l1 ++ l2) = advShapes l1 ++ advShapes l2 := by
  simp [advShapes, List.filterMap_append]

lemma advShapes_all_basic (l : List IndexSpec)
    (h : ∀ x ∈ l, is_basic_idx x = true) : advShapes l = [] := by
  unfold advShapes
  rw [List.filterMap_eq_nil_iff.mpr]
  intro a ha
  cases a with
  | slc sl => rfl
  | newaxis => rfl
  | arr x =>
    have := h _ ha
    simp [is_basic_idx] at this

lemma advArrs_append (l1 l2 : List IndexSpec) :
    advArrs (l1 ++ l2) = advArrs l1 ++ advArrs l2 := by
  simp [advArrs, List.filterMap_append]

lemma advArrs_all_basic (l : List IndexSpec)
    (h : ∀ x ∈ l, is_basic_idx x = true) : advArrs l = [] := by
  unfold advArrs
  rw [List.filterMap_eq_nil_iff.mpr]
  intro a ha
  cases a with
  | slc sl => rfl
  | newaxis => rfl
  | arr x =>
    have := h _ ha
    simp [is_basic_idx] at this

lemma basicLens_all_adv : ∀ (l : List IndexSpec) (shp : List Nat),
    (∀ x ∈ l, is_basic_idx x = false) → basicLens l shp = [] := by
  intro l
  induction l with
  | nil => intro shp _; rfl
  | cons x rest ih =>
    intro shp h
    cases x with
    | slc sl => have := h (.slc sl) (by simp); simp [is_basic_idx] at this
    | newaxis => have := h .newaxis (by simp); simp [is_basic_idx] at this
    | arr a =>
      show basicLens rest shp.tail = []
      exact ih shp.tail (fun y hy => h y (by simp [hy]))

lemma mem_advArrs_of_mem {a : NdArr Int} : ∀ {l : List IndexSpec},
    IndexSpec.arr a ∈ l → a ∈ advArrs l := by
  intro l
  induction l with
  | nil => intro h; simp at h
  | cons x rest ih =>
    intro h
    rcases List.mem_cons.mp h with h' | h'
    · subst h'
      rw [advArrs_cons_arr]
      exact List.mem_cons_self a _
    · cases x with
      | arr b =>
        rw [advArrs_cons_arr]
        exact List.mem_cons_of_mem b (ih h')
      | slc sl => exact ih h'
      | newaxis => exact ih h'

lemma rdim_getD {s : List Nat} {k : Nat} (h : k < s.length) :
    rdim s k = s.getD (s.length - 1 - k) 1 := by
  rw [rdim_of_lt h, List.getD_eq_getElem?_getD,
    List.getElem?_eq_getElem (by omega)]
  rfl

lemma getD_append_gen {α : Type} (l1 l2 : List α) (dflt : α) :
    ∀ n : Nat, (l1 ++ l2).getD n dflt =
      if n < l1.length then l1.getD n dflt
      else l2.getD (n - l1.length) dflt := by
  induction l1 with
  | nil => intro n; simp
  | cons a t ih =>
    intro n
    cases n with
    | zero => simp
    | succ m =>
      show (t ++ l2).getD m dflt = _
      rw [ih]
      simp only [List.length_cons]
      by_cases h : m < t.length
      · rw [if_pos h, if_pos (by omega)]
        rfl
      · rw [if_neg h, if_neg (by omega)]
        congr 1
        omega

/-- Harmless reduction of the advanced-count bound: every advanced shape of
a list sits below the broadcast subspace rank. -/
lemma ndim_le_nsub (l : List IndexSpec) :
    ∀ a ∈ advArrs l, a.ndim ≤ (subShapeOf l).length := by
  intro a ha
  rw [length_subShapeOf]
  apply foldr_max_le
  rw [advShapes_eq_map]
  exact List.mem_map.mpr ⟨a.shape, List.mem_map.mpr ⟨a, ha, rfl⟩, rfl⟩

/-- The common broadcast shape of the expansion entries has the combined
output rank, provided the run contains a slice entry or an advanced entry
attaining the subspace rank. -/
lemma entriesC_length (moved : Bool) (nb nsub nout fa : Nat)
    (hnout : nout = nsub + nb) (l : List IndexSpec) (shp : List Nat)
    (hfit : countBasic l ≤ nb)
    (harr : ∀ a ∈ advArrs l, a.ndim ≤ nsub)
    (hex : (∃ sl, IndexSpec.slc sl ∈ l) ∨ (∃ a ∈ advArrs l, a.ndim = nsub)) :
    (((annLoop 0 l shp 0).map (entryExp moved nb nsub nout fa)).foldl
        (fun acc e => broadcastShapes2 acc e.shape) []).length = nout := by
  set exps := (annLoop 0 l shp 0).map (entryExp moved nb nsub nout fa)
    with hexps
  have h1 : (exps.map NdArr.shape).foldl broadcastShapes2 [] =
      exps.foldl (fun acc e => broadcastShapes2 acc e.shape) [] := by
    rw [List.foldl_map]
  rw [← h1, length_foldl_broadcastShapes2]
  have h2 : (exps.map (fun e => e.shape.length)).foldl max 0 =
      (exps.map NdArr.shape).foldl (fun n s => max n s.length)
        (List.length ([] : List Nat)) := by
    conv_lhs => rw [List.foldl_map]
    conv_rhs => rw [List.foldl_map]
    rfl
  rw [← h2]
  apply Nat.le_antisymm
  · apply foldl_max_le nout _ _ (by omega)
    intro x hx
    rcases List.mem_map.mp hx with ⟨e, he, hxe⟩
    rw [← hxe]
    exact entries_len_le moved nb nsub nout fa hnout l shp 0 0 (by omega)
      harr e he
  · rcases hex with hsl | ha
    · rcases entries_len_attained_slc moved nb nsub nout fa hnout l shp 0 0
        (by omega) hsl with ⟨e, he, hl⟩
      have : nout ∈ exps.map (fun e => e.shape.length) :=
        List.mem_map.mpr ⟨e, he, hl⟩
      exact foldl_max_ge_mem _ 0 nout this
    · rcases entries_len_attained_arr moved nb nsub nout fa hnout l shp 0 0
        (by omega) ha with ⟨e, he, hl⟩
      have : nout ∈ exps.map (fun e => e.shape.length) :=
        List.mem_map.mpr ⟨e, he, hl⟩
      exact foldl_max_ge_mem _ 0 nout this

/-- Combined broadcast shape in the moved-subspace case: the subspace shape
followed by the resolved basic lengths. -/
lemma moved_shape_eq (nb nsub nout fa : Nat) (l : List IndexSpec)
    (shape sub : List Nat)
    (hsub : sub = subShapeOf l)
    (hnb : nb = countBasic l)
    (hnsub : nsub = sub.length)
    (hnout : nout = nsub + nb)
    (hslc : ∀ sl, IndexSpec.slc sl ∈ l → ∀ n : Int,
      sliceCanonical sl n = sliceIndices sl n)
    (hlenC : (((annLoop 0 l shape 0).map (entryExp true nb nsub nout fa)).foldl
        (fun acc e => broadcastShapes2 acc e.shape) []).length = nout) :
    ((annLoop 0 l shape 0).map (entryExp true nb nsub nout fa)).foldl
        (fun acc e => broadcastShapes2 acc e.shape) []
      = sub ++ basicLens l shape := by
  have hblen : (basicLens l shape).length = countBasic l :=
    length_basicLens l shape
  apply rdim_ext
  · rw [hlenC]
    simp only [List.length_append, hblen]
    omega
  · intro k hk
    rw [hlenC] at hk
    have h1 : (((annLoop 0 l shape 0).map
        (entryExp true nb nsub nout fa)).map NdArr.shape).foldl
          broadcastShapes2 [] =
        ((annLoop 0 l shape 0).map (entryExp true nb nsub nout fa)).foldl
          (fun acc e => broadcastShapes2 acc e.shape) [] := by
      rw [List.foldl_map]
    rw [← h1, rdim_foldl_broadcastShapes2, rdim_nil]
    have h3 : (((annLoop 0 l shape 0).map
        (entryExp true nb nsub nout fa)).map NdArr.shape).foldl
          (fun v s => comb v (rdim s k)) 1 =
        ((annLoop 0 l shape 0).map (entryExp true nb nsub nout fa)).foldl
          (fun v e => comb v (rdim e.shape k)) 1 := by
      rw [List.foldl_map]
    rw [h3]
    rw [movedSeg_fold nb nsub nout fa k l shape 0 0 1 (by omega) hslc,
      comb_one_left]
    rw [show nb - (0 : Nat) = nb from by omega,
      show nb - countBasic l = 0 from by omega]
    by_cases hkb : k < nb
    · have e1 : (if 0 ≤ k ∧ k < nb
          then (basicLens l shape).getD (nb - 1 - k) 1 else 1) =
          (basicLens l shape).getD (nb - 1 - k) 1 :=
        if_pos ⟨by omega, hkb⟩
      have e2 : (if k < nb then (1 : Nat)
          else (advShapes l).foldl
            (fun v s => comb v (rdim s (k - nb))) 1) = 1 :=
        if_pos hkb
      rw [e1, e2, comb_one_right, rdim_append,
        if_pos (show k < (basicLens l shape).length from by rw [hblen]; omega)]
      rw [rdim_getD (by rw [hblen]; omega), hblen, ← hnb]
    · have e1 : (if 0 ≤ k ∧ k < nb
          then (basicLens l shape).getD (nb - 1 - k) 1 else 1) = 1 :=
        if_neg (by omega)
      have e2 : (if k < nb then (1 : Nat)
          else (advShapes l).foldl
            (fun v s => comb v (rdim s (k - nb))) 1) =
          (advShapes l).foldl (fun v s => comb v (rdim s (k - nb))) 1 :=
        if_neg hkb
      rw [e1, e2, comb_one_left, rdim_append,
        if_neg (show ¬ k < (basicLens l shape).length from by
          rw [hblen]; omega)]
      rw [hblen, ← hnb, hsub]
      rw [show subShapeOf l = (advShapes l).foldl broadcastShapes2 [] from rfl,
        rdim_foldl_broadcastShapes2, rdim_nil]

/-- Combined broadcast shape in the unmoved-subspace case: the leading basic
lengths, then the subspace shape, then the trailing basic lengths. -/
lemma unmoved_shape_eq (nb nsub nout fa : Nat) (P M S : List IndexSpec)
    (shape sub : List Nat)
    (hP : ∀ x ∈ P, is_basic_idx x = true)
    (hM : ∀ x ∈ M, is_basic_idx x = false)
    (hS : ∀ x ∈ S, is_basic_idx x = true)
    (hoffP : ∀ d', d' < P.length → (if fa < d' then nsub else 0) = 0)
    (hoffS : ∀ d', P.length + M.length ≤ d' →
      (if fa < d' then nsub else 0) = nsub)
    (hsub : sub = subShapeOf (P ++ (M ++ S)))
    (hnb : nb = P.length + S.length)
    (hnsub : nsub = sub.length)
    (hnout : nout = nsub + nb)
    (hslc : ∀ sl, IndexSpec.slc sl ∈ P ++ (M ++ S) → ∀ n : Int,
      sliceCanonical sl n = sliceIndices sl n)
    (hlenC : (((annLoop 0 (P ++ (M ++ S)) shape 0).map
        (entryExp false nb nsub nout fa)).foldl
        (fun acc e => broadcastShapes2 acc e.shape) []).length = nout) :
    ((annLoop 0 (P ++ (M ++ S)) shape 0).map
        (entryExp false nb nsub nout fa)).foldl
        (fun acc e => broadcastShapes2 acc e.shape) []
      = basicLens P shape ++
          (sub ++ basicLens S
            ((shape.drop (countNonNew P)).drop (countNonNew M))) := by
  have hcbP : countBasic P = P.length := countBasic_all_basic P hP
  have hcbM : countBasic M = 0 := countBasic_all_adv M hM
  have hcbS : countBasic S = S.length := countBasic_all_basic S hS
  have hsubAdv : advShapes (P ++ (M ++ S)) = advShapes M := by
    rw [advShapes_append, advShapes_append, advShapes_all_basic P hP,
      advShapes_all_basic S hS]
    simp
  have hsubr : ∀ j, rdim sub j =
      (advShapes M).foldl (fun v s => comb v (rdim s j)) 1 := by
    intro j
    rw [hsub, show subShapeOf (P ++ (M ++ S)) =
      (advShapes (P ++ (M ++ S))).foldl broadcastShapes2 [] from rfl,
      hsubAdv, rdim_foldl_broadcastShapes2, rdim_nil]
  have hfull : annLoop 0 (P ++ (M ++ S)) shape 0 =
      annLoop 0 P shape 0 ++
        (annLoop P.length M (shape.drop (countNonNew P)) P.length ++
          annLoop (P.length + M.length) S
            ((shape.drop (countNonNew P)).drop (countNonNew M)) P.length) := by
    rw [annLoop_append P (M ++ S) 0 shape 0,
      annLoop_append M S (0 + P.length) (shape.drop (countNonNew P))
        (0 + countBasic P)]
    simp only [Nat.zero_add]
    rw [hcbP, hcbM, Nat.add_zero]
  have hlenSubS : (sub ++ basicLens S
      ((shape.drop (countNonNew P)).drop (countNonNew M))).length =
      nsub + S.length := by
    simp only [List.length_append, length_basicLens, hcbS]
    omega
  apply rdim_ext
  · rw [hlenC]
    simp only [List.length_append, length_basicLens, hcbP, hcbS]
    omega
  · intro k hk
    rw [hlenC] at hk
    have h1 : (((annLoop 0 (P ++ (M ++ S)) shape 0).map
        (entryExp false nb nsub nout fa)).map NdArr.shape).foldl
          broadcastShapes2 [] =
        ((annLoop 0 (P ++ (M ++ S)) shape 0).map
          (entryExp false nb nsub nout fa)).foldl
          (fun acc e => broadcastShapes2 acc e.shape) [] := by
      rw [List.foldl_map]
    rw [← h1, rdim_foldl_broadcastShapes2, rdim_nil]
    have h3 : (((annLoop 0 (P ++ (M ++ S)) shape 0).map
        (entryExp false nb nsub nout fa)).map NdArr.shape).foldl
          (fun v s => comb v (rdim s k)) 1 =
        ((annLoop 0 (P ++ (M ++ S)) shape 0).map
          (entryExp false nb nsub nout fa)).foldl
          (fun v e => comb v (rdim e.shape k)) 1 := by
      rw [List.foldl_map]
    rw [h3, hfull, List.map_append, List.map_append, List.foldl_append,
      List.foldl_append]
    rw [basicSeg_fold nb nsub nout fa k 0 P shape 0 0 1 hP
      (fun sl hs n => hslc sl (List.mem_append_left _ hs) n)
      (fun d' h1' h2' => hoffP d' (by omega)) (by omega)]
    rw [comb_one_left]
    rw [arrSeg_fold nb nsub nout fa k M (shape.drop (countNonNew P))
      P.length P.length _ hM]
    rw [basicSeg_fold nb nsub nout fa k nsub S
      ((shape.drop (countNonNew P)).drop (countNonNew M))
      (P.length + M.length) P.length _ hS
      (fun sl hs n => hslc sl
        (List.mem_append_right _ (List.mem_append_right _ hs)) n)
      (fun d' h1' h2' => hoffS d' h1') (by omega)]
    rw [show nout - (0 + 0) = nout from by omega,
      show nb - P.length = S.length from by omega,
      show nout - (nsub + P.length) = S.length from by omega]
    by_cases hk1 : k < S.length
    · rw [if_pos hk1]
      have hxp : ¬(nout - P.length ≤ k ∧ k < nout) := by omega
      rw [if_neg hxp, comb_one_left]
      have hxs : S.length - S.length ≤ k ∧ k < S.length := ⟨by omega, hk1⟩
      rw [if_pos hxs]
      rw [rdim_append, if_pos (show k < (sub ++ basicLens S
        ((shape.drop (countNonNew P)).drop (countNonNew M))).length from by
          rw [hlenSubS]; omega)]
      rw [rdim_append, if_pos (show k < (basicLens S
        ((shape.drop (countNonNew P)).drop (countNonNew M))).length from by
          rw [length_basicLens, hcbS]; omega)]
      rw [rdim_getD (show k < (basicLens S
        ((shape.drop (countNonNew P)).drop (countNonNew M))).length from by
          rw [length_basicLens, hcbS]; omega)]
      rw [length_basicLens, hcbS]
    · rw [if_neg hk1]
      rw [foldl_comb_shift]
      rw [← hsubr (k - S.length)]
      by_cases hk2 : k < S.length + nsub
      · have hxp : ¬(nout - P.length ≤ k ∧ k < nout) := by omega
        rw [if_neg hxp, comb_one_left]
        have hxs : ¬(S.length - S.length ≤ k ∧ k < S.length) := by omega
        rw [if_neg hxs, comb_one_right]
        rw [rdim_append, if_pos (show k < (sub ++ basicLens S
          ((shape.drop (countNonNew P)).drop (countNonNew M))).length from by
            rw [hlenSubS]; omega)]
        rw [rdim_append, if_neg (show ¬ k < (basicLens S
          ((shape.drop (countNonNew P)).drop (countNonNew M))).length from by
            rw [length_basicLens, hcbS]; omega)]
        rw [length_basicLens, hcbS]
      · have hr1 : rdim sub (k - S.length) = 1 := rdim_of_ge (by omega)
        rw [hr1, comb_one_right]
        have hxs : ¬(S.length - S.length ≤ k ∧ k < S.length) := by omega
        rw [if_neg hxs, comb_one_right]
        have hxp : nout - P.length ≤ k ∧ k < nout := ⟨by omega, hk⟩
        rw [if_pos hxp]
        rw [rdim_append, if_neg (show ¬ k < (sub ++ basicLens S
          ((shape.drop (countNonNew P)).drop (countNonNew M))).length from by
            rw [hlenSubS]; omega)]
        rw [hlenSubS]
        rw [rdim_getD (show k - (nsub + S.length) <
          (basicLens P shape).length from by
            rw [length_basicLens, hcbP]; omega)]
        rw [length_basicLens, hcbP]
        rw [show P.length - 1 - (k - (nsub + S.length)) = nout - 1 - k
          from by omega]

/-- Gathered per-axis values in the moved-subspace case. -/
lemma moved_vals_eq (nb nsub nout fa : Nat) (l : List IndexSpec)
    (shape sub C : List Nat) (c : List Int)
    (hsub : sub = subShapeOf l)
    (hnb : nb = countBasic l)
    (hnsub : nsub = sub.length)
    (hnout : nout = nsub + nb)
    (hC : C.length = nout)
    (hc : c.length = nout)
    (hslc : ∀ sl, IndexSpec.slc sl ∈ l → ∀ n : Int,
      sliceCanonical sl n = sliceIndices sl n)
    (hval : ∀ j, j < nb → 0 ≤ c.getD (nsub + j) 0 ∧
      c.getD (nsub + j) 0 < ((basicLens l shape).getD j 1 : Int)) :
    ((annLoop 0 l shape 0).map (entryExp true nb nsub nout fa)).map
        (fun e => (broadcastTo C e).get c)
      = axisCoords sub l shape (c.take nsub) (c.drop nsub) := by
  exact movedSeg_vals C sub nb nsub nout fa hC hnout hnsub.symm l shape 0 0
    (c.drop nsub) c hc (by omega) hslc
    (fun j hj => by rw [getD_drop_calc]; congr 1)
    (fun j hj => by
      have := hval j (by omega)
      rw [show nsub + 0 + j = nsub + j from by omega]
      exact this)
    (fun a ha => by
      have := ndim_le_nsub l a ha
      rw [← hsub] at this
      omega)

/-- Gathered per-axis values in the unmoved-subspace case. -/
lemma unmoved_vals_eq (nb nsub nout fa : Nat) (P M S : List IndexSpec)
    (shape sub C : List Nat) (c : List Int)
    (hP : ∀ x ∈ P, is_basic_idx x = true)
    (hM : ∀ x ∈ M, is_basic_idx x = false)
    (hS : ∀ x ∈ S, is_basic_idx x = true)
    (hoffP : ∀ d', d' < P.length → (if fa < d' then nsub else 0) = 0)
    (hoffS : ∀ d', P.length + M.length ≤ d' →
      (if fa < d' then nsub else 0) = nsub)
    (hsub : sub = subShapeOf (P ++ (M ++ S)))
    (hnb : nb = P.length + S.length)
    (hnsub : nsub = sub.length)
    (hnout : nout = nsub + nb)
    (hC : C.length = nout)
    (hc : c.length = nout)
    (hslc : ∀ sl, IndexSpec.slc sl ∈ P ++ (M ++ S) → ∀ n : Int,
      sliceCanonical sl n = sliceIndices sl n)
    (hvalP : ∀ j, j < P.length → 0 ≤ c.getD j 0 ∧
      c.getD j 0 < ((basicLens P shape).getD j 1 : Int))
    (hvalS : ∀ j, j < S.length → 0 ≤ c.getD (nsub + P.length + j) 0 ∧
      c.getD (nsub + P.length + j) 0 <
        ((basicLens S
          ((shape.drop (countNonNew P)).drop (countNonNew M))).getD j 1 : Int)) :
    ((annLoop 0 (P ++ (M ++ S)) shape 0).map
        (entryExp false nb nsub nout fa)).map
        (fun e => (broadcastTo C e).get c)
      = axisCoords sub (P ++ (M ++ S)) shape
          ((c.drop P.length).take nsub)
          (c.take P.length ++ c.drop (P.length + nsub)) := by
  have hcbP : countBasic P = P.length := countBasic_all_basic P hP
  have hcbM : countBasic M = 0 := countBasic_all_adv M hM
  have hcbS : countBasic S = S.length := countBasic_all_basic S hS
  have hAdvArr : advArrs (P ++ (M ++ S)) = advArrs M := by
    rw [advArrs_append, advArrs_append, advArrs_all_basic P hP,
      advArrs_all_basic S hS]
    simp
  have htake : (c.take P.length).length = P.length := by
    rw [List.length_take]
    omega
  have hfull : annLoop 0 (P ++ (M ++ S)) shape 0 =
      annLoop 0 P shape 0 ++
        (annLoop P.length M (shape.drop (countNonNew P)) P.length ++
          annLoop (P.length + M.length) S
            ((shape.drop (countNonNew P)).drop (countNonNew M)) P.length) := by
    rw [annLoop_append P (M ++ S) 0 shape 0,
      annLoop_append M S (0 + P.length) (shape.drop (countNonNew P))
        (0 + countBasic P)]
    simp only [Nat.zero_add]
    rw [hcbP, hcbM, Nat.add_zero]
  rw [hfull, List.map_append, List.map_append, List.map_append,
    List.map_append]
  rw [axisCoords_append, axisCoords_append, hcbP, hcbM, List.drop_zero]
  have hdropcbas : (c.take P.length ++ c.drop (P.length + nsub)).drop
      P.length = c.drop (P.length + nsub) := List.drop_left' htake
  rw [hdropcbas]
  rw [basicSeg_vals C sub nb nsub nout fa 0 hC P shape 0 0
    ((c.drop P.length).take nsub)
    (c.take P.length ++ c.drop (P.length + nsub)) c hP
    (fun sl hs n => hslc sl (List.mem_append_left _ hs) n)
    (fun d' h1' h2' => hoffP d' (by omega)) hc (by omega)
    (fun j hj => by
      rw [getD_append_calc, htake, if_pos hj, getD_take_calc c P.length j hj]
      congr 1
      omega)
    (fun j hj => by
      have := hvalP j hj
      rw [show (0 : Nat) + 0 + j = j from by omega]
      exact this)]
  rw [arrSeg_vals C sub nb nsub nout fa P.length hC (by omega) hnsub.symm
    M (shape.drop (countNonNew P)) P.length (c.drop (P.length + nsub)) c
    hM hc
    (fun a ha => by
      have := ndim_le_nsub (P ++ (M ++ S)) a (by rw [hAdvArr]; exact ha)
      rw [← hsub] at this
      omega)]
  rw [basicSeg_vals C sub nb nsub nout fa nsub hC S
    ((shape.drop (countNonNew P)).drop (countNonNew M))
    (P.length + M.length) P.length
    ((c.drop P.length).take nsub) (c.drop (P.length + nsub)) c hS
    (fun sl hs n => hslc sl
      (List.mem_append_right _ (List.mem_append_right _ hs)) n)
    (fun d' h1' h2' => hoffS d' h1') hc (by omega)
    (fun j hj => by
      rw [getD_drop_calc]
      congr 1
      omega)
    (fun j hj => hvalS j hj)]

lemma annLoop_ne_nil : ∀ (l : List IndexSpec) (d : Nat) (shp : List Nat)
    (npb : Nat), (∃ x ∈ l, is_newaxis x = false) →
    annLoop d l shp npb ≠ [] := by
  intro l
  induction l with
  | nil =>
    intro d shp npb h
    rcases h with ⟨x, hx, _⟩
    simp at hx
  | cons x rest ih =>
    intro d shp npb h
    cases x with
    | slc sl => exact List.cons_ne_nil _ _
    | arr a => exact List.cons_ne_nil _ _
    | newaxis =>
      rcases h with ⟨y, hy, hyn⟩
      rcases List.mem_cons.mp hy with h' | h'
      · subst h'
        simp [is_newaxis] at hyn
      · exact ih (d + 1) shp (npb + 1) ⟨y, h', hyn⟩

lemma broadcastArrays_shape (l : List (NdArr Int)) (hl : l ≠ []) :
    ((broadcastArrays l).head?.map NdArr.shape).getD [] =
      l.foldl (fun acc A => broadcastShapes2 acc A.shape) [] := by
  cases l with
  | nil => exact absurd rfl hl
  | cons e tl => rfl

lemma gatherAt_get_broadcastArrays {α : Type} (A : NdArr α)
    (l : List (NdArr Int)) (c : List Int) :
    (gatherAt A (broadcastArrays l)).get c =
      A.get (l.map (fun e =>
        (broadcastTo (l.foldl
          (fun acc A => broadcastShapes2 acc A.shape) []) e).get c)) := by
  show A.get ((broadcastArrays l).map (fun e => e.get c)) = _
  rw [show broadcastArrays l = l.map (broadcastTo (l.foldl
    (fun acc A => broadcastShapes2 acc A.shape) [])) from rfl, List.map_map]
  rfl

lemma all_of_countNonNew_eq : ∀ (l : List IndexSpec),
    countNonNew l = l.length → ∀ x ∈ l, is_newaxis x = false := by
  intro l
  induction l with
  | nil => intro _ x hx; simp at hx
  | cons y rest ih =>
    intro h x hx
    rw [countNonNew_cons, List.length_cons] at h
    have hle : countNonNew rest ≤ rest.length := List.length_filter_le _ _
    by_cases hy : is_newaxis y = true
    · rw [if_pos hy] at h
      omega
    · rcases List.mem_cons.mp hx with h' | h'
      · subst h'
        simpa using hy
      · rw [if_neg hy] at h
        exact ih (by omega) x h'

lemma hex_of_ne_nil (indices : List IndexSpec) (shape : List Nat)
    (hlen : indices.length ≤ shape.length)
    (hne : padFull indices shape ≠ []) :
    (∃ sl, IndexSpec.slc sl ∈ padFull indices shape) ∨
      (∃ a ∈ advArrs (padFull indices shape),
        a.ndim = (subShapeOf (padFull indices shape)).length) := by
  by_cases hpad : shape.length - countNonNew indices = 0
  · have hfi : padFull indices shape = indices := by
      unfold padFull
      rw [hpad]
      simp
    have hcnn : countNonNew indices = indices.length := by
      have h1 : countNonNew indices ≤ indices.length :=
        List.length_filter_le _ _
      omega
    have hall : ∀ x ∈ indices, is_newaxis x = false :=
      all_of_countNonNew_eq indices hcnn
    have hne2 : indices ≠ [] := by
      intro h
      rw [hfi, h] at hne
      exact hne rfl
    obtain ⟨x, hxmem⟩ : ∃ x, x ∈ indices := by
      cases indices with
      | nil => exact absurd rfl hne2
      | cons y t => exact ⟨y, by simp⟩
    have hx : is_newaxis x = false := hall x hxmem
    cases x with
    | newaxis => simp [is_newaxis] at hx
    | slc sl => exact Or.inl ⟨sl, by rw [hfi]; exact hxmem⟩
    | arr a =>
      right
      have ha : a ∈ advArrs (padFull indices shape) := by
        rw [hfi]
        exact mem_advArrs_of_mem hxmem
      rcases foldr_max_attained
          ((advShapes (padFull indices shape)).map List.length) with
        h0 | hmem
      · refine ⟨a, ha, ?_⟩
        have h1 := ndim_le_nsub (padFull indices shape) a ha
        rw [length_subShapeOf, h0] at h1
        rw [length_subShapeOf, h0]
        omega
      · rcases List.mem_map.mp hmem with ⟨s, hs, hsl⟩
        rw [advShapes_eq_map] at hs
        rcases List.mem_map.mp hs with ⟨b, hb, hbs⟩
        refine ⟨b, hb, ?_⟩
        show b.shape.length = _
        rw [hbs, hsl, length_subShapeOf]
  · refine Or.inl ⟨fullSlice, ?_⟩
    unfold padFull
    apply List.mem_append_right
    exact List.mem_replicate.mpr ⟨hpad, rfl⟩

lemma arr_mem_of_mem_advArrs {a : NdArr Int} {l : List IndexSpec}
    (h : a ∈ advArrs l) : IndexSpec.arr a ∈ l := by
  unfold advArrs at h
  rcases List.mem_filterMap.mp h with ⟨x, hx, hfx⟩
  cases x with
  | arr b =>
    have : b = a := by
      simpa using hfx
    subst this
    exact hx
  | slc sl => simp at hfx
  | newaxis => simp at hfx

lemma gatherAt_shape {α : Type} (A : NdArr α) (idxs : List (NdArr Int)) :
    (gatherAt A idxs).shape = ((idxs.head?).map NdArr.shape).getD [] := rfl

lemma getD_PSS_front (blensP rest : List Nat) (p : Nat)
    (hp : blensP.length = p) (j : Nat) (hj : j < p) :
    (blensP ++ rest).getD j 1 = blensP.getD j 1 := by
  rw [getD_append_gen, if_pos (by omega)]

lemma getD_PSS (blensP mid blensS : List Nat) (p nsub : Nat)
    (hp : blensP.length = p) (hm : mid.length = nsub) (j : Nat) :
    (blensP ++ (mid ++ blensS)).getD (nsub + p + j) 1 = blensS.getD j 1 := by
  rw [getD_append_gen, if_neg (by omega), getD_append_gen, if_neg (by omega)]
  congr 1
  omega

lemma getD_SB (mid blens : List Nat) (nsub : Nat) (hm : mid.length = nsub)
    (j : Nat) :
    (mid ++ blens).getD (nsub + j) 1 = blens.getD j 1 := by
  rw [getD_append_gen, if_neg (by omega)]
  congr 1
  omega

/-- C1 (amended): for every indexing-specification sequence of length at
most the rank (with scalars and integer index arrays as advanced entries,
and slices and newaxis markers as basic entries) whose slice entries all
have a nonnegative declared step, and every shape, gathering the indexed
array at the tuple of index arrays returned by expand_indices, treated as
a single combined advanced index, yields exactly the same result as
applying the original mixed index sequence to the array: the shapes
coincide and the entries agree at every valid output coordinate.  The
restriction to nonnegative steps is necessary: expand_indices discards
the direction flag returned by get_canonical_form_slice (mixture.py line
166), so for a negative-step slice it emits an ascending arange and the
claimed unrestricted equivalence fails (see
expand_indices_negative_step_counterexample). -/
theorem expand_indices_correct {α : Type} (A : NdArr α)
    (indices : List IndexSpec) (shape : List Nat)
    (hlen : indices.length ≤ shape.length)
    (hstep : indices.all stepNonNeg = true) :
    (gatherAt A (expand_indices indices shape)).shape =
      (numpyMixedIndex A indices shape).shape ∧
    ∀ c, validCoordB (numpyMixedIndex A indices shape).shape c = true →
      (gatherAt A (expand_indices indices shape)).get c =
        (numpyMixedIndex A indices shape).get c := by
  by_cases hfullnil : padFull indices shape = []
  · have h1 := congrArg List.length hfullnil
    rw [show (padFull indices shape).length =
      indices.length + (shape.length - countNonNew indices) from by
        simp [padFull]] at h1
    simp only [List.length_nil] at h1
    have hi : indices = [] := List.length_eq_zero.mp (by omega)
    subst hi
    have hcnn0 : countNonNew ([] : List IndexSpec) = 0 := rfl
    have hs : shape = [] := List.length_eq_zero.mp (by omega)
    subst hs
    exact ⟨rfl, fun c _ => rfl⟩
  · have hc1 := expand_indices_eq indices shape
    set full := padFull indices shape with hfulldef
    set P := full.takeWhile is_basic_idx with hPdef
    set R := full.dropWhile is_basic_idx with hRdef
    set M := R.takeWhile (fun i => !is_basic_idx i) with hMdef
    set S := R.dropWhile (fun i => !is_basic_idx i) with hSdef
    have hPR : P ++ R = full := List.takeWhile_append_dropWhile _ _
    have hMS : M ++ S = R := List.takeWhile_append_dropWhile _ _
    have hPMS : P ++ (M ++ S) = full := by rw [hMS, hPR]
    have hslcfull : ∀ sl, IndexSpec.slc sl ∈ full → ∀ n : Int,
        sliceCanonical sl n = sliceIndices sl n := by
      intro sl hm n
      apply sliceCanonical_of_nonneg
      rw [hfulldef, show padFull indices shape = indices ++
        List.replicate (shape.length - countNonNew indices)
          (IndexSpec.slc fullSlice) from rfl] at hm
      rcases List.mem_append.mp hm with hmi | hmr
      · have hx := List.all_eq_true.mp hstep _ hmi
        exact of_decide_eq_true hx
      · have hx := List.eq_of_mem_replicate hmr
        have hsl : sl = fullSlice := by injection hx
        rw [hsl]
        decide
    have hPb : ∀ x ∈ P, is_basic_idx x = true :=
      fun x hx => List.mem_takeWhile_imp hx
    have hMadv : ∀ x ∈ M, is_basic_idx x = false := fun x hx => by
      have := List.mem_takeWhile_imp hx
      simpa using this
    have hadv : advNonContiguous full = S.any (fun i => !is_basic_idx i) := by
      rw [hSdef, hRdef]
      rfl
    have hnbb : nbbOf full = P.length := by rw [hPdef]; rfl
    have hex := hex_of_ne_nil indices shape hlen hfullnil
    have hnonnew : ∃ x ∈ full, is_newaxis x = false := by
      rcases hex with ⟨sl, h⟩ | ⟨a, ha, _⟩
      · exact ⟨.slc sl, h, rfl⟩
      · exact ⟨.arr a, arr_mem_of_mem_advArrs ha, rfl⟩
    have hneAnn : annLoop 0 full shape 0 ≠ [] :=
      annLoop_ne_nil full 0 shape 0 hnonnew
    have harr : ∀ a ∈ advArrs full, a.ndim ≤ (subShapeOf full).length :=
      ndim_le_nsub full
    have hentries : expandEntries indices shape =
        (annLoop 0 full shape 0).map
          (entryExp (advNonContiguous full) (countBasic full)
            (subShapeOf full).length
            ((subShapeOf full).length + countBasic full)
            (if R.isEmpty then shape.length else nbbOf full)) := rfl
    have hexpsne : (annLoop 0 full shape 0).map
        (entryExp (advNonContiguous full) (countBasic full)
          (subShapeOf full).length
          ((subShapeOf full).length + countBasic full)
          (if R.isEmpty then shape.length else nbbOf full)) ≠ [] :=
      fun h => hneAnn (List.map_eq_nil_iff.mp h)
    have hlenC := entriesC_length (advNonContiguous full) (countBasic full)
      (subShapeOf full).length ((subShapeOf full).length + countBasic full)
      (if R.isEmpty then shape.length else nbbOf full) rfl full shape
      (Nat.le_refl _) harr hex
    have hnum_shape : (numpyMixedIndex A indices shape).shape =
        (if advNonContiguous full = true
         then subShapeOf full ++ basicLens full shape
         else (basicLens full shape).take (nbbOf full) ++ subShapeOf full ++
           (basicLens full shape).drop (nbbOf full)) := rfl
    have hnum_get : ∀ c : List Int, (numpyMixedIndex A indices shape).get c =
        A.get (axisCoords (subShapeOf full) full shape
          (if advNonContiguous full = true
           then c.take (subShapeOf full).length
           else (c.drop (nbbOf full)).take (subShapeOf full).length)
          (if advNonContiguous full = true
           then c.drop (subShapeOf full).length
           else c.take (nbbOf full) ++
             c.drop (nbbOf full + (subShapeOf full).length))) :=
      fun c => rfl
    cases hmvc : advNonContiguous full with
    | false =>
      rw [hmvc] at hentries hexpsne hlenC hnum_shape hnum_get
      have hfneg : ¬((false : Bool) = true) := by simp
      rw [if_neg hfneg] at hnum_shape
      have hSb : ∀ x ∈ S, is_basic_idx x = true := by
        have h2 : S.any (fun i => !is_basic_idx i) = false := by
          rw [← hadv]
          exact hmvc
        intro x hx
        have := List.any_eq_false.mp h2 x hx
        simpa using this
      have hnb2 : countBasic full = P.length + S.length := by
        rw [← hPMS, countBasic_append, countBasic_append,
          countBasic_all_basic P hPb, countBasic_all_adv M hMadv,
          countBasic_all_basic S hSb]
        omega
      have hoffP : ∀ d', d' < P.length →
          (if (if R.isEmpty then shape.length else nbbOf full) < d'
           then (subShapeOf full).length else 0) = 0 := by
        by_cases hRE : R.isEmpty
        · have hRnil : R = [] := List.isEmpty_iff.mp hRE
          have hMnil : M = [] := by rw [hMdef, hRnil]; rfl
          have hSnil : S = [] := by rw [hSdef, hRnil]; rfl
          have hallb : ∀ x ∈ full, is_basic_idx x = true := by
            intro x hx
            rw [← hPMS, hMnil, hSnil] at hx
            simp at hx
            exact hPb x hx
          have hnsub0 : (subShapeOf full).length = 0 := by
            rw [length_subShapeOf, advShapes_all_basic full hallb]
            rfl
          intro d' _
          rw [hnsub0, ite_self]
        · intro d' hd
          rw [if_neg hRE, hnbb]
          exact if_neg (by omega)
      have hoffS : ∀ d', P.length + M.length ≤ d' →
          (if (if R.isEmpty then shape.length else nbbOf full) < d'
           then (subShapeOf full).length else 0) =
          (subShapeOf full).length := by
        by_cases hRE : R.isEmpty
        · have hRnil : R = [] := List.isEmpty_iff.mp hRE
          have hMnil : M = [] := by rw [hMdef, hRnil]; rfl
          have hSnil : S = [] := by rw [hSdef, hRnil]; rfl
          have hallb : ∀ x ∈ full, is_basic_idx x = true := by
            intro x hx
            rw [← hPMS, hMnil, hSnil] at hx
            simp at hx
            exact hPb x hx
          have hnsub0 : (subShapeOf full).length = 0 := by
            rw [length_subShapeOf, advShapes_all_basic full hallb]
            rfl
          intro d' _
          rw [hnsub0, ite_self]
        · intro d' hd
          have hMne : M ≠ [] := by
            cases hRcons : R with
            | nil => rw [hRcons] at hRE; exact absurd rfl hRE
            | cons rh rt =>
              have hhd := List.head?_dropWhile_not is_basic_idx full
              rw [← hRdef, hRcons] at hhd
              have hrh : is_basic_idx rh = false := hhd
              rw [hMdef, hRcons,
                List.takeWhile_cons_of_pos (by simp [hrh])]
              exact List.cons_ne_nil _ _
          have hM1 : 1 ≤ M.length := List.length_pos.mpr hMne
          rw [if_neg hRE, hnbb]
          exact if_pos (by omega)
      have key := unmoved_shape_eq (countBasic full)
        (subShapeOf full).length
        ((subShapeOf full).length + countBasic full)
        (if R.isEmpty then shape.length else nbbOf full) P M S shape
        (subShapeOf full) hPb hMadv hSb hoffP hoffS (by rw [hPMS]) hnb2
        rfl rfl (fun sl hs n => hslcfull sl (hPMS ▸ hs) n)
        (by rw [hPMS]; exact hlenC)
      rw [hPMS] at key
      have hblens : basicLens full shape =
          basicLens P shape ++ basicLens S
            ((shape.drop (countNonNew P)).drop (countNonNew M)) := by
        rw [← hPMS, basicLens_append, basicLens_append,
          basicLens_all_adv M (shape.drop (countNonNew P)) hMadv,
          List.nil_append]
      have hPlen : (basicLens P shape).length = P.length := by
        rw [length_basicLens, countBasic_all_basic P hPb]
      have hSlen : (basicLens S
          ((shape.drop (countNonNew P)).drop (countNonNew M))).length =
          S.length := by
        rw [length_basicLens, countBasic_all_basic S hSb]
      have htake2 : (basicLens full shape).take (nbbOf full) =
          basicLens P shape := by
        rw [hblens, hnbb]
        exact List.take_left' hPlen
      have hdrop2 : (basicLens full shape).drop (nbbOf full) =
          basicLens S ((shape.drop (countNonNew P)).drop (countNonNew M)) := by
        rw [hblens, hnbb]
        exact List.drop_left' hPlen
      have hspec : (numpyMixedIndex A indices shape).shape =
          basicLens P shape ++ (subShapeOf full ++ basicLens S
            ((shape.drop (countNonNew P)).drop (countNonNew M))) := by
        rw [hnum_shape, htake2, hdrop2, List.append_assoc]
      constructor
      · rw [hc1, hentries, gatherAt_shape, broadcastArrays_shape _ hexpsne,
          hspec]
        exact key
      · intro c hvalid
        have hng := hnum_get c
        rw [if_neg hfneg, if_neg hfneg] at hng
        have hclen : c.length =
            (subShapeOf full).length + countBasic full := by
          have h0 := validCoordB_length _ _ hvalid
          rw [hspec] at h0
          simp only [List.length_append] at h0
          rw [hPlen, hSlen] at h0
          omega
        have hbounds := validCoordB_getD _ _ hvalid
        rw [hspec] at hbounds
        have hvalP : ∀ j, j < P.length → 0 ≤ c.getD j 0 ∧
            c.getD j 0 < ((basicLens P shape).getD j 1 : Int) := by
          intro j hj
          have hb := hbounds j (by
            simp only [List.length_append]
            omega)
          rwa [getD_PSS_front _ _ P.length hPlen j hj] at hb
        have hvalS : ∀ j, j < S.length →
            0 ≤ c.getD ((subShapeOf full).length + P.length + j) 0 ∧
            c.getD ((subShapeOf full).length + P.length + j) 0 <
              ((basicLens S
                ((shape.drop (countNonNew P)).drop
                  (countNonNew M))).getD j 1 : Int) := by
          intro j hj
          have hb := hbounds ((subShapeOf full).length + P.length + j) (by
            simp only [List.length_append]
            rw [hPlen, hSlen]
            omega)
          rwa [getD_PSS _ _ _ P.length (subShapeOf full).length hPlen rfl j]
            at hb
        have key2 := unmoved_vals_eq (countBasic full)
          (subShapeOf full).length
          ((subShapeOf full).length + countBasic full)
          (if R.isEmpty then shape.length else nbbOf full) P M S shape
          (subShapeOf full)
          (((annLoop 0 full shape 0).map
            (entryExp false (countBasic full) (subShapeOf full).length
              ((subShapeOf full).length + countBasic full)
              (if R.isEmpty then shape.length else nbbOf full))).foldl
            (fun acc e => broadcastShapes2 acc e.shape) []) c
          hPb hMadv hSb hoffP hoffS (by rw [hPMS]) hnb2 rfl rfl hlenC hclen
          (fun sl hs n => hslcfull sl (hPMS ▸ hs) n) hvalP hvalS
        rw [hPMS] at key2
        rw [hc1, hentries, gatherAt_get_broadcastArrays, hng, hnbb]
        exact congrArg A.get key2
    | true =>
      rw [hmvc] at hentries hexpsne hlenC hnum_shape hnum_get
      rw [if_pos rfl] at hnum_shape
      have hblen : (basicLens full shape).length = countBasic full :=
        length_basicLens full shape
      have key := moved_shape_eq (countBasic full) (subShapeOf full).length
        ((subShapeOf full).length + countBasic full)
        (if R.isEmpty then shape.length else nbbOf full) full shape
        (subShapeOf full) rfl rfl rfl rfl hslcfull hlenC
      constructor
      · rw [hc1, hentries, gatherAt_shape, broadcastArrays_shape _ hexpsne,
          hnum_shape]
        exact key
      · intro c hvalid
        have hng := hnum_get c
        rw [if_pos rfl, if_pos rfl] at hng
        have hclen : c.length =
            (subShapeOf full).length + countBasic full := by
          have h0 := validCoordB_length _ _ hvalid
          rw [hnum_shape] at h0
          simp only [List.length_append] at h0
          rw [hblen] at h0
          omega
        have hbounds := validCoordB_getD _ _ hvalid
        rw [hnum_shape] at hbounds
        have hval : ∀ j, j < countBasic full →
            0 ≤ c.getD ((subShapeOf full).length + j) 0 ∧
            c.getD ((subShapeOf full).length + j) 0 <
              ((basicLens full shape).getD j 1 : Int) := by
          intro j hj
          have hb := hbounds ((subShapeOf full).length + j) (by
            simp only [List.length_append]
            rw [hblen]
            omega)
          rwa [getD_SB (subShapeOf full) (basicLens full shape)
            (subShapeOf full).length rfl j] at hb
        have key2 := moved_vals_eq (countBasic full)
          (subShapeOf full).length
          ((subShapeOf full).length + countBasic full)
          (if R.isEmpty then shape.length else nbbOf full) full shape
          (subShapeOf full)
          (((annLoop 0 full shape 0).map
            (entryExp true (countBasic full) (subShapeOf full).length
              ((subShapeOf full).length + countBasic full)
              (if R.isEmpty then shape.length else nbbOf full))).foldl
            (fun acc e => broadcastShapes2 acc e.shape) []) c
          rfl rfl rfl rfl hlenC hclen hslcfull hval
        rw [hc1, hentries, gatherAt_get_broadcastArrays, hng]
        exact congrArg A.get key2

/-- Concrete index array used in the C1 witness: a 1-d advanced index of
length 2 selecting rows 1 and 0. -/
def exIdxArr : NdArr Int := ⟨[2], fun c => 1 - c.headI⟩

/-- Concrete source array used in the C1 witness. -/
def exSrc : NdArr Int := ⟨[2, 3], fun c => c.headI * 3 + c.tail.headI⟩

theorem expand_indices_correct_witness :
    ([IndexSpec.arr exIdxArr, IndexSpec.slc fullSlice] :
        List IndexSpec).length ≤ ([2, 3] : List Nat).length ∧
    ([IndexSpec.arr exIdxArr, IndexSpec.slc fullSlice] :
        List IndexSpec).all stepNonNeg = true ∧
    validCoordB (numpyMixedIndex exSrc
      [IndexSpec.arr exIdxArr, IndexSpec.slc fullSlice] [2, 3]).shape
      [1, 2] = true ∧
    (gatherAt exSrc (expand_indices
        [IndexSpec.arr exIdxArr, IndexSpec.slc fullSlice] [2, 3])).shape =
      (numpyMixedIndex exSrc
        [IndexSpec.arr exIdxArr, IndexSpec.slc fullSlice] [2, 3]).shape ∧
    (gatherAt exSrc (expand_indices
        [IndexSpec.arr exIdxArr, IndexSpec.slc fullSlice] [2, 3])).get
        [1, 2] =
      (numpyMixedIndex exSrc
        [IndexSpec.arr exIdxArr, IndexSpec.slc fullSlice] [2, 3]).get
        [1, 2] :=
  ⟨by decide, by decide, by decide,
    (expand_indices_correct exSrc
      [IndexSpec.arr exIdxArr, IndexSpec.slc fullSlice] [2, 3]
      (by decide) (by decide)).1,
    (expand_indices_correct exSrc
      [IndexSpec.arr exIdxArr, IndexSpec.slc fullSlice] [2, 3]
      (by decide) (by decide)).2 [1, 2] (by decide)⟩

/-- The negative-step slice used in the counterexample: `a[::-1]`. -/
def revSlice : PySlice := ⟨none, none, some (-1)⟩

/-- Length-2 identity source array used in the counterexample. -/
def revSrc : NdArr Int := ⟨[2], fun c => c.headI⟩

/-- C1 counterexample for the original, unrestricted claim: on the
negative-step slice `a[::-1]` over shape [2], expand_indices discards the
reversal direction returned by get_canonical_form_slice (mixture.py line
166) and emits an ascending arange, so gathering produces the unreversed
array: at output coordinate [0] NumPy indexing reads entry 1 while the
program reads entry 0.  There are no advanced entries in this example, so
the claim's combined-advanced-index reading degenerates to gathering the
single emitted index array, exactly expand_indices' output. -/
theorem expand_indices_negative_step_counterexample :
    ([IndexSpec.slc revSlice] : List IndexSpec).length ≤
      ([2] : List Nat).length ∧
    validCoordB (numpyMixedIndex revSrc [IndexSpec.slc revSlice] [2]).shape
      [0] = true ∧
    (gatherAt revSrc (expand_indices [IndexSpec.slc revSlice] [2])).shape =
      (numpyMixedIndex revSrc [IndexSpec.slc revSlice] [2]).shape ∧
    (numpyMixedIndex revSrc [IndexSpec.slc revSlice] [2]).get [0] = 1 ∧
    (gatherAt revSrc (expand_indices [IndexSpec.slc revSlice] [2])).get
      [0] = 0 := by
  refine ⟨by decide, by decide, by decide, by decide, by decide⟩

end PyMCMix
